import Mathlib

/-!
# mnist-in-mpi: matrix engine and softmax classifier

A shallow embedding of `src/matrix.cpp` and `src/nn.cpp`.

Modelling decisions.

* `vector<T>` is `List T`, `Matrix` (`vector<vector<T>>`) is `List (List T)`.  Nothing in the
  type forces the rows of a matrix to have one length; `Rect` states it.
* A call either returns or ends in one of the failures of `Err`: an exception thrown by the
  source, or undefined behaviour of the C++ abstract machine (`Err.Undefined`: `operator[]`
  outside the vector, `*end()`, a reversed iterator range).
* Container sizes are assumed to fit in `int`, so `n_rows` and `n_cols` are natural numbers and
  a counting loop `for (int i = 0; i < n; ++i)` is `forLoop n`.
* The matrix functions are templates in the source and are generic in the element type here.
* `double` is `Dbl α`: the finite values are the elements of an ordered field `α` (the reals in
  the theorems) with exact arithmetic, and `+∞`, `-∞` and `NaN` behave as in IEEE 754.  Rounding,
  overflow and the sign of zero are not modelled; every zero divisor in the source is an `int`
  converted to `double`, hence a positive zero.  `exp` and `log` of `<math.h>` are parameters,
  instantiated with `Real.exp` and `Real.log` in the theorems.
-/

namespace MnistMpi

/-! ## Failures -/

/-- Ways a call can end without returning a value. -/
inductive Err where
  /-- The `runtime_error` thrown by a shape check of `matrix.cpp`. -/
  | ShapeMismatch
  /-- The exception `throw "From < 0"` of `chunk`. -/
  | InvalidRange
  /-- The error the specification names for an empty batch; no statement of the source
  raises it. -/
  | InvalidBatch
  /-- The `std::length_error` of a vector constructor given a negative size. -/
  | LengthError
  /-- Undefined behaviour: indexing outside a vector, dereferencing `end()`, a reversed range. -/
  | Undefined
  deriving DecidableEq, Repr

instance {ε α : Type} [DecidableEq ε] [DecidableEq α] : DecidableEq (Except ε α) := fun a b =>
  match a, b with
  | Except.ok x, Except.ok y =>
    if h : x = y then isTrue (by rw [h]) else isFalse (fun h' => h (by cases h'; rfl))
  | Except.error x, Except.error y =>
    if h : x = y then isTrue (by rw [h]) else isFalse (fun h' => h (by cases h'; rfl))
  | Except.ok _, Except.error _ => isFalse (fun h => by cases h)
  | Except.error _, Except.ok _ => isFalse (fun h => by cases h)

section Generic

variable {T : Type}

/-- A `vector<vector<T>>`. -/
abbrev Matrix (T : Type) := List (List T)

/-- The source's `n_rows`: `m.size()`. -/
def n_rows (m : Matrix T) : Nat := m.length

/-- The source's `n_cols`: `n_rows(m) == 0 ? 0 : m[0].size()`. -/
def n_cols (m : Matrix T) : Nat :=
  match m with
  | [] => 0
  | row :: _ => row.length

/-- Rectangularity: every row is as long as the first one. -/
def Rect (m : Matrix T) : Prop := ∀ row ∈ m, row.length = n_cols m

instance (m : Matrix T) : Decidable (Rect m) := by
  unfold Rect; infer_instance

/-- The matrix has `r` rows, each of length `c` (what `blank_matrix(r, c)` builds). -/
def HasShape (m : Matrix T) (r c : Nat) : Prop := m.length = r ∧ ∀ row ∈ m, row.length = c

instance (m : Matrix T) (r c : Nat) : Decidable (HasShape m r c) := by
  unfold HasShape; infer_instance

/-- A counting loop `for (int i = 0; i < n; ++i) body`, threading the state and stopping at the
first failure. -/
def forLoop {σ : Type} : Nat → (Nat → σ → Except Err σ) → σ → Except Err σ
  | 0, _, s => pure s
  | n + 1, body, s => forLoop n body s >>= body n

/-- Reading `v[i]`. -/
def at1 (v : List T) (i : Nat) : Except Err T :=
  match v[i]? with
  | some x => pure x
  | none => throw Err.Undefined

/-- Writing `v[i] = x`. -/
def set1 (v : List T) (i : Nat) (x : T) : Except Err (List T) :=
  if i < v.length then pure (v.set i x) else throw Err.Undefined

/-- Reading `m[i][j]`. -/
def at2 (m : Matrix T) (i j : Nat) : Except Err T :=
  at1 m i >>= fun row => at1 row j

/-- Writing `m[i][j] = x`. -/
def set2 (m : Matrix T) (i j : Nat) (x : T) : Except Err (Matrix T) :=
  at1 m i >>= fun row => set1 row j x >>= fun row' => pure (m.set i row')

/-- Conversion of an `int` to `size_t` (64 bits). -/
def toSizeT (x : Int) : Nat := (x % 2 ^ 64).toNat

/-- The source's `chunk`: the elements `[from, to)` of a vector, `to` clamped to the size.  The
comparison `to > m.size()` is made after converting `to` to `size_t`.  `&m[m.size()]` is taken
as the past-the-end pointer, as every clamped batch of `train` needs; a range with
`from > to` is undefined behaviour. -/
def chunk (m : List T) (from_ to_ : Int) : Except Err (List T) :=
  if from_ < 0 then throw Err.InvalidRange
  else
    let to' : Int := if toSizeT to_ > m.length then (m.length : Int) else to_
    if from_ ≤ to' ∧ to' ≤ (m.length : Int) then
      pure ((m.drop from_.toNat).take (to' - from_).toNat)
    else throw Err.Undefined

/-- The source's `blank_matrix(rows, cols, value)`. -/
def blank_matrix (rows cols : Int) (value : T) : Except Err (Matrix T) :=
  if rows < 0 ∨ cols < 0 then throw Err.LengthError
  else pure (List.replicate rows.toNat (List.replicate cols.toNat value))

/-- The source's `transpose`. -/
def transpose [Zero T] (matrix : Matrix T) : Except Err (Matrix T) :=
  forLoop (n_cols matrix) (fun j transposed =>
    forLoop (n_rows matrix) (fun i transposed =>
      at2 matrix i j >>= fun x => set2 transposed j i x) transposed)
    (List.replicate (n_cols matrix) (List.replicate (n_rows matrix) 0))

/-- The source's element-wise `log` of a matrix; `ln` is the scalar logarithm. -/
def log (ln : T → T) (matrix : Matrix T) : Matrix T :=
  matrix.map fun row => row.map ln

/-- The source's `sum` of a matrix: row-major accumulation from `0`. -/
def sum [Add T] [Zero T] (matrix : Matrix T) : T :=
  matrix.foldl (fun result row => row.foldl (fun result elem => result + elem) result) 0

/-- The source's `add_to_each`. -/
def add_to_each [Add T] (matrix to_add : Matrix T) : Except Err (Matrix T) :=
  if n_cols matrix ≠ n_cols to_add then throw Err.ShapeMismatch
  else if n_rows to_add ≠ 1 then throw Err.ShapeMismatch
  else
    at1 to_add 0 >>= fun v =>
    forLoop (n_rows matrix) (fun r result =>
      forLoop (n_cols matrix) (fun c result =>
        at1 v c >>= fun e =>
        at2 result r c >>= fun x =>
        set2 result r c (x + e)) result) matrix

/-- The source's `operator+` on two matrices. -/
def operator_add [Add T] (lhs rhs : Matrix T) : Except Err (Matrix T) :=
  if n_rows lhs ≠ n_rows rhs ∨ n_cols lhs ≠ n_cols rhs then throw Err.ShapeMismatch
  else
    forLoop (n_rows rhs) (fun i result =>
      forLoop (n_cols rhs) (fun j result =>
        at2 rhs i j >>= fun e =>
        at2 result i j >>= fun x =>
        set2 result i j (x + e)) result) lhs

/-- The source's `operator-` on two matrices. -/
def operator_sub [Sub T] (lhs rhs : Matrix T) : Except Err (Matrix T) :=
  if n_rows lhs ≠ n_rows rhs ∨ n_cols lhs ≠ n_cols rhs then throw Err.ShapeMismatch
  else
    forLoop (n_rows rhs) (fun i result =>
      forLoop (n_cols rhs) (fun j result =>
        at2 rhs i j >>= fun e =>
        at2 result i j >>= fun x =>
        set2 result i j (x - e)) result) lhs

/-- The source's `operator*` of a scalar and a matrix. -/
def operator_smul [Mul T] (scalar : T) (matrix : Matrix T) : Matrix T :=
  matrix.map fun row => row.map fun elem => elem * scalar

/-- The source's `operator*` on two matrices. -/
def operator_mul [Add T] [Mul T] [Zero T] (lhs rhs : Matrix T) : Except Err (Matrix T) :=
  if n_cols lhs ≠ n_rows rhs then throw Err.ShapeMismatch
  else
    let n := n_rows lhs
    let p := n_cols lhs
    let m := n_cols rhs
    blank_matrix (n : Int) (m : Int) (0 : T) >>= fun result =>
    forLoop n (fun i result =>
      forLoop m (fun j result =>
        forLoop p (fun k result =>
          at2 lhs i k >>= fun a =>
          at2 rhs k j >>= fun b =>
          at2 result i j >>= fun x =>
          set2 result i j (x + a * b)) result) result) result

/-- The source's `hadamard`. -/
def hadamard [Mul T] (lhs rhs : Matrix T) : Except Err (Matrix T) :=
  if n_rows lhs ≠ n_rows rhs ∨ n_cols lhs ≠ n_cols rhs then throw Err.ShapeMismatch
  else
    forLoop (n_rows rhs) (fun i result =>
      forLoop (n_cols rhs) (fun j result =>
        at2 rhs i j >>= fun e =>
        at2 result i j >>= fun x =>
        set2 result i j (x * e)) result) lhs

/-- The entry `m[i][j]`, when it exists. -/
def entry? (m : Matrix T) (i j : Nat) : Option T := m[i]? >>= fun row => row[j]?

/-- The entry `m[i][j]`, or `0` outside the matrix. -/
def entryD [Zero T] (m : Matrix T) (i j : Nat) : T := (entry? m i j).getD 0

/-- The `r` by `c` matrix with entry `f i j` at `(i, j)`; used to state results. -/
def tabulate (r c : Nat) (f : Nat → Nat → T) : Matrix T :=
  (List.range r).map fun i => (List.range c).map fun j => f i j

/-- The `n` by `n` identity matrix: `1` on the diagonal and `0` elsewhere. -/
def identity [Zero T] [One T] (n : Nat) : Matrix T :=
  tabulate n n fun i j => if i = j then 1 else 0

end Generic


/-! ## The `double` type -/

/-- A `double`: a finite value of the ordered field `α`, an infinity, or a NaN. -/
inductive Dbl (α : Type) where
  | fin (x : α)
  | pinf
  | ninf
  | nan
  deriving DecidableEq, Repr

namespace Dbl

variable {α : Type} [LinearOrderedField α]

/-- Unary minus. -/
def neg : Dbl α → Dbl α
  | fin x => fin (-x)
  | pinf => ninf
  | ninf => pinf
  | nan => nan

/-- Addition: `∞ + (-∞)` is NaN, NaN is absorbing. -/
def add : Dbl α → Dbl α → Dbl α
  | fin x, fin y => fin (x + y)
  | fin _, pinf => pinf
  | fin _, ninf => ninf
  | pinf, fin _ => pinf
  | pinf, pinf => pinf
  | pinf, ninf => nan
  | ninf, fin _ => ninf
  | ninf, pinf => nan
  | ninf, ninf => ninf
  | nan, _ => nan
  | _, nan => nan

/-- An infinity `d` times the sign of the finite value `x`; `∞ * 0` is NaN. -/
def signed (d : Dbl α) (x : α) : Dbl α :=
  if 0 < x then d else if x < 0 then neg d else nan

/-- Multiplication. -/
def mul : Dbl α → Dbl α → Dbl α
  | fin x, fin y => fin (x * y)
  | fin x, pinf => signed pinf x
  | fin x, ninf => signed ninf x
  | pinf, fin y => signed pinf y
  | ninf, fin y => signed ninf y
  | pinf, pinf => pinf
  | pinf, ninf => ninf
  | ninf, pinf => ninf
  | ninf, ninf => pinf
  | nan, _ => nan
  | _, nan => nan

/-- Division; a zero divisor is a positive zero: `x / 0` is `±∞` by the sign of `x`, and
`0 / 0` is NaN. -/
def div : Dbl α → Dbl α → Dbl α
  | fin x, fin y => if y = 0 then signed pinf x else fin (x / y)
  | fin _, pinf => fin 0
  | fin _, ninf => fin 0
  | pinf, fin y => if y < 0 then ninf else pinf
  | ninf, fin y => if y < 0 then pinf else ninf
  | pinf, pinf => nan
  | pinf, ninf => nan
  | ninf, pinf => nan
  | ninf, ninf => nan
  | nan, _ => nan
  | _, nan => nan

/-- The comparison `a < b`; false when an operand is NaN. -/
def blt : Dbl α → Dbl α → Bool
  | fin x, fin y => decide (x < y)
  | fin _, pinf => true
  | ninf, fin _ => true
  | ninf, pinf => true
  | _, _ => false

instance : Zero (Dbl α) := ⟨fin 0⟩
instance : One (Dbl α) := ⟨fin 1⟩
instance : Neg (Dbl α) := ⟨neg⟩
instance : Add (Dbl α) := ⟨add⟩
instance : Sub (Dbl α) := ⟨fun a b => add a (neg b)⟩
instance : Mul (Dbl α) := ⟨mul⟩
instance : Div (Dbl α) := ⟨div⟩
instance : LT (Dbl α) := ⟨fun a b => blt a b = true⟩
instance (a b : Dbl α) : Decidable (a < b) := inferInstanceAs (Decidable (blt a b = true))

/-- Addition of doubles (exact on the finite values) is associative and commutative with
neutral element `0`, so finite sums of doubles do not depend on the order in this model. -/
instance : AddCommMonoid (Dbl α) where
  add := fun a b => a + b
  zero := 0
  nsmul := nsmulRec
  add_assoc := by
    intro a b c
    cases a <;> cases b <;> cases c <;>
      first
        | rfl
        | exact congrArg fin (add_assoc _ _ _)
  zero_add := by
    intro a
    cases a <;>
      first
        | rfl
        | exact congrArg fin (zero_add _)
  add_zero := by
    intro a
    cases a <;>
      first
        | rfl
        | exact congrArg fin (add_zero _)
  add_comm := by
    intro a b
    cases a <;> cases b <;>
      first
        | rfl
        | exact congrArg fin (add_comm _ _)

/-- Conversion `double(n)` of an `int`. -/
def ofInt (n : Int) : Dbl α := fin (n : α)

/-- The `exp` of `<math.h>`, given the exponential `e` of the finite values. -/
def exp (e : α → α) : Dbl α → Dbl α
  | fin x => fin (e x)
  | pinf => pinf
  | ninf => fin 0
  | nan => nan

/-- The `log` of `<math.h>`, given the logarithm `l` of the positive finite values:
`log(0)` is `-∞` and the logarithm of a negative value is NaN. -/
def log (l : α → α) : Dbl α → Dbl α
  | fin x => if 0 < x then fin (l x) else if x = 0 then ninf else nan
  | pinf => pinf
  | ninf => nan
  | nan => nan

/-- The value is finite. -/
def isFinite : Dbl α → Bool
  | fin _ => true
  | _ => false

/-- The matrix of doubles with the given finite entries. -/
def ofMatrix (M : Matrix α) : Matrix (Dbl α) := M.map fun row => row.map fin

end Dbl

/-- The row is one-hot with hot column `c`: entry `c` is `1` and every other entry is `0`. -/
def OneHotRow {α : Type} [Zero α] [One α] (row : List α) (c : Nat) : Prop :=
  c < row.length ∧ ∀ j, j < row.length → row[j]? = some (if j = c then 1 else 0)

/-- The matrix is one-hot, row `i` having hot column `c i`. -/
def OneHot {α : Type} [Zero α] [One α] (Y : Matrix α) (c : Nat → Nat) : Prop :=
  ∀ i row, Y[i]? = some row → OneHotRow row (c i)

/-! ## Closed forms used to state what `grad` returns -/

section ClosedForms

variable {α : Type} [LinearOrderedField α]

/-- The logits `X * W + b` of a `B` by `D` batch, as sums over the reals. -/
def logits_real (X W : Matrix α) (bv : List α) (B D C : Nat) : Matrix α :=
  (tabulate B C fun i j => ∑ k ∈ Finset.range D, entryD X i k * entryD W k j).map
    fun row => List.zipWith (fun x e => x + e) row bv

/-- The softmax of every row: `exp(x) / Σ exp`. -/
def probs_real (exp : α → α) (Z : Matrix α) : Matrix α :=
  Z.map fun row => row.map fun x => exp x / (row.map exp).sum

/-- The error signal `Y_prob - Y`. -/
def delta_real (P Y : Matrix α) : Matrix α :=
  List.zipWith (List.zipWith (fun x e => x - e)) P Y

/-- The weight gradient `transpose(X) * delta`. -/
def grad_W_real (X delta : Matrix α) (B D C : Nat) : Matrix α :=
  tabulate D C fun k j => ∑ i ∈ Finset.range B, entryD X i k * entryD delta i j

/-- The bias gradient: the row of column sums of `delta`. -/
def grad_b_real (delta : Matrix α) (B C : Nat) : Matrix α :=
  tabulate 1 C fun _ j => ∑ i ∈ Finset.range B, entryD delta i j

/-- The value `1/B * Σ_i Σ_j Y[i][j] * ln(P[i][j])`. -/
def cost_real (ln : α → α) (Y P : Matrix α) (B C : Nat) : α :=
  1 / (B : α) * ∑ i ∈ Finset.range B, ∑ j ∈ Finset.range C, entryD Y i j * ln (entryD P i j)

/-- The parameter `M - (lr * 1 / batch_size) * G` after the update. -/
def updated_real (M G : Matrix α) (lr : α) (batch_size : Int) : Matrix α :=
  List.zipWith (List.zipWith (fun x e => x - e)) M
    (G.map fun row => row.map fun x => x * (lr * 1 / (batch_size : α)))

end ClosedForms

/-! ## `nn.cpp` -/

section Classifier

variable {α : Type} [LinearOrderedField α]

/-- The value `*max_element(v.begin(), v.end())`: the first largest element under `<`, and
`none` when the vector is empty (the iterator is `end()`). -/
def max_element {T : Type} [LT T] [DecidableRel (fun a b : T => a < b)] : List T → Option T
  | [] => none
  | x :: xs => some (xs.foldl (fun largest y => if largest < y then y else largest) x)

/-- The source's `softmax` of a vector; `exp` is the exponential of the finite values. -/
def softmax (exp : α → α) (v : List (Dbl α)) : Except Err (List (Dbl α)) :=
  match max_element v with
  | none => throw Err.Undefined
  | some max =>
    let expd := v.map fun x => Dbl.exp exp (x - max)
    let sum := expd.foldl (fun sum x => sum + x) 0
    forLoop v.length (fun i result =>
      at1 expd i >>= fun e => set1 result i (e / sum)) (List.replicate v.length 0)

/-- The source's `softmax` of a matrix: `softmax` of every row, in order. -/
def softmax_rows (exp : α → α) : Matrix (Dbl α) → Except Err (Matrix (Dbl α))
  | [] => pure []
  | row :: rest =>
    softmax exp row >>= fun r => softmax_rows exp rest >>= fun rs => pure (r :: rs)

/-- The source's `cross_entropy`: `1/double(n_rows(Y)) * sum(hadamard(Y, log(Y_prob)))`. -/
def cross_entropy (ln : α → α) (Y Y_prob : Matrix (Dbl α)) : Except Err (Dbl α) :=
  hadamard Y (log (Dbl.log ln) Y_prob) >>= fun result =>
  pure (1 / Dbl.ofInt (n_rows Y : Int) * sum result)

/-- The class `NeuralNetwork`. -/
structure NeuralNetwork (α : Type) where
  W : Matrix (Dbl α)
  b : Matrix (Dbl α)
  n_classes : Int
  data_dim : Int

/-- What `grad` returns and what it stores in its two output parameters. -/
structure GradResult (α : Type) where
  cost : Dbl α
  grad_W : Matrix (Dbl α)
  grad_b : Matrix (Dbl α)

/-- The source's `NeuralNetwork::grad`.  The line that prints the accuracy is left out: it
changes no value, and `accuracy`, `argmax` and `from_one_hot` are not in the sources. -/
def NeuralNetwork.grad (exp ln : α → α) (nn : NeuralNetwork α) (X Y : Matrix (Dbl α)) :
    Except Err (GradResult α) :=
  operator_mul X nn.W >>= fun XW =>
  add_to_each XW nn.b >>= fun Z =>
  softmax_rows exp Z >>= fun Y_prob =>
  operator_sub Y_prob Y >>= fun delta =>
  transpose X >>= fun Xt =>
  operator_mul Xt delta >>= fun grad_W =>
  blank_matrix 1 (delta.length : Int) (1 : Dbl α) >>= fun ones =>
  operator_mul ones delta >>= fun grad_b =>
  cross_entropy ln Y Y_prob >>= fun cost =>
  pure { cost := cost, grad_W := grad_W, grad_b := grad_b }

/-- The parameter update of `train` after `grad`:
`W = W - lr * 1/double(batch_size) * grad_W` and the same for `b`. -/
def NeuralNetwork.update (nn : NeuralNetwork α) (g : GradResult α) (batch_size : Int)
    (lr : Dbl α) : Except Err (NeuralNetwork α) :=
  operator_sub nn.W (operator_smul (lr * 1 / Dbl.ofInt batch_size) g.grad_W) >>= fun W' =>
  operator_sub nn.b (operator_smul (lr * 1 / Dbl.ofInt batch_size) g.grad_b) >>= fun b' =>
  pure { nn with W := W', b := b' }

/-- One training step on a batch: the body of the inner loop of `train` once the two chunks
are taken.  It returns the updated network and the cost. -/
def NeuralNetwork.step (exp ln : α → α) (nn : NeuralNetwork α) (X_batch Y_batch : Matrix (Dbl α))
    (batch_size : Int) (lr : Dbl α) : Except Err (NeuralNetwork α × Dbl α) :=
  nn.grad exp ln X_batch Y_batch >>= fun g =>
  nn.update g batch_size lr >>= fun nn' =>
  pure (nn', g.cost)

/-- The body of the inner loop of `train` at index `i`. -/
def NeuralNetwork.train_body (exp ln : α → α) (X Y : Matrix (Dbl α)) (batch_size : Int)
    (lr : Dbl α) (i : Int) (st : NeuralNetwork α × List (Dbl α)) :
    Except Err (NeuralNetwork α × List (Dbl α)) :=
  chunk X i (i + batch_size) >>= fun X_batch =>
  chunk Y i (i + batch_size) >>= fun Y_batch =>
  st.1.step exp ln X_batch Y_batch batch_size lr >>= fun r =>
  pure (r.1, st.2 ++ [r.2])

/-- The inner loop of `train`, `for (int i = 0; i < n_rows(X); i += batch_size)`, from index
`i`; `none` when the fuel runs out before the loop ends. -/
def NeuralNetwork.train_epoch (exp ln : α → α) (X Y : Matrix (Dbl α)) (batch_size : Int)
    (lr : Dbl α) : Nat → Int → NeuralNetwork α × List (Dbl α) →
    Option (Except Err (NeuralNetwork α × List (Dbl α)))
  | fuel, i, st =>
    if i < (n_rows X : Int) then
      match fuel with
      | 0 => none
      | fuel + 1 =>
        match NeuralNetwork.train_body exp ln X Y batch_size lr i st with
        | Except.error e => some (Except.error e)
        | Except.ok st' =>
          NeuralNetwork.train_epoch exp ln X Y batch_size lr fuel (i + batch_size) st'
    else some (Except.ok st)

/-- The outer loop of `train`: `epochs` runs of the inner loop, each with the given fuel. -/
def NeuralNetwork.train_epochs (exp ln : α → α) (X Y : Matrix (Dbl α)) (batch_size : Int)
    (lr : Dbl α) (fuel : Nat) : Nat → NeuralNetwork α × List (Dbl α) →
    Option (Except Err (NeuralNetwork α × List (Dbl α)))
  | 0, st => some (Except.ok st)
  | epochs + 1, st =>
    match NeuralNetwork.train_epochs exp ln X Y batch_size lr fuel epochs st with
    | none => none
    | some (Except.error e) => some (Except.error e)
    | some (Except.ok st') => NeuralNetwork.train_epoch exp ln X Y batch_size lr fuel 0 st'

/-- The source's `NeuralNetwork::train`: the network after training and the cost history. -/
def NeuralNetwork.train (exp ln : α → α) (nn : NeuralNetwork α) (X Y : Matrix (Dbl α))
    (epochs batch_size : Int) (lr : Dbl α) (fuel : Nat) :
    Option (Except Err (NeuralNetwork α × List (Dbl α))) :=
  match blank_matrix nn.data_dim nn.n_classes (0 : Dbl α) >>= fun _ =>
      blank_matrix 1 nn.n_classes (0 : Dbl α) with
  | Except.error e => some (Except.error e)
  | Except.ok _ =>
    NeuralNetwork.train_epochs exp ln X Y batch_size lr fuel epochs.toNat (nn, [])

end Classifier

/-! ## Loops and indexed access -/

section Toolkit

variable {T : Type}

theorem ok_bind {ε β γ : Type} (x : β) (f : β → Except ε γ) : (Except.ok x >>= f) = f x := rfl

theorem error_bind {ε β γ : Type} (e : ε) (f : β → Except ε γ) :
    ((Except.error e : Except ε β) >>= f) = Except.error e := rfl

theorem pure_eq_ok {ε β : Type} (x : β) : (pure x : Except ε β) = Except.ok x := rfl

theorem throw_eq_error {ε β : Type} (e : ε) : (throw e : Except ε β) = Except.error e := rfl

theorem forLoop_zero {σ : Type} (body : Nat → σ → Except Err σ) (s : σ) :
    forLoop 0 body s = Except.ok s := rfl

theorem forLoop_succ {σ : Type} (n : Nat) (body : Nat → σ → Except Err σ) (s : σ) :
    forLoop (n + 1) body s = (forLoop n body s >>= body n) := rfl

/-- Invariant rule for counting loops: an invariant that holds at the start and is carried by
every iteration holds at the end, and the loop returns. -/
theorem forLoop_inv {σ : Type} (Inv : Nat → σ → Prop) (n : Nat) (body : Nat → σ → Except Err σ)
    (init : σ) (h0 : Inv 0 init)
    (hstep : ∀ i s, i < n → Inv i s → ∃ s', body i s = Except.ok s' ∧ Inv (i + 1) s') :
    ∃ s', forLoop n body init = Except.ok s' ∧ Inv n s' := by
  induction n with
  | zero => exact ⟨init, rfl, h0⟩
  | succ k ih =>
    obtain ⟨s, hs, hinv⟩ := ih (fun i s hi => hstep i s (Nat.lt_succ_of_lt hi))
    obtain ⟨s', hs', hinv'⟩ := hstep k s (Nat.lt_succ_self k) hinv
    exact ⟨s', by rw [forLoop_succ, hs, ok_bind, hs'], hinv'⟩

theorem at1_ok {v : List T} {i : Nat} {x : T} (h : v[i]? = some x) : at1 v i = Except.ok x := by
  simp [at1, h, pure_eq_ok]

theorem at1_error {v : List T} {i : Nat} (h : v.length ≤ i) :
    at1 v i = Except.error Err.Undefined := by
  simp [at1, List.getElem?_eq_none h, throw_eq_error]

theorem at2_ok {m : Matrix T} {i j : Nat} {x : T} (h : entry? m i j = some x) :
    at2 m i j = Except.ok x := by
  unfold entry? at h
  cases hrow : m[i]? with
  | none => simp [hrow] at h
  | some row =>
    simp [hrow] at h
    rw [at2, at1_ok hrow, ok_bind, at1_ok h]

theorem entry?_eq_some_iff {m : Matrix T} {i j : Nat} {x : T} :
    entry? m i j = some x ↔ ∃ row, m[i]? = some row ∧ row[j]? = some x := by
  unfold entry?
  cases m[i]? <;> simp

theorem entry?_lt {m : Matrix T} {i j : Nat} {x : T} (h : entry? m i j = some x) :
    i < m.length := by
  obtain ⟨row, hrow, -⟩ := entry?_eq_some_iff.mp h
  exact (List.getElem?_eq_some_iff.mp hrow).1

/-- Two matrices with the same row lengths and the same entries are equal. -/
theorem matrix_ext {A B : Matrix T} (hlen : A.map List.length = B.map List.length)
    (hent : ∀ i j, entry? A i j = entry? B i j) : A = B := by
  have hl : A.length = B.length := by simpa using congrArg List.length hlen
  apply List.ext_getElem hl
  intro i h1 h2
  have hrl : (A[i]).length = (B[i]).length := by
    have := congrArg (fun l => l[i]?) hlen
    simpa [List.getElem?_map, List.getElem?_eq_getElem h1, List.getElem?_eq_getElem h2] using this
  apply List.ext_getElem hrl
  intro j h3 h4
  have := hent i j
  simpa [entry?, List.getElem?_eq_getElem h1, List.getElem?_eq_getElem h2,
    List.getElem?_eq_getElem h3, List.getElem?_eq_getElem h4] using this

/-- Writing an existing entry returns, keeps every row length and changes that entry only. -/
theorem set2_spec {m : Matrix T} {i j : Nat} {y : T} (x : T) (h : entry? m i j = some y) :
    ∃ m', set2 m i j x = Except.ok m' ∧ m'.map List.length = m.map List.length ∧
      ∀ i' j', entry? m' i' j' = if i' = i ∧ j' = j then some x else entry? m i' j' := by
  obtain ⟨row, hrow, hx⟩ := entry?_eq_some_iff.mp h
  obtain ⟨hi, hri⟩ := List.getElem?_eq_some_iff.mp hrow
  obtain ⟨hj, -⟩ := List.getElem?_eq_some_iff.mp hx
  refine ⟨m.set i (row.set j x), ?_, ?_, ?_⟩
  · rw [set2, at1_ok hrow, ok_bind, set1, if_pos hj]; rfl
  · apply List.ext_getElem?
    intro k
    by_cases hk : k = i
    · subst hk
      simp [List.getElem?_map, List.getElem?_set, hi, hrow, hri]
    · simp [List.getElem?_map, List.getElem?_set, Ne.symm hk]
  · intro i' j'
    by_cases hk : i' = i
    · subst hk
      by_cases hj' : j' = j
      · subst hj'
        simp [entry?, List.getElem?_set, hi, hj]
      · simp [entry?, List.getElem?_set, hi, hrow, hj', Ne.symm hj']
    · simp [entry?, List.getElem?_set, hk, Ne.symm hk]

/-- A double loop that rewrites `res[i][j]` to `h i j res[i][j]` for `i < n`, `j < m`
returns the matrix with these entries rewritten and all else unchanged. -/
theorem loop2_spec (n m : Nat) (body : Nat → Nat → Matrix T → Except Err (Matrix T))
    (h : Nat → Nat → T → T) (init : Matrix T)
    (hbody : ∀ i j res x, i < n → j < m → entry? res i j = some x →
      body i j res = set2 res i j (h i j x))
    (hshape : ∀ i j, i < n → j < m → ∃ x, entry? init i j = some x) :
    ∃ R, forLoop n (fun i res => forLoop m (fun j res => body i j res) res) init = Except.ok R ∧
      R.map List.length = init.map List.length ∧
      ∀ i j, entry? R i j =
        if i < n ∧ j < m then (entry? init i j).map (h i j) else entry? init i j := by
  apply forLoop_inv (fun k R => R.map List.length = init.map List.length ∧
      ∀ i j, entry? R i j =
        if i < k ∧ j < m then (entry? init i j).map (h i j) else entry? init i j)
  · exact ⟨rfl, fun i j => by simp⟩
  · intro i S hi ⟨hSlen, hSent⟩
    have key := forLoop_inv (fun l R => R.map List.length = init.map List.length ∧
      ∀ i' j', entry? R i' j' =
        if (i' < i ∧ j' < m) ∨ (i' = i ∧ j' < l) then (entry? init i' j').map (h i' j')
        else entry? init i' j') m (fun j res => body i j res) S
      ⟨hSlen, fun i' j' => by rw [hSent]; simp⟩
      (by
        intro j R hj ⟨hRlen, hRent⟩
        obtain ⟨x, hx⟩ := hshape i j hi hj
        have hRx : entry? R i j = some x := by
          rw [hRent, if_neg (by simp), hx]
        obtain ⟨R', hR', hR'len, hR'ent⟩ := set2_spec (h i j x) hRx
        refine ⟨R', by show body i j R = _; rw [hbody i j R x hi hj hRx, hR'],
          hR'len.trans hRlen, ?_⟩
        intro i' j'
        rw [hR'ent, hRent]
        by_cases c1 : i' = i
        · subst c1
          by_cases c2 : j' = j
          · subst c2
            simp [hx]
          · have : j' < j + 1 ↔ j' < j := by omega
            simp [c2, this]
        · simp [c1])
    obtain ⟨R, hR, hRlen, hRent⟩ := key
    refine ⟨R, hR, hRlen, ?_⟩
    intro i' j'
    rw [hRent]
    have : ((i' < i ∧ j' < m) ∨ (i' = i ∧ j' < m)) ↔ (i' < i + 1 ∧ j' < m) := by
      constructor
      · rintro (⟨a, b⟩ | ⟨a, b⟩)
        · exact ⟨by omega, b⟩
        · exact ⟨by omega, b⟩
      · rintro ⟨a, b⟩
        by_cases c : i' = i
        · exact Or.inr ⟨c, b⟩
        · exact Or.inl ⟨by omega, b⟩
    simp only [this]

theorem n_rows_eq_length (m : Matrix T) : n_rows m = m.length := rfl

theorem rect_row_length {A : Matrix T} (hA : Rect A) {i : Nat} {row : List T}
    (h : A[i]? = some row) : row.length = n_cols A :=
  hA row (List.getElem?_mem h)

theorem rect_entry_some {A : Matrix T} (hA : Rect A) {i j : Nat} (hi : i < n_rows A)
    (hj : j < n_cols A) : ∃ x, entry? A i j = some x := by
  have hrow : A[i]? = some A[i] := List.getElem?_eq_getElem hi
  have hlen := rect_row_length hA hrow
  have hj' : j < (A[i]).length := by omega
  exact ⟨(A[i])[j], entry?_eq_some_iff.mpr ⟨A[i], hrow, List.getElem?_eq_getElem hj'⟩⟩

theorem rect_entry_bounds {A : Matrix T} (hA : Rect A) {i j : Nat} {x : T}
    (h : entry? A i j = some x) : i < n_rows A ∧ j < n_cols A := by
  obtain ⟨row, hrow, hx⟩ := entry?_eq_some_iff.mp h
  have hlen := rect_row_length hA hrow
  exact ⟨(List.getElem?_eq_some_iff.mp hrow).1, by
    have := (List.getElem?_eq_some_iff.mp hx).1
    omega⟩

theorem rect_entry_none {A : Matrix T} (hA : Rect A) {i j : Nat}
    (h : ¬ (i < n_rows A ∧ j < n_cols A)) : entry? A i j = none := by
  cases hx : entry? A i j with
  | none => rfl
  | some x => exact absurd (rect_entry_bounds hA hx) h

theorem entryD_of_some [Zero T] {A : Matrix T} {i j : Nat} {x : T} (h : entry? A i j = some x) :
    entryD A i j = x := by
  simp [entryD, h]

theorem rect_entry_eq_entryD [Zero T] {A : Matrix T} (hA : Rect A) {i j : Nat}
    (hi : i < n_rows A) (hj : j < n_cols A) : entry? A i j = some (entryD A i j) := by
  obtain ⟨x, hx⟩ := rect_entry_some hA hi hj
  rw [hx, entryD_of_some hx]

theorem rect_map_length {A : Matrix T} (hA : Rect A) :
    A.map List.length = List.replicate (n_rows A) (n_cols A) := by
  apply List.ext_getElem?
  intro i
  by_cases hi : i < A.length
  · have hrow : A[i]? = some A[i] := List.getElem?_eq_getElem hi
    simp [List.getElem?_map, hrow, List.getElem?_replicate, n_rows, hi,
      rect_row_length hA hrow]
  · have : A[i]? = none := List.getElem?_eq_none (by omega)
    simp [List.getElem?_map, this, List.getElem?_replicate, n_rows, hi]

theorem n_cols_of_map_length {A B : Matrix T} (h : A.map List.length = B.map List.length) :
    n_cols A = n_cols B := by
  cases A with
  | nil => cases B with
    | nil => rfl
    | cons b B => simp at h
  | cons a A => cases B with
    | nil => simp at h
    | cons b B =>
      simp at h
      exact h.1

/-- A matrix with the row lengths of a rectangular one is rectangular, of the same shape. -/
theorem rect_of_map_length {A B : Matrix T} (hB : Rect B)
    (h : A.map List.length = B.map List.length) :
    n_rows A = n_rows B ∧ n_cols A = n_cols B ∧ Rect A := by
  have hl : A.length = B.length := by simpa using congrArg List.length h
  refine ⟨hl, n_cols_of_map_length h, ?_⟩
  intro row hrow
  have hmem : row.length ∈ A.map List.length := List.mem_map_of_mem _ hrow
  rw [h, rect_map_length hB] at hmem
  rw [n_cols_of_map_length h]
  exact (List.mem_replicate.mp hmem).2

theorem entry?_tabulate (r c : Nat) (f : Nat → Nat → T) (i j : Nat) :
    entry? (tabulate r c f) i j = if i < r ∧ j < c then some (f i j) else none := by
  unfold entry? tabulate
  by_cases hi : i < r
  · by_cases hj : j < c
    · simp [List.getElem?_map, List.getElem?_range hi, List.getElem?_range hj, hi, hj]
    · have : (List.range c)[j]? = none := List.getElem?_eq_none (by simp; omega)
      simp [List.getElem?_map, List.getElem?_range hi, this, hj]
  · have : (List.range r)[i]? = none := List.getElem?_eq_none (by simp; omega)
    simp [List.getElem?_map, this, hi]

theorem map_length_tabulate (r c : Nat) (f : Nat → Nat → T) :
    (tabulate r c f).map List.length = List.replicate r c := by
  unfold tabulate
  apply List.ext_getElem?
  intro i
  by_cases hi : i < r
  · simp [List.getElem?_map, List.getElem?_range hi, List.getElem?_replicate, hi]
  · have : (List.range r)[i]? = none := List.getElem?_eq_none (by simp; omega)
    simp [List.getElem?_map, this, List.getElem?_replicate, hi]

theorem entry?_replicate (r c : Nat) (x : T) (i j : Nat) :
    entry? (List.replicate r (List.replicate c x)) i j =
      if i < r ∧ j < c then some x else none := by
  unfold entry?
  by_cases hi : i < r
  · by_cases hj : j < c
    · simp [List.getElem?_replicate, hi, hj]
    · simp [List.getElem?_replicate, hi, hj]
  · simp [List.getElem?_replicate, hi]

theorem entry?_zipWith (op : T → T → T) (A B : Matrix T) (i j : Nat) :
    entry? (List.zipWith (List.zipWith op) A B) i j =
      (entry? A i j).bind fun a => (entry? B i j).map fun b => op a b := by
  unfold entry?
  rw [List.getElem?_zipWith]
  cases hA : A[i]? with
  | none => simp
  | some ra =>
    cases hB : B[i]? with
    | none =>
      cases ra[j]? <;> simp
    | some rb =>
      simp only [Option.some_bind, Option.bind_eq_bind]
      rw [List.getElem?_zipWith]
      cases ra[j]? <;> cases rb[j]? <;> simp

theorem map_length_zipWith (op : T → T → T) {A B : Matrix T}
    (h : A.map List.length = B.map List.length) :
    (List.zipWith (List.zipWith op) A B).map List.length = A.map List.length := by
  have hl : A.length = B.length := by simpa using congrArg List.length h
  apply List.ext_getElem?
  intro i
  have hi := congrArg (fun l => l[i]?) h
  simp only [List.getElem?_map] at hi
  rw [List.getElem?_map, List.getElem?_map, List.getElem?_zipWith]
  cases hA : A[i]? with
  | none => rfl
  | some ra =>
    cases hB : B[i]? with
    | none => rw [hA, hB] at hi; simp at hi
    | some rb =>
      rw [hA, hB] at hi
      simp at hi
      simp [hi]

/-- The loop shared by `operator+`, `operator-` and `hadamard`: on rectangular operands of one
shape it returns the entrywise combination. -/
theorem zip_loop_spec (op : T → T → T) {lhs rhs : Matrix T} (hA : Rect lhs) (hB : Rect rhs)
    (hr : n_rows lhs = n_rows rhs) (hc : n_cols lhs = n_cols rhs) :
    forLoop (n_rows rhs) (fun i result =>
      forLoop (n_cols rhs) (fun j result =>
        at2 rhs i j >>= fun e =>
        at2 result i j >>= fun x =>
        set2 result i j (op x e)) result) lhs
      = Except.ok (List.zipWith (List.zipWith op) lhs rhs) := by
  have hlen : lhs.map List.length = rhs.map List.length := by
    rw [rect_map_length hA, rect_map_length hB, hr, hc]
  obtain ⟨R, hR, hRlen, hRent⟩ := loop2_spec (n_rows rhs) (n_cols rhs)
    (fun i j result => at2 rhs i j >>= fun e => at2 result i j >>= fun x =>
      set2 result i j (op x e))
    (fun i j x => match entry? rhs i j with
      | some e => op x e
      | none => x) lhs
    (by
      intro i j res x hi hj hx
      obtain ⟨e, he⟩ := rect_entry_some hB hi hj
      simp only [at2_ok he, at2_ok hx, ok_bind, he])
    (by
      intro i j hi hj
      exact rect_entry_some hA (hr ▸ hi) (hc ▸ hj))
  rw [hR]
  congr 1
  apply matrix_ext
  · rw [hRlen, map_length_zipWith op hlen]
  · intro i j
    rw [hRent, entry?_zipWith]
    by_cases hij : i < n_rows rhs ∧ j < n_cols rhs
    · obtain ⟨e, he⟩ := rect_entry_some hB hij.1 hij.2
      obtain ⟨x, hx⟩ := rect_entry_some hA (hr ▸ hij.1) (hc ▸ hij.2)
      simp [hij, he, hx]
    · rw [if_neg hij, rect_entry_none hA (by rw [hr, hc]; exact hij)]
      rfl

theorem operator_add_eq [Add T] {A B : Matrix T} (hA : Rect A) (hB : Rect B)
    (hr : n_rows A = n_rows B) (hc : n_cols A = n_cols B) :
    operator_add A B = Except.ok (List.zipWith (List.zipWith (fun x e => x + e)) A B) := by
  unfold operator_add
  rw [if_neg (by simp [hr, hc])]
  exact zip_loop_spec (fun x e => x + e) hA hB hr hc

theorem operator_sub_eq [Sub T] {A B : Matrix T} (hA : Rect A) (hB : Rect B)
    (hr : n_rows A = n_rows B) (hc : n_cols A = n_cols B) :
    operator_sub A B = Except.ok (List.zipWith (List.zipWith (fun x e => x - e)) A B) := by
  unfold operator_sub
  rw [if_neg (by simp [hr, hc])]
  exact zip_loop_spec (fun x e => x - e) hA hB hr hc

theorem hadamard_eq [Mul T] {A B : Matrix T} (hA : Rect A) (hB : Rect B)
    (hr : n_rows A = n_rows B) (hc : n_cols A = n_cols B) :
    hadamard A B = Except.ok (List.zipWith (List.zipWith (fun x e => x * e)) A B) := by
  unfold hadamard
  rw [if_neg (by simp [hr, hc])]
  exact zip_loop_spec (fun x e => x * e) hA hB hr hc

theorem blank_matrix_natCast (r c : Nat) (x : T) :
    blank_matrix (r : Int) (c : Int) x = Except.ok (List.replicate r (List.replicate c x)) := by
  unfold blank_matrix
  rw [if_neg (by omega)]
  simp [pure_eq_ok]

/-- Writing the value an entry already holds changes nothing. -/
theorem set2_self {m : Matrix T} {i j : Nat} {x : T} (h : entry? m i j = some x) :
    set2 m i j x = Except.ok m := by
  obtain ⟨m', hm', hlen, hent⟩ := set2_spec x h
  rw [hm']
  congr 1
  apply matrix_ext hlen
  intro i' j'
  rw [hent]
  by_cases c : i' = i ∧ j' = j
  · rw [if_pos c, c.1, c.2, h]
  · rw [if_neg c]

/-- A second write to the same entry overrides the first. -/
theorem set2_set2 {m m' : Matrix T} {i j : Nat} {u y : T} (v : T) (h : entry? m i j = some y)
    (hm' : set2 m i j u = Except.ok m') : set2 m' i j v = set2 m i j v := by
  obtain ⟨m1, hm1, hlen1, hent1⟩ := set2_spec u h
  rw [hm1] at hm'
  cases hm'
  have hu : entry? m' i j = some u := by rw [hent1]; simp
  obtain ⟨m2, hm2, hlen2, hent2⟩ := set2_spec v hu
  obtain ⟨m3, hm3, hlen3, hent3⟩ := set2_spec v h
  rw [hm2, hm3]
  congr 1
  apply matrix_ext (by rw [hlen2, hlen1, hlen3])
  intro i' j'
  rw [hent2, hent3, hent1]
  by_cases c : i' = i ∧ j' = j
  · rw [if_pos c, if_pos c]
  · rw [if_neg c, if_neg c, if_neg c]

/-- The innermost loop of `operator*`: it accumulates the products into `result[i][j]`. -/
theorem mul_kloop_spec [Add T] [Mul T] (lhs rhs : Matrix T) (i j : Nat) (a b : Nat → T)
    (p : Nat) (res : Matrix T) (x : T) (hx : entry? res i j = some x)
    (ha : ∀ k, k < p → entry? lhs i k = some (a k))
    (hb : ∀ k, k < p → entry? rhs k j = some (b k)) :
    forLoop p (fun k result =>
        at2 lhs i k >>= fun a =>
        at2 rhs k j >>= fun b =>
        at2 result i j >>= fun x =>
        set2 result i j (x + a * b)) res
      = set2 res i j ((List.range p).foldl (fun acc k => acc + a k * b k) x) := by
  induction p with
  | zero => simp [forLoop_zero, set2_self hx]
  | succ q ih =>
    have ih' := ih (fun k hk => ha k (Nat.lt_succ_of_lt hk)) (fun k hk => hb k (Nat.lt_succ_of_lt hk))
    rw [forLoop_succ, ih']
    obtain ⟨m', hm', -, hent⟩ :=
      set2_spec ((List.range q).foldl (fun acc k => acc + a k * b k) x) hx
    have hcur : entry? m' i j = some ((List.range q).foldl (fun acc k => acc + a k * b k) x) := by
      rw [hent]; simp
    rw [hm', ok_bind, at2_ok (ha q (Nat.lt_succ_self q)), ok_bind,
      at2_ok (hb q (Nat.lt_succ_self q)), ok_bind, at2_ok hcur, ok_bind,
      set2_set2 _ hx hm', List.range_succ, List.foldl_append]
    rfl

/-- On rectangular operands with `cols(A) == rows(B)`, `operator*` returns the matrix whose
entry `(i, j)` is the accumulation `0 + A[i][0]*B[0][j] + ... ` in the order of the source. -/
theorem operator_mul_eq [Add T] [Mul T] [Zero T] {A B : Matrix T} (hA : Rect A) (hB : Rect B)
    (h : n_cols A = n_rows B) :
    operator_mul A B = Except.ok (tabulate (n_rows A) (n_cols B) fun i j =>
      (List.range (n_cols A)).foldl (fun acc k => acc + entryD A i k * entryD B k j) 0) := by
  unfold operator_mul
  rw [if_neg (by simp [h])]
  simp only [blank_matrix_natCast, ok_bind]
  obtain ⟨R, hR, hRlen, hRent⟩ := loop2_spec (n_rows A) (n_cols B)
    (fun i j result => forLoop (n_cols A) (fun k result =>
        at2 A i k >>= fun a =>
        at2 B k j >>= fun b =>
        at2 result i j >>= fun x =>
        set2 result i j (x + a * b)) result)
    (fun i j x => (List.range (n_cols A)).foldl
      (fun acc k => acc + entryD A i k * entryD B k j) x)
    (List.replicate (n_rows A) (List.replicate (n_cols B) (0 : T)))
    (by
      intro i j res x hi hj hx
      exact mul_kloop_spec A B i j (fun k => entryD A i k) (fun k => entryD B k j) (n_cols A)
        res x hx (fun k hk => rect_entry_eq_entryD hA hi hk)
        (fun k hk => rect_entry_eq_entryD hB (h ▸ hk) hj))
    (by
      intro i j hi hj
      exact ⟨0, by rw [entry?_replicate, if_pos ⟨hi, hj⟩]⟩)
  rw [hR]
  congr 1
  apply matrix_ext
  · rw [hRlen, map_length_tabulate]
    simp
  · intro i j
    rw [hRent, entry?_tabulate, entry?_replicate]
    by_cases c : i < n_rows A ∧ j < n_cols B
    · simp [c]
    · simp [c]

theorem n_rows_tabulate (r c : Nat) (f : Nat → Nat → T) : n_rows (tabulate r c f) = r := by
  simp [n_rows, tabulate]

theorem rect_of_replicate_lengths {A : Matrix T} {r c : Nat}
    (h : A.map List.length = List.replicate r c) : HasShape A r c := by
  have hl : A.length = r := by simpa using congrArg List.length h
  refine ⟨hl, ?_⟩
  intro row hrow
  have hmem : row.length ∈ A.map List.length := List.mem_map_of_mem _ hrow
  rw [h] at hmem
  exact (List.mem_replicate.mp hmem).2

theorem hasShape_tabulate (r c : Nat) (f : Nat → Nat → T) : HasShape (tabulate r c f) r c :=
  rect_of_replicate_lengths (map_length_tabulate r c f)

/-- A matrix of `r` rows of length `c` is rectangular; it has `c` columns unless it is empty. -/
theorem HasShape.rect {A : Matrix T} {r c : Nat} (h : HasShape A r c) : Rect A := by
  intro row hrow
  cases A with
  | nil => simp at hrow
  | cons a A => rw [h.2 row hrow]; exact (h.2 a (List.mem_cons_self a A)).symm

theorem HasShape.n_rows_eq {A : Matrix T} {r c : Nat} (h : HasShape A r c) : n_rows A = r := h.1

theorem HasShape.n_cols_eq {A : Matrix T} {r c : Nat} (h : HasShape A r c) (hr : 0 < r) :
    n_cols A = c := by
  cases A with
  | nil => have := h.1; simp at this; omega
  | cons a A => exact h.2 a (List.mem_cons_self a A)

theorem Rect.hasShape {A : Matrix T} (h : Rect A) : HasShape A (n_rows A) (n_cols A) :=
  ⟨rfl, h⟩

theorem foldl_range_eq_sum [AddCommMonoid T] (f : Nat → T) (p : Nat) :
    (List.range p).foldl (fun acc k => acc + f k) 0 = ∑ k ∈ Finset.range p, f k := by
  induction p with
  | zero => simp
  | succ q ih => rw [List.range_succ, List.foldl_append, ih, Finset.sum_range_succ]; rfl

theorem n_cols_tabulate (r c : Nat) (f : Nat → Nat → T) (hr : 0 < r) :
    n_cols (tabulate r c f) = c :=
  (hasShape_tabulate r c f).n_cols_eq hr

theorem n_rows_eq_zero {A : Matrix T} (h : n_rows A = 0) : A = [] :=
  List.length_eq_zero.mp h

theorem shape_ne_iff (A B : Matrix T) :
    (n_rows A, n_cols A) ≠ (n_rows B, n_cols B) ↔
      (n_rows A ≠ n_rows B ∨ n_cols A ≠ n_cols B) := by
  rw [Ne, Prod.mk.injEq, not_and_or]

end Toolkit

/-! ## Contracts of the matrix operators -/

section Contracts

variable {T : Type}

/-- C1: for rectangular `A` and `B`, `operator*` fails with the shape error exactly when
`cols(A) != rows(B)`; otherwise it returns a matrix of `rows(A)` rows and `cols(B)` columns
whose entry `(i, j)` is the sum over `k < cols(A)` of `A[i][k] * B[k][j]`.  The product of
`blank(2,3,0)` and `blank(4,2,0)` fails. -/
theorem operator_mul_contract [AddCommMonoid T] [Mul T] (A B : Matrix T)
    (hA : Rect A) (hB : Rect B) :
    (operator_mul A B = Except.error Err.ShapeMismatch ↔ n_cols A ≠ n_rows B) ∧
    (n_cols A = n_rows B →
      ∃ R, operator_mul A B = Except.ok R ∧ n_rows R = n_rows A ∧ n_cols R = n_cols B ∧
        (∀ row ∈ R, row.length = n_cols B) ∧
        ∀ i j, i < n_rows A → j < n_cols B →
          entry? R i j = some (∑ k ∈ Finset.range (n_cols A), entryD A i k * entryD B k j)) ∧
    (blank_matrix 2 3 (0 : T) >>= fun X => blank_matrix 4 2 (0 : T) >>= fun Y =>
      operator_mul X Y) = Except.error Err.ShapeMismatch := by
  refine ⟨?_, ?_, ?_⟩
  · constructor
    · intro hfail hdim
      rw [operator_mul_eq hA hB hdim] at hfail
      cases hfail
    · intro hdim
      unfold operator_mul
      rw [if_pos hdim]
      rfl
  · intro hdim
    refine ⟨_, operator_mul_eq hA hB hdim, n_rows_tabulate _ _ _, ?_,
      (hasShape_tabulate _ _ _).2, ?_⟩
    · by_cases hr : 0 < n_rows A
      · exact n_cols_tabulate _ _ _ hr
      · have hA0 : A = [] := n_rows_eq_zero (by omega)
        subst hA0
        have hB0 : B = [] := n_rows_eq_zero (by rw [← hdim]; rfl)
        subst hB0
        rfl
    · intro i j hi hj
      rw [entry?_tabulate, if_pos ⟨hi, hj⟩, foldl_range_eq_sum]
  · rfl

/-- Witness of C1 on a 2 by 2 and a 2 by 1 integer matrix. -/
theorem operator_mul_contract_witness :
    Rect ([[1, 2], [3, 4]] : Matrix Int) ∧ Rect ([[5], [6]] : Matrix Int) ∧
    ∃ R, operator_mul ([[1, 2], [3, 4]] : Matrix Int) [[5], [6]] = Except.ok R ∧
      n_rows R = 2 ∧ n_cols R = 1 ∧ entry? R 1 0 = some 39 := by
  refine ⟨by decide, by decide, ?_⟩
  obtain ⟨R, hR, hr, hc, -, hent⟩ :=
    (operator_mul_contract ([[1, 2], [3, 4]] : Matrix Int) [[5], [6]]
      (by decide) (by decide)).2.1 (by decide)
  exact ⟨R, hR, hr, hc, by rw [hent 1 0 (by decide) (by decide)]; decide⟩

/-- C2: for rectangular `A` and `B`, each of `operator+`, `operator-` and `hadamard` fails with
the shape error exactly when the shapes differ; otherwise it returns a matrix of the shape of
the operands whose entry `(i, j)` is `A[i][j] + B[i][j]`, `A[i][j] - B[i][j]` and
`A[i][j] * B[i][j]` respectively.  The sum of `blank(2,3,0)` and `blank(3,2,0)` fails. -/
theorem elementwise_contract [Add T] [Sub T] [Mul T] [Zero T] (A B : Matrix T)
    (hA : Rect A) (hB : Rect B) :
    ((operator_add A B = Except.error Err.ShapeMismatch ↔
        (n_rows A, n_cols A) ≠ (n_rows B, n_cols B)) ∧
      (operator_sub A B = Except.error Err.ShapeMismatch ↔
        (n_rows A, n_cols A) ≠ (n_rows B, n_cols B)) ∧
      (hadamard A B = Except.error Err.ShapeMismatch ↔
        (n_rows A, n_cols A) ≠ (n_rows B, n_cols B))) ∧
    ((n_rows A, n_cols A) = (n_rows B, n_cols B) →
      (∃ R, operator_add A B = Except.ok R ∧
        n_rows R = n_rows A ∧ n_cols R = n_cols A ∧ Rect R ∧
        ∀ i j a b, entry? A i j = some a → entry? B i j = some b →
          entry? R i j = some (a + b)) ∧
      (∃ R, operator_sub A B = Except.ok R ∧
        n_rows R = n_rows A ∧ n_cols R = n_cols A ∧ Rect R ∧
        ∀ i j a b, entry? A i j = some a → entry? B i j = some b →
          entry? R i j = some (a - b)) ∧
      (∃ R, hadamard A B = Except.ok R ∧
        n_rows R = n_rows A ∧ n_cols R = n_cols A ∧ Rect R ∧
        ∀ i j a b, entry? A i j = some a → entry? B i j = some b →
          entry? R i j = some (a * b))) ∧
    (blank_matrix 2 3 (0 : T) >>= fun X => blank_matrix 3 2 (0 : T) >>= fun Y =>
      operator_add X Y) = Except.error Err.ShapeMismatch := by
  have hzip : ∀ op : T → T → T, n_rows A = n_rows B → n_cols A = n_cols B →
      n_rows (List.zipWith (List.zipWith op) A B) = n_rows A ∧
      n_cols (List.zipWith (List.zipWith op) A B) = n_cols A ∧
      Rect (List.zipWith (List.zipWith op) A B) ∧
      ∀ i j a b, entry? A i j = some a → entry? B i j = some b →
        entry? (List.zipWith (List.zipWith op) A B) i j = some (op a b) := by
    intro op hr hc
    have hlen : A.map List.length = B.map List.length := by
      rw [rect_map_length hA, rect_map_length hB, hr, hc]
    obtain ⟨h1, h2, h3⟩ := rect_of_map_length hA (map_length_zipWith op hlen)
    refine ⟨h1, h2, h3, ?_⟩
    intro i j a b ha hb
    rw [entry?_zipWith, ha, hb]
    rfl
  refine ⟨⟨?_, ?_, ?_⟩, ?_, ?_⟩
  · rw [shape_ne_iff]
    constructor
    · intro hfail
      by_contra hne
      rw [not_or, not_not, not_not] at hne
      rw [operator_add_eq hA hB hne.1 hne.2] at hfail
      cases hfail
    · intro hne
      unfold operator_add
      rw [if_pos hne]
      rfl
  · rw [shape_ne_iff]
    constructor
    · intro hfail
      by_contra hne
      rw [not_or, not_not, not_not] at hne
      rw [operator_sub_eq hA hB hne.1 hne.2] at hfail
      cases hfail
    · intro hne
      unfold operator_sub
      rw [if_pos hne]
      rfl
  · rw [shape_ne_iff]
    constructor
    · intro hfail
      by_contra hne
      rw [not_or, not_not, not_not] at hne
      rw [hadamard_eq hA hB hne.1 hne.2] at hfail
      cases hfail
    · intro hne
      unfold hadamard
      rw [if_pos hne]
      rfl
  · intro hshape
    rw [Prod.mk.injEq] at hshape
    exact ⟨⟨_, operator_add_eq hA hB hshape.1 hshape.2, hzip _ hshape.1 hshape.2⟩,
      ⟨_, operator_sub_eq hA hB hshape.1 hshape.2, hzip _ hshape.1 hshape.2⟩,
      ⟨_, hadamard_eq hA hB hshape.1 hshape.2, hzip _ hshape.1 hshape.2⟩⟩
  · rfl

/-- Witness of C2 on two 2 by 2 integer matrices. -/
theorem elementwise_contract_witness :
    Rect ([[1, 2], [3, 4]] : Matrix Int) ∧ Rect ([[5, 6], [7, 8]] : Matrix Int) ∧
    ∃ R, hadamard ([[1, 2], [3, 4]] : Matrix Int) [[5, 6], [7, 8]] = Except.ok R ∧
      n_rows R = 2 ∧ entry? R 1 0 = some 21 := by
  refine ⟨by decide, by decide, ?_⟩
  obtain ⟨R, hR, hr, -, -, hent⟩ :=
    ((elementwise_contract ([[1, 2], [3, 4]] : Matrix Int) [[5, 6], [7, 8]]
      (by decide) (by decide)).2.1 (by decide)).2.2
  exact ⟨R, hR, hr, hent 1 0 3 7 (by decide) (by decide)⟩

end Contracts

/-! ## Arithmetic of doubles on finite values -/

section Doubles

variable {α : Type} [LinearOrderedField α]

namespace Dbl

theorem zero_def : (0 : Dbl α) = fin 0 := rfl

theorem one_def : (1 : Dbl α) = fin 1 := rfl

theorem fin_add_fin (x y : α) : (fin x + fin y : Dbl α) = fin (x + y) := rfl

theorem fin_sub_fin (x y : α) : (fin x - fin y : Dbl α) = fin (x - y) := by
  show add (fin x) (neg (fin y)) = fin (x - y)
  simp [add, neg, sub_eq_add_neg]

theorem fin_mul_fin (x y : α) : (fin x * fin y : Dbl α) = fin (x * y) := rfl

theorem fin_div_fin (x : α) {y : α} (hy : y ≠ 0) : (fin x / fin y : Dbl α) = fin (x / y) := by
  show div (fin x) (fin y) = fin (x / y)
  simp [div, hy]

theorem exp_fin (e : α → α) (x : α) : exp e (fin x) = fin (e x) := rfl

theorem log_fin_pos (l : α → α) {x : α} (hx : 0 < x) : log l (fin x) = fin (l x) := by
  simp [log, hx]

theorem log_fin_zero (l : α → α) : log l (fin (0 : α)) = ninf := by
  simp [log]

theorem nan_add (a : Dbl α) : (nan + a : Dbl α) = nan := by
  cases a <;> rfl

theorem add_nan (a : Dbl α) : (a + nan : Dbl α) = nan := by
  cases a <;> rfl

theorem mul_nan (a : Dbl α) : (a * nan : Dbl α) = nan := by
  cases a <;> rfl

theorem fin_zero_mul_ninf : (fin (0 : α) * ninf : Dbl α) = nan := by
  show mul (fin 0) ninf = nan
  simp [mul, signed]

theorem one_mul_eq (a : Dbl α) : (1 * a : Dbl α) = a := by
  cases a with
  | fin x => show fin (1 * x) = fin x; rw [one_mul]
  | pinf => show signed pinf (1 : α) = pinf; simp [signed]
  | ninf => show signed ninf (1 : α) = ninf; simp [signed]
  | nan => rfl

theorem mul_one_eq (a : Dbl α) : (a * 1 : Dbl α) = a := by
  cases a with
  | fin x => show fin (x * 1) = fin x; rw [mul_one]
  | pinf => show signed pinf (1 : α) = pinf; simp [signed]
  | ninf => show signed ninf (1 : α) = ninf; simp [signed]
  | nan => rfl

theorem ofInt_natCast (n : Nat) : (ofInt ((n : Nat) : Int) : Dbl α) = fin (n : α) := by
  simp [ofInt]

theorem foldl_add_fin (l : List α) (a : α) :
    (l.map fin).foldl (fun acc x => acc + x) (fin a : Dbl α) = fin (a + l.sum) := by
  induction l generalizing a with
  | nil => simp
  | cons x xs ih =>
    rw [List.map_cons, List.foldl_cons, fin_add_fin, ih, List.sum_cons, add_assoc]

theorem sum_range_fin (f : Nat → α) (p : Nat) :
    (∑ k ∈ Finset.range p, (fin (f k) : Dbl α)) = fin (∑ k ∈ Finset.range p, f k) := by
  induction p with
  | zero => rfl
  | succ q ih => rw [Finset.sum_range_succ, Finset.sum_range_succ, ih]; rfl

end Dbl

/-- A loop that writes `g i` to `res[i]` for every `i < n` returns the vector of these. -/
theorem loop1_spec {T : Type} (n : Nat) (body : Nat → List T → Except Err (List T))
    (g : Nat → T) (init : List T) (hlen : init.length = n)
    (hbody : ∀ i res, i < n → body i res = set1 res i (g i)) :
    forLoop n body init = Except.ok ((List.range n).map g) := by
  obtain ⟨R, hR, hRlen, hRent⟩ := forLoop_inv
    (fun i (res : List T) => res.length = n ∧ ∀ k, k < i → res[k]? = some (g k))
    n body init ⟨hlen, fun k hk => absurd hk (Nat.not_lt_zero k)⟩
    (by
      intro i res hi ⟨hl, hent⟩
      refine ⟨res.set i (g i), ?_, by simpa using hl, ?_⟩
      · rw [hbody i res hi, set1, if_pos (by omega)]; rfl
      · intro k hk
        by_cases c : k = i
        · subst c
          simp [List.getElem?_set, hl, hi]
        · rw [List.getElem?_set_ne (Ne.symm c)]
          exact hent k (by omega))
  rw [hR]
  congr 1
  apply List.ext_getElem?
  intro k
  by_cases hk : k < n
  · rw [hRent k hk, List.getElem?_map, List.getElem?_range hk]; rfl
  · rw [List.getElem?_eq_none (by omega), List.getElem?_eq_none (by simp; omega)]

/-- The maximum of a non-empty vector of finite values is one of them, hence finite. -/
theorem max_element_fin (x : α) (xs : List α) :
    ∃ M, max_element ((x :: xs).map (Dbl.fin : α → Dbl α)) = some (Dbl.fin M) := by
  unfold max_element
  simp only [List.map_cons]
  suffices h : ∀ (l : List α) (a : α), ∃ M,
      (l.map (Dbl.fin : α → Dbl α)).foldl
        (fun largest y => if largest < y then y else largest) (Dbl.fin a) = Dbl.fin M by
    obtain ⟨M, hM⟩ := h xs x
    exact ⟨M, congrArg some hM⟩
  intro l
  induction l with
  | nil => intro a; exact ⟨a, rfl⟩
  | cons y ys ih =>
    intro a
    rw [List.map_cons, List.foldl_cons]
    by_cases c : (Dbl.fin a : Dbl α) < Dbl.fin y
    · rw [if_pos c]; exact ih y
    · rw [if_neg c]; exact ih a

/-- The value `softmax` returns on a non-empty vector, `max` being its largest element. -/
theorem softmax_of_max (e : α → α) {v : List (Dbl α)} {M : Dbl α}
    (h : max_element v = some M) :
    softmax e v = Except.ok (v.map fun y =>
      Dbl.exp e (y - M) / (v.map fun x => Dbl.exp e (x - M)).foldl (fun sum x => sum + x) 0) := by
  unfold softmax
  simp only [h]
  rw [loop1_spec v.length _
    (fun i => (v.map fun x => Dbl.exp e (x - M)).getD i 0 /
      (v.map fun x => Dbl.exp e (x - M)).foldl (fun sum x => sum + x) 0)
    _ (by simp)
    (by
      intro i res hi
      have : (v.map fun x => Dbl.exp e (x - M))[i]? =
          some ((v.map fun x => Dbl.exp e (x - M)).getD i 0) := by
        rw [List.getD_eq_getElem?_getD, List.getElem?_eq_getElem (by simpa using hi)]
        rfl
      rw [at1_ok this, ok_bind])]
  congr 1
  apply List.ext_getElem?
  intro k
  by_cases hk : k < v.length
  · simp [List.getElem?_map, List.getElem?_range hk, List.getElem?_eq_getElem hk,
      List.getD_eq_getElem?_getD]
  · rw [List.getElem?_eq_none (by simp; omega), List.getElem?_eq_none (by simp; omega)]

/-- `softmax` returns on every non-empty vector of doubles, with one entry per element. -/
theorem softmax_ok (e : α → α) (v : List (Dbl α)) (hv : v ≠ []) :
    ∃ r, softmax e v = Except.ok r ∧ r.length = v.length := by
  cases v with
  | nil => exact absurd rfl hv
  | cons x xs =>
    refine ⟨_, softmax_of_max e (M := xs.foldl (fun largest y => if largest < y then y else largest) x) rfl, ?_⟩
    simp

theorem softmax_nil (e : α → α) : softmax e ([] : List (Dbl α)) = Except.error Err.Undefined :=
  rfl

end Doubles

/-! ## Sums of matrices -/

section Sums

variable {T : Type} [AddCommMonoid T]

theorem foldl_add_eq (l : List T) (a : T) :
    l.foldl (fun result elem => result + elem) a = a + l.sum := by
  induction l generalizing a with
  | nil => simp
  | cons x xs ih => rw [List.foldl_cons, ih, List.sum_cons, add_assoc]

theorem sum_eq_list_sum (M : Matrix T) : sum M = (M.map List.sum).sum := by
  unfold sum
  suffices h : ∀ a : T, M.foldl (fun result row =>
      row.foldl (fun result elem => result + elem) result) a = a + (M.map List.sum).sum by
    rw [h 0, zero_add]
  induction M with
  | nil => intro a; simp
  | cons r rs ih =>
    intro a
    rw [List.foldl_cons, ih, foldl_add_eq, List.map_cons, List.sum_cons, add_assoc]

theorem list_sum_eq_sum_range (l : List T) :
    l.sum = ∑ j ∈ Finset.range l.length, (l[j]?).getD 0 := by
  induction l with
  | nil => simp
  | cons x xs ih =>
    rw [List.sum_cons, List.length_cons, Finset.sum_range_succ', ih, add_comm]
    simp

/-- The source's `sum` of an `r` by `c` matrix is the sum of its entries. -/
theorem sum_eq_sum_range {M : Matrix T} {r c : Nat} (hM : HasShape M r c) :
    sum M = ∑ i ∈ Finset.range r, ∑ j ∈ Finset.range c, entryD M i j := by
  rw [sum_eq_list_sum, list_sum_eq_sum_range, List.length_map, hM.1]
  apply Finset.sum_congr rfl
  intro i hi
  have hi' : i < M.length := by rw [hM.1]; exact Finset.mem_range.mp hi
  have hrow : M[i]? = some M[i] := List.getElem?_eq_getElem hi'
  rw [List.getElem?_map, hrow, Option.map_some', Option.getD_some, list_sum_eq_sum_range,
    hM.2 _ (List.getElem?_mem hrow)]
  apply Finset.sum_congr rfl
  intro j _
  simp [entryD, entry?, hrow]

end Sums

section Lifting

variable {T U : Type}

theorem map_map_length (f : T → U) (M : Matrix T) :
    (M.map fun row => row.map f).map List.length = M.map List.length := by
  rw [List.map_map]
  apply List.map_congr_left
  intro row _
  simp

theorem hasShape_map (f : T → U) {M : Matrix T} {r c : Nat} (h : HasShape M r c) :
    HasShape (M.map fun row => row.map f) r c := by
  refine ⟨by simpa using h.1, ?_⟩
  intro row hrow
  obtain ⟨row', hrow', rfl⟩ := List.mem_map.mp hrow
  simpa using h.2 row' hrow'

theorem n_rows_map (f : T → U) (M : Matrix T) : n_rows (M.map fun row => row.map f) = n_rows M := by
  simp [n_rows]

theorem n_cols_map (f : T → U) (M : Matrix T) : n_cols (M.map fun row => row.map f) = n_cols M := by
  cases M <;> simp [n_cols]

theorem rect_map (f : T → U) {M : Matrix T} (h : Rect M) : Rect (M.map fun row => row.map f) := by
  intro row hrow
  obtain ⟨row', hrow', rfl⟩ := List.mem_map.mp hrow
  rw [n_cols_map]
  simpa using h row' hrow'

theorem entry?_map (f : T → U) (M : Matrix T) (i j : Nat) :
    entry? (M.map fun row => row.map f) i j = (entry? M i j).map f := by
  unfold entry?
  rw [List.getElem?_map]
  cases M[i]? with
  | none => rfl
  | some row => simp

end Lifting

/-! ## The softmax over the reals -/

section SoftmaxReal

/-- On a non-empty vector of reals `softmax` returns `exp(v[i]) / Σ_j exp(v[j])`: subtracting the
maximum does not change the value. -/
theorem softmax_real (v : List ℝ) (hv : v ≠ []) :
    softmax Real.exp (v.map Dbl.fin) =
      Except.ok ((v.map fun x => Real.exp x / (v.map Real.exp).sum).map Dbl.fin) := by
  cases v with
  | nil => exact absurd rfl hv
  | cons a as =>
    obtain ⟨M, hM⟩ := max_element_fin a as
    rw [softmax_of_max Real.exp hM]
    have hsum : ((a :: as).map Dbl.fin).map (fun x => Dbl.exp Real.exp (x - Dbl.fin M)) =
        ((a :: as).map fun x => Real.exp (x - M)).map Dbl.fin := by
      rw [List.map_map, List.map_map]
      rfl
    rw [hsum, Dbl.zero_def, Dbl.foldl_add_fin, zero_add]
    have hpos : 0 < ((a :: as).map fun x => Real.exp (x - M)).sum := by
      rw [List.map_cons, List.sum_cons]
      have : 0 ≤ (as.map fun x => Real.exp (x - M)).sum :=
        List.sum_nonneg (by
          intro x hx
          obtain ⟨y, -, rfl⟩ := List.mem_map.mp hx
          exact (Real.exp_pos _).le)
      have := Real.exp_pos (a - M)
      linarith
    have hS : ((a :: as).map fun x => Real.exp (x - M)).sum =
        ((a :: as).map Real.exp).sum / Real.exp M := by
      have : ((a :: as).map fun x => Real.exp (x - M)) =
          ((a :: as).map Real.exp).map (fun y => y * (Real.exp M)⁻¹) := by
        rw [List.map_map]
        apply List.map_congr_left
        intro x _
        simp [Real.exp_sub, div_eq_mul_inv]
      rw [this, List.sum_map_mul_right, div_eq_mul_inv]
      simp [Function.comp_def]
    congr 1
    rw [List.map_map, List.map_map]
    apply List.map_congr_left
    intro x _
    show Dbl.exp Real.exp (Dbl.fin x - Dbl.fin M) / Dbl.fin _ = Dbl.fin _
    rw [Dbl.fin_sub_fin, Dbl.exp_fin, Dbl.fin_div_fin _ hpos.ne']
    congr 1
    rw [hS, Real.exp_sub]
    have hM0 : Real.exp M ≠ 0 := (Real.exp_pos M).ne'
    field_simp

theorem sum_exp_pos (v : List ℝ) (hv : v ≠ []) : 0 < (v.map Real.exp).sum :=
  List.sum_pos _ (by
    intro x hx
    obtain ⟨y, -, rfl⟩ := List.mem_map.mp hx
    exact Real.exp_pos y) (by simpa using hv)

/-- In a list of positive reals with at least two elements every element is less than the
sum. -/
theorem lt_sum_of_pos (l : List ℝ) (hpos : ∀ x ∈ l, 0 < x) (hlen : 2 ≤ l.length) :
    ∀ x ∈ l, x < l.sum := by
  intro x hx
  obtain ⟨l1, l2, rfl⟩ := List.append_of_mem hx
  have hne : l1 ++ l2 ≠ [] := by
    intro h
    have := congrArg List.length h
    rw [List.length_append, List.length_nil] at this
    rw [List.length_append, List.length_cons] at hlen
    omega
  have h12 : 0 < (l1 ++ l2).sum :=
    List.sum_pos _ (by
      intro y hy
      apply hpos
      rcases List.mem_append.mp hy with h | h
      · exact List.mem_append_left _ h
      · exact List.mem_append_right _ (List.mem_cons_of_mem _ h)) hne
  simp only [List.sum_append, List.sum_cons] at h12 ⊢
  linarith

/-- C3 as stated fails: `softmax` of the one-element vector `[0]` is `[1]`, and `1` is not
strictly below `1`. -/
theorem softmax_singleton_counterexample :
    softmax Real.exp [Dbl.fin 0] = Except.ok [Dbl.fin 1] ∧
    ¬ ∃ r : List ℝ, softmax Real.exp ([0].map Dbl.fin) = Except.ok (r.map Dbl.fin) ∧
        r.sum = 1 ∧ ∀ x ∈ r, 0 < x ∧ x < 1 := by
  have h := softmax_real [0] (by simp)
  simp only [List.map_cons, List.map_nil, List.sum_cons, List.sum_nil, Real.exp_zero, add_zero,
    div_one] at h
  refine ⟨h, ?_⟩
  rintro ⟨r, hr, -, hlt⟩
  simp only [List.map_cons, List.map_nil] at hr
  rw [h] at hr
  have hr' : r.map Dbl.fin = [Dbl.fin 1] := (Except.ok.inj hr).symm
  cases r with
  | nil => simp at hr'
  | cons x xs =>
    simp only [List.map_cons, List.cons.injEq, Dbl.fin.injEq] at hr'
    have := (hlt x (List.mem_cons_self x xs)).2
    rw [hr'.1] at this
    exact lt_irrefl _ this

/-- C3, amended: for a non-empty vector of reals `softmax` returns a vector of the same
length whose entries sum to `1` and lie in `(0, 1]`; they are strictly below `1` when the
vector has at least two elements. -/
theorem softmax_simplex (v : List ℝ) (hv : v ≠ []) :
    ∃ r : List ℝ, softmax Real.exp (v.map Dbl.fin) = Except.ok (r.map Dbl.fin) ∧
      r.length = v.length ∧ r.sum = 1 ∧ (∀ x ∈ r, 0 < x ∧ x ≤ 1) ∧
      (2 ≤ v.length → ∀ x ∈ r, x < 1) := by
  have hS := sum_exp_pos v hv
  have hnn : ∀ x ∈ v.map Real.exp, 0 ≤ x := by
    intro x hx
    obtain ⟨y, -, rfl⟩ := List.mem_map.mp hx
    exact (Real.exp_pos y).le
  have hpos : ∀ x ∈ v.map Real.exp, 0 < x := by
    intro x hx
    obtain ⟨y, -, rfl⟩ := List.mem_map.mp hx
    exact Real.exp_pos y
  refine ⟨v.map fun x => Real.exp x / (v.map Real.exp).sum, softmax_real v hv, by simp, ?_, ?_, ?_⟩
  · have : (v.map fun x => Real.exp x / (v.map Real.exp).sum) =
        (v.map Real.exp).map (fun y => y * ((v.map Real.exp).sum)⁻¹) := by
      rw [List.map_map]
      apply List.map_congr_left
      intro x _
      simp [div_eq_mul_inv]
    rw [this, List.sum_map_mul_right]
    simp only [List.map_id']
    exact mul_inv_cancel₀ hS.ne'
  · intro x hx
    obtain ⟨y, hy, rfl⟩ := List.mem_map.mp hx
    refine ⟨div_pos (Real.exp_pos y) hS, ?_⟩
    rw [div_le_one hS]
    exact List.single_le_sum hnn _ (List.mem_map_of_mem _ hy)
  · intro hlen x hx
    obtain ⟨y, hy, rfl⟩ := List.mem_map.mp hx
    rw [div_lt_one hS]
    exact lt_sum_of_pos _ hpos (by simpa using hlen) _ (List.mem_map_of_mem _ hy)

/-- Witness of the amended C3 on the vector `[1, 2]`. -/
theorem softmax_simplex_witness :
    ∃ r : List ℝ, softmax Real.exp (([1, 2] : List ℝ).map Dbl.fin) = Except.ok (r.map Dbl.fin) ∧
      r.length = 2 ∧ r.sum = 1 ∧ (∀ x ∈ r, 0 < x ∧ x ≤ 1) ∧
      (2 ≤ 2 → ∀ x ∈ r, x < 1) :=
  softmax_simplex [1, 2] (by simp)

/-- C4: for a non-empty vector `v` of reals and a real `c`, `softmax(v + c)` equals
`softmax(v)`, and `softmax(v)[i]` is `exp(v[i]) / Σ_j exp(v[j])`: the subtraction of the
maximum does not change the value. -/
theorem softmax_translation_invariant (v : List ℝ) (hv : v ≠ []) (c : ℝ) :
    softmax Real.exp ((v.map fun x => x + c).map Dbl.fin) = softmax Real.exp (v.map Dbl.fin) ∧
    softmax Real.exp (v.map Dbl.fin) =
      Except.ok ((v.map fun x => Real.exp x / (v.map Real.exp).sum).map Dbl.fin) := by
  refine ⟨?_, softmax_real v hv⟩
  rw [softmax_real v hv, softmax_real _ (by simpa using hv)]
  congr 2
  rw [List.map_map, List.map_map]
  have hsum : (v.map (Real.exp ∘ fun x => x + c)).sum = (v.map Real.exp).sum * Real.exp c := by
    have : v.map (Real.exp ∘ fun x => x + c) = (v.map Real.exp).map (fun y => y * Real.exp c) := by
      rw [List.map_map]
      apply List.map_congr_left
      intro x _
      simp [Real.exp_add]
    rw [this, List.sum_map_mul_right]
    simp only [List.map_id']
  apply List.map_congr_left
  intro x _
  have hS := (sum_exp_pos v hv).ne'
  have hc := (Real.exp_pos c).ne'
  simp only [Function.comp_apply]
  rw [hsum, Real.exp_add]
  field_simp
  ring

/-- Witness of C4 on the vector `[1, 2]` shifted by `3`. -/
theorem softmax_translation_invariant_witness :
    softmax Real.exp ((([1, 2] : List ℝ).map fun x => x + 3).map Dbl.fin) =
      softmax Real.exp (([1, 2] : List ℝ).map Dbl.fin) :=
  (softmax_translation_invariant [1, 2] (by simp) 3).1

end SoftmaxReal

/-! ## The cross entropy -/

section CrossEntropy

theorem hasShape_map_length {T : Type} {A : Matrix T} {r c : Nat} (h : HasShape A r c) :
    A.map List.length = List.replicate r c := by
  apply List.ext_getElem?
  intro i
  by_cases hi : i < A.length
  · have hrow : A[i]? = some A[i] := List.getElem?_eq_getElem hi
    have hi' : i < r := h.1 ▸ hi
    simp [List.getElem?_map, hrow, List.getElem?_replicate, hi', h.2 _ (List.getElem?_mem hrow)]
  · have hi' : ¬ i < r := h.1 ▸ hi
    have : A[i]? = none := List.getElem?_eq_none (by omega)
    simp [List.getElem?_map, this, List.getElem?_replicate, hi']

theorem hasShape_zipWith {T : Type} (op : T → T → T) {A B : Matrix T} {r c : Nat}
    (hA : HasShape A r c) (hB : HasShape B r c) :
    HasShape (List.zipWith (List.zipWith op) A B) r c := by
  apply rect_of_replicate_lengths
  rw [map_length_zipWith op (by rw [hasShape_map_length hA, hasShape_map_length hB]),
    hasShape_map_length hA]

theorem hasShape_entry_some {T : Type} {A : Matrix T} {r c : Nat} (h : HasShape A r c)
    {i j : Nat} (hi : i < r) (hj : j < c) : ∃ x, entry? A i j = some x := by
  have hi' : i < A.length := by rw [h.1]; exact hi
  have hrow : A[i]? = some A[i] := List.getElem?_eq_getElem hi'
  have hlen := h.2 _ (List.getElem?_mem hrow)
  have hj' : j < (A[i]).length := by omega
  exact ⟨(A[i])[j], entry?_eq_some_iff.mpr ⟨A[i], hrow, List.getElem?_eq_getElem hj'⟩⟩

theorem entry?_mem {T : Type} {A : Matrix T} {i j : Nat} {x : T} (h : entry? A i j = some x) :
    ∃ row ∈ A, x ∈ row := by
  obtain ⟨row, hrow, hx⟩ := entry?_eq_some_iff.mp h
  exact ⟨row, List.getElem?_mem hrow, List.getElem?_mem hx⟩

/-- Two matrices of `r` rows of length `c` pass the shape check of the element-wise
operators. -/
theorem hasShape_same {T : Type} {A B : Matrix T} {r c : Nat} (hA : HasShape A r c)
    (hB : HasShape B r c) : n_rows A = n_rows B ∧ n_cols A = n_cols B :=
  ⟨hA.1.trans hB.1.symm,
    n_cols_of_map_length (by rw [hasShape_map_length hA, hasShape_map_length hB])⟩

variable {α : Type} [LinearOrderedField α]

/-- On operands of one shape `cross_entropy` returns
`1/double(rows) * sum(hadamard(Y, log(Y_prob)))`. -/
theorem cross_entropy_eq (ln : α → α) {Y P : Matrix (Dbl α)} {r c : Nat}
    (hY : HasShape Y r c) (hP : HasShape P r c) :
    cross_entropy ln Y P = Except.ok (1 / Dbl.fin (r : α) *
      sum (List.zipWith (List.zipWith (fun x e => x * e)) Y (log (Dbl.log ln) P))) := by
  have hL : HasShape (log (Dbl.log ln) P) r c := hasShape_map _ hP
  have hs := hasShape_same hY hL
  unfold cross_entropy
  rw [hadamard_eq hY.rect hL.rect hs.1 hs.2, ok_bind, pure_eq_ok, hY.n_rows_eq,
    Dbl.ofInt_natCast]

theorem entryD_hadamard_log (ln : α → α) {Y P : Matrix (Dbl α)} {i j : Nat} {y p : Dbl α}
    (hy : entry? Y i j = some y) (hp : entry? P i j = some p) :
    entryD (List.zipWith (List.zipWith (fun x e => x * e)) Y (log (Dbl.log ln) P)) i j =
      y * Dbl.log ln p := by
  unfold entryD
  rw [entry?_zipWith, hy]
  unfold log
  rw [entry?_map, hp]
  rfl

theorem Dbl.sum_eq_nan {ι : Type} (s : Finset ι) (f : ι → Dbl α) {i : ι} (hi : i ∈ s)
    (hf : f i = Dbl.nan) : ∑ k ∈ s, f k = Dbl.nan := by
  classical
  rw [← Finset.add_sum_erase s f hi, hf]
  exact Dbl.nan_add _

theorem oneHot_entry {Y : Matrix α} {c : Nat → Nat} (hot : OneHot Y c) {r n : Nat}
    (hY : HasShape Y r n) {i j : Nat} (hi : i < r) (hj : j < n) :
    c i < n ∧ entry? Y i j = some (if j = c i then 1 else 0) := by
  have hi' : i < Y.length := by rw [hY.1]; exact hi
  have hrow : Y[i]? = some Y[i] := List.getElem?_eq_getElem hi'
  have hlen := hY.2 _ (List.getElem?_mem hrow)
  obtain ⟨hc, hent⟩ := hot i _ hrow
  exact ⟨by omega, entry?_eq_some_iff.mpr ⟨_, hrow, hent j (by omega)⟩⟩

end CrossEntropy

/-! ## `add_to_each`, `transpose` and the row-wise softmax -/

section MoreOperators

variable {T : Type}

theorem entry?_map_zipWith (op : T → T → T) (A : Matrix T) (v : List T) (i j : Nat) :
    entry? (A.map fun row => List.zipWith op row v) i j =
      (entry? A i j).bind fun a => (v[j]?).map fun e => op a e := by
  unfold entry?
  rw [List.getElem?_map]
  cases A[i]? with
  | none => rfl
  | some row =>
    simp only [Option.map_some', Option.some_bind, Option.bind_eq_bind]
    rw [List.getElem?_zipWith]
    cases row[j]? <;> cases v[j]? <;> simp

/-- On a rectangular matrix whose width is the length of `v`, `add_to_each` returns the matrix
with `v` added to every row. -/
theorem add_to_each_eq [Add T] {A : Matrix T} {v : List T} (hA : Rect A)
    (hc : n_cols A = v.length) :
    add_to_each A [v] = Except.ok (A.map fun row => List.zipWith (fun x e => x + e) row v) := by
  unfold add_to_each
  rw [if_neg (by rw [hc]; exact not_not.mpr rfl), if_neg (by simp [n_rows])]
  have hv : at1 [v] 0 = Except.ok v := at1_ok rfl
  rw [hv, ok_bind]
  obtain ⟨R, hR, hRlen, hRent⟩ := loop2_spec (n_rows A) (n_cols A)
    (fun r c result => at1 v c >>= fun e => at2 result r c >>= fun x =>
      set2 result r c (x + e))
    (fun _ j x => match v[j]? with
      | some e => x + e
      | none => x) A
    (by
      intro i j res x _ hj hx
      have hj' : j < v.length := hc ▸ hj
      have he : v[j]? = some v[j] := List.getElem?_eq_getElem hj'
      show (at1 v j >>= fun e => at2 res i j >>= fun x => set2 res i j (x + e)) = _
      simp only [at1_ok he, at2_ok hx, ok_bind, he])
    (fun i j hi hj => rect_entry_some hA hi hj)
  rw [hR]
  congr 1
  apply matrix_ext
  · rw [hRlen, List.map_map]
    apply List.map_congr_left
    intro row hrow
    simp [hA row hrow, hc]
  · intro i j
    rw [hRent, entry?_map_zipWith]
    by_cases hij : i < n_rows A ∧ j < n_cols A
    · obtain ⟨x, hx⟩ := rect_entry_some hA hij.1 hij.2
      have hj' : j < v.length := hc ▸ hij.2
      have he : v[j]? = some v[j] := List.getElem?_eq_getElem hj'
      simp [hij, hx, he]
    · rw [if_neg hij, rect_entry_none hA hij]
      rfl

/-- On a rectangular matrix `transpose` returns the `cols` by `rows` matrix with the entries
mirrored. -/
theorem transpose_eq [Zero T] {M : Matrix T} (hM : Rect M) :
    transpose M = Except.ok (tabulate (n_cols M) (n_rows M) fun j i => entryD M i j) := by
  unfold transpose
  obtain ⟨R, hR, hRlen, hRent⟩ := loop2_spec (n_cols M) (n_rows M)
    (fun j i transposed => at2 M i j >>= fun x => set2 transposed j i x)
    (fun j i _ => entryD M i j)
    (List.replicate (n_cols M) (List.replicate (n_rows M) (0 : T)))
    (by
      intro j i res x hj hi _
      show (at2 M i j >>= fun x => set2 res j i x) = _
      rw [at2_ok (rect_entry_eq_entryD hM hi hj), ok_bind])
    (by
      intro j i hj hi
      exact ⟨0, by rw [entry?_replicate, if_pos ⟨hj, hi⟩]⟩)
  rw [hR]
  congr 1
  apply matrix_ext
  · rw [hRlen, map_length_tabulate]
    simp
  · intro j i
    rw [hRent, entry?_tabulate, entry?_replicate]
    by_cases c : j < n_cols M ∧ i < n_rows M
    · simp [c]
    · simp [c]

theorem blank_matrix_one (c : Nat) (x : T) :
    blank_matrix 1 (c : Int) x = Except.ok [List.replicate c x] := by
  unfold blank_matrix
  rw [if_neg (by omega)]
  simp [pure_eq_ok]

theorem hasShape_one {b : Matrix T} {c : Nat} (h : HasShape b 1 c) :
    ∃ v, b = [v] ∧ v.length = c := by
  obtain ⟨v, rfl⟩ := List.length_eq_one.mp h.1
  exact ⟨v, rfl, h.2 v (List.mem_singleton_self v)⟩

theorem hasShape_of_map_length {A B : Matrix T} {r c : Nat} (hB : HasShape B r c)
    (h : A.map List.length = B.map List.length) : HasShape A r c :=
  rect_of_replicate_lengths (h.trans (hasShape_map_length hB))

end MoreOperators

section SoftmaxRows

variable {α : Type} [LinearOrderedField α]

/-- The row-wise `softmax` returns on a matrix without empty rows and keeps the shape. -/
theorem softmax_rows_ok (e : α → α) (Z : Matrix (Dbl α)) (hZ : ∀ row ∈ Z, row ≠ []) :
    ∃ P, softmax_rows e Z = Except.ok P ∧ P.map List.length = Z.map List.length := by
  induction Z with
  | nil => exact ⟨[], rfl, rfl⟩
  | cons row rest ih =>
    obtain ⟨r, hr, hrlen⟩ := softmax_ok e row (hZ row (List.mem_cons_self row rest))
    obtain ⟨P, hP, hPlen⟩ := ih (fun x hx => hZ x (List.mem_cons_of_mem row hx))
    refine ⟨r :: P, ?_, by simp [hrlen, hPlen]⟩
    show (softmax e row >>= fun r => softmax_rows e rest >>= fun rs => pure (r :: rs)) = _
    rw [hr, ok_bind, hP, ok_bind]
    rfl

end SoftmaxRows

section CrossEntropyReal

/-- The value of `cross_entropy` on one-hot labels and probabilities in `(0, 1]`. -/
theorem cross_entropy_real (Y P : Matrix ℝ) (r n : Nat) (c : Nat → Nat) (hr : 1 ≤ r)
    (hY : HasShape Y r n) (hP : HasShape P r n) (hot : OneHot Y c)
    (hprob : ∀ row ∈ P, ∀ x ∈ row, 0 < x ∧ x ≤ 1) :
    cross_entropy Real.log (Dbl.ofMatrix Y) (Dbl.ofMatrix P) = Except.ok (Dbl.fin
      (1 / (r : ℝ) * ∑ i ∈ Finset.range r, Real.log (entryD P i (c i)))) := by
  have hYl : HasShape (Dbl.ofMatrix Y) r n := hasShape_map _ hY
  have hPl : HasShape (Dbl.ofMatrix P) r n := hasShape_map _ hP
  have hLl : HasShape (log (Dbl.log Real.log) (Dbl.ofMatrix P)) r n := hasShape_map _ hPl
  have hsum := sum_eq_sum_range (hasShape_zipWith (fun x e => x * e) hYl hLl)
  rw [cross_entropy_eq Real.log hYl hPl, hsum]
  have hrow : ∀ i ∈ Finset.range r,
      (∑ j ∈ Finset.range n, entryD (List.zipWith (List.zipWith (fun x e => x * e))
        (Dbl.ofMatrix Y) (log (Dbl.log Real.log) (Dbl.ofMatrix P))) i j) =
      Dbl.fin (Real.log (entryD P i (c i))) := by
    intro i hi
    have hi' := Finset.mem_range.mp hi
    have hcn : c i < n := by
      have hi'' : i < Y.length := by rw [hY.1]; exact hi'
      have hrow : Y[i]? = some Y[i] := List.getElem?_eq_getElem hi''
      have := (hot i _ hrow).1
      rw [hY.2 _ (List.getElem?_mem hrow)] at this
      exact this
    have hterm : ∀ j ∈ Finset.range n,
        entryD (List.zipWith (List.zipWith (fun x e => x * e))
          (Dbl.ofMatrix Y) (log (Dbl.log Real.log) (Dbl.ofMatrix P))) i j =
        Dbl.fin (if j = c i then Real.log (entryD P i j) else 0) := by
      intro j hj
      have hj' := Finset.mem_range.mp hj
      obtain ⟨-, hy⟩ := oneHot_entry hot hY hi' hj'
      obtain ⟨p, hp⟩ := hasShape_entry_some hP hi' hj'
      obtain ⟨row, hrow, hmem⟩ := entry?_mem hp
      have hp0 := (hprob row hrow p hmem).1
      rw [entryD_hadamard_log Real.log (y := Dbl.fin (if j = c i then 1 else 0)) (p := Dbl.fin p)
        (by unfold Dbl.ofMatrix; rw [entry?_map, hy]; rfl)
        (by unfold Dbl.ofMatrix; rw [entry?_map, hp]; rfl),
        Dbl.log_fin_pos _ hp0, Dbl.fin_mul_fin, entryD_of_some hp]
      by_cases hjc : j = c i
      · simp [hjc]
      · simp [hjc]
    rw [Finset.sum_congr rfl hterm, Dbl.sum_range_fin, Finset.sum_ite_eq' (Finset.range n) (c i),
      if_pos (Finset.mem_range.mpr hcn)]
  have hr0 : (r : ℝ) ≠ 0 := by
    have : (0 : ℝ) < r := by exact_mod_cast hr
    exact this.ne'
  rw [Finset.sum_congr rfl hrow, Dbl.sum_range_fin, Dbl.one_def, Dbl.fin_div_fin _ hr0,
    Dbl.fin_mul_fin]

/-- C5: for one-hot labels `Y` with at least one row and `Y_prob` of the same shape with
entries in `(0, 1]`, `cross_entropy(Y, Y_prob)` is `1/rows(Y)` times the sum over the rows `i`
of `ln(Y_prob[i][c_i])`, `c_i` the hot column of row `i`; this unnegated mean log-likelihood
is at most `0`. -/
theorem cross_entropy_unnegated (Y P : Matrix ℝ) (r n : Nat) (c : Nat → Nat) (hr : 1 ≤ r)
    (hY : HasShape Y r n) (hP : HasShape P r n) (hot : OneHot Y c)
    (hprob : ∀ row ∈ P, ∀ x ∈ row, 0 < x ∧ x ≤ 1) :
    cross_entropy Real.log (Dbl.ofMatrix Y) (Dbl.ofMatrix P) = Except.ok (Dbl.fin
      (1 / (r : ℝ) * ∑ i ∈ Finset.range r, Real.log (entryD P i (c i)))) ∧
    1 / (r : ℝ) * ∑ i ∈ Finset.range r, Real.log (entryD P i (c i)) ≤ 0 := by
  refine ⟨cross_entropy_real Y P r n c hr hY hP hot hprob, ?_⟩
  apply mul_nonpos_of_nonneg_of_nonpos
  · positivity
  · apply Finset.sum_nonpos
    intro i hi
    have hi' := Finset.mem_range.mp hi
    obtain ⟨hcn, -⟩ := oneHot_entry hot hY hi' (j := 0) (by
      have hi'' : i < Y.length := by rw [hY.1]; exact hi'
      have hrow : Y[i]? = some Y[i] := List.getElem?_eq_getElem hi''
      have := (hot i _ hrow).1
      rw [hY.2 _ (List.getElem?_mem hrow)] at this
      omega)
    obtain ⟨p, hp⟩ := hasShape_entry_some hP hi' hcn
    obtain ⟨row, hrow, hmem⟩ := entry?_mem hp
    rw [entryD_of_some hp]
    exact Real.log_nonpos (hprob row hrow p hmem).1.le (hprob row hrow p hmem).2

/-- Witness of C5 on one row with hot column `0` and probabilities `1/2, 1/2`. -/
theorem cross_entropy_unnegated_witness :
    cross_entropy Real.log (Dbl.ofMatrix ([[1, 0]] : Matrix ℝ)) (Dbl.ofMatrix [[1 / 2, 1 / 2]]) =
      Except.ok (Dbl.fin (1 / ((1 : Nat) : ℝ) * ∑ i ∈ Finset.range 1,
        Real.log (entryD ([[1 / 2, 1 / 2]] : Matrix ℝ) i 0))) ∧
    1 / ((1 : Nat) : ℝ) * ∑ i ∈ Finset.range 1,
        Real.log (entryD ([[1 / 2, 1 / 2]] : Matrix ℝ) i 0) ≤ 0 :=
  cross_entropy_unnegated [[1, 0]] [[1 / 2, 1 / 2]] 1 2 (fun _ => 0) (le_refl 1)
    (by decide) (by decide)
    (by
      intro i row hrow
      cases i with
      | zero =>
        simp only [List.getElem?_cons_zero, Option.some.injEq] at hrow
        subst hrow
        refine ⟨by decide, ?_⟩
        intro j hj
        have : j = 0 ∨ j = 1 := by simp at hj; omega
        rcases this with rfl | rfl <;> simp
      | succ k => simp at hrow)
    (by
      intro row hrow x hx
      simp only [List.mem_singleton] at hrow
      subst hrow
      simp only [List.mem_cons, List.mem_singleton, List.mem_nil_iff, or_false, or_self] at hx
      subst hx
      norm_num)

/-- The value of `cross_entropy(Y, Y)` for a one-hot `Y`: the entries `0` of `Y` give
`0 * log(0) = 0 * (-∞)`, a NaN, unless `Y` has a single column. -/
theorem cross_entropy_self (Y : Matrix ℝ) (r n : Nat) (c : Nat → Nat) (hr : 1 ≤ r)
    (hY : HasShape Y r n) (hot : OneHot Y c) :
    cross_entropy Real.log (Dbl.ofMatrix Y) (Dbl.ofMatrix Y) =
      Except.ok (if n = 1 then Dbl.fin 0 else Dbl.nan) := by
  have hYl : HasShape (Dbl.ofMatrix Y) r n := hasShape_map _ hY
  have hLl : HasShape (log (Dbl.log Real.log) (Dbl.ofMatrix Y)) r n := hasShape_map _ hYl
  have hsum := sum_eq_sum_range (hasShape_zipWith (fun x e => x * e) hYl hLl)
  rw [cross_entropy_eq Real.log hYl hYl, hsum]
  have hr0 : (r : ℝ) ≠ 0 := by
    have : (0 : ℝ) < r := by exact_mod_cast hr
    exact this.ne'
  have hterm : ∀ i j, i < r → j < n →
      entryD (List.zipWith (List.zipWith (fun x e => x * e))
        (Dbl.ofMatrix Y) (log (Dbl.log Real.log) (Dbl.ofMatrix Y))) i j =
      if j = c i then Dbl.fin 0 else Dbl.nan := by
    intro i j hi hj
    obtain ⟨-, hy⟩ := oneHot_entry hot hY hi hj
    have hyl : entry? (Dbl.ofMatrix Y) i j = some (Dbl.fin (if j = c i then 1 else 0)) := by
      unfold Dbl.ofMatrix; rw [entry?_map, hy]; rfl
    rw [entryD_hadamard_log Real.log hyl hyl]
    by_cases hjc : j = c i
    · rw [if_pos hjc, if_pos hjc, Dbl.log_fin_pos _ one_pos, Real.log_one, Dbl.fin_mul_fin,
        mul_zero]
    · rw [if_neg hjc, if_neg hjc, Dbl.log_fin_zero, Dbl.fin_zero_mul_ninf]
  have hc0 : c 0 < n := (oneHot_entry hot hY (i := 0) (j := c 0) (by omega) (by
    have hi'' : 0 < Y.length := by rw [hY.1]; omega
    have hrow : Y[0]? = some Y[0] := List.getElem?_eq_getElem hi''
    have := (hot 0 _ hrow).1
    rw [hY.2 _ (List.getElem?_mem hrow)] at this
    exact this)).1
  by_cases hn : n = 1
  · rw [if_pos hn]
    have hzero : (∑ i ∈ Finset.range r, ∑ j ∈ Finset.range n,
        entryD (List.zipWith (List.zipWith (fun x e => x * e))
          (Dbl.ofMatrix Y) (log (Dbl.log Real.log) (Dbl.ofMatrix Y))) i j) = Dbl.fin 0 := by
      apply Finset.sum_eq_zero
      intro i hi
      apply Finset.sum_eq_zero
      intro j hj
      have hi' := Finset.mem_range.mp hi
      have hj' := Finset.mem_range.mp hj
      have hci : c i < n := (oneHot_entry hot hY hi' hj').1
      rw [hterm i j hi' hj', if_pos (by omega)]
      rfl
    rw [hzero, Dbl.one_def, Dbl.fin_div_fin _ hr0, Dbl.fin_mul_fin, mul_zero]
  · rw [if_neg hn]
    have hnan : (∑ i ∈ Finset.range r, ∑ j ∈ Finset.range n,
        entryD (List.zipWith (List.zipWith (fun x e => x * e))
          (Dbl.ofMatrix Y) (log (Dbl.log Real.log) (Dbl.ofMatrix Y))) i j) = Dbl.nan := by
      apply Dbl.sum_eq_nan _ _ (i := 0) (Finset.mem_range.mpr (by omega))
      by_cases h0 : c 0 = 0
      · apply Dbl.sum_eq_nan _ _ (i := 1) (Finset.mem_range.mpr (by omega))
        rw [hterm 0 1 (by omega) (by omega), if_neg (by omega)]
      · apply Dbl.sum_eq_nan _ _ (i := 0) (Finset.mem_range.mpr (by omega))
        rw [hterm 0 0 (by omega) (by omega), if_neg (by omega)]
    rw [hnan, Dbl.mul_nan]

/-- C6 as stated fails: for the one-hot matrix `[[1, 0]]` the code computes `1 * log(1) +
0 * log(0)`, and `0 * (-∞)` is NaN, so `cross_entropy(Y, Y)` is NaN and not `0`. -/
theorem cross_entropy_self_counterexample :
    cross_entropy Real.log ([[Dbl.fin 1, Dbl.fin 0]] : Matrix (Dbl ℝ)) [[Dbl.fin 1, Dbl.fin 0]] =
      Except.ok Dbl.nan ∧
    cross_entropy Real.log ([[Dbl.fin 1, Dbl.fin 0]] : Matrix (Dbl ℝ)) [[Dbl.fin 1, Dbl.fin 0]] ≠
      Except.ok (Dbl.fin 0) := by
  have h := cross_entropy_self [[1, 0]] 1 2 (fun _ => 0) (le_refl 1) (by decide)
    (by
      intro i row hrow
      cases i with
      | zero =>
        simp only [List.getElem?_cons_zero, Option.some.injEq] at hrow
        subst hrow
        refine ⟨by decide, ?_⟩
        intro j hj
        have : j = 0 ∨ j = 1 := by simp at hj; omega
        rcases this with rfl | rfl <;> simp
      | succ k => simp at hrow)
  have h' : cross_entropy Real.log ([[Dbl.fin 1, Dbl.fin 0]] : Matrix (Dbl ℝ))
      [[Dbl.fin 1, Dbl.fin 0]] = Except.ok Dbl.nan := h
  refine ⟨h', ?_⟩
  rw [h']
  intro hcontra
  cases hcontra

/-- C6, amended: for a one-hot `Y` with at least one row, `cross_entropy(Y, Y)` is `0` when
`Y` has exactly one column and NaN when it has two or more. -/
theorem cross_entropy_perfect_prediction (Y : Matrix ℝ) (r n : Nat) (c : Nat → Nat)
    (hr : 1 ≤ r) (hY : HasShape Y r n) (hot : OneHot Y c) :
    (n = 1 → cross_entropy Real.log (Dbl.ofMatrix Y) (Dbl.ofMatrix Y) =
      Except.ok (Dbl.fin 0)) ∧
    (2 ≤ n → cross_entropy Real.log (Dbl.ofMatrix Y) (Dbl.ofMatrix Y) =
      Except.ok Dbl.nan) := by
  have h := cross_entropy_self Y r n c hr hY hot
  constructor
  · intro hn
    rw [h, if_pos hn]
  · intro hn
    rw [h, if_neg (by omega)]

/-- Witness of the amended C6 on the one-column one-hot matrix `[[1], [1]]`. -/
theorem cross_entropy_perfect_prediction_witness :
    cross_entropy Real.log (Dbl.ofMatrix ([[1], [1]] : Matrix ℝ)) (Dbl.ofMatrix [[1], [1]]) =
      Except.ok (Dbl.fin 0) :=
  (cross_entropy_perfect_prediction [[1], [1]] 2 1 (fun _ => 0) (by decide) (by decide)
    (by
      intro i row hrow
      have hrow' : row = [1] := by
        cases i with
        | zero => simpa using hrow.symm
        | succ k =>
          cases k with
          | zero => simpa using hrow.symm
          | succ k => simp at hrow
      subst hrow'
      refine ⟨by simp, ?_⟩
      intro j hj
      have : j = 0 := by simp at hj; omega
      subst this
      simp)).1 rfl

end CrossEntropyReal


/-! ## The gradient -/

section Gradient

/-- The product of an `n` by `p` and a `p` by `m` matrix, `n` and `p` positive: it returns an
`n` by `m` matrix of the sums of products. -/
theorem operator_mul_hasShape {T : Type} [AddCommMonoid T] [Mul T] {A B : Matrix T}
    {n p m : Nat} (hA : HasShape A n p) (hB : HasShape B p m) (hn : 1 ≤ n) (hp : 1 ≤ p) :
    ∃ R, operator_mul A B = Except.ok R ∧ HasShape R n m ∧
      ∀ i j, i < n → j < m →
        entry? R i j = some (∑ k ∈ Finset.range p, entryD A i k * entryD B k j) := by
  have hcA : n_cols A = p := hA.n_cols_eq hn
  have hcB : n_cols B = m := hB.n_cols_eq hp
  have h := operator_mul_eq hA.rect hB.rect (hcA.trans hB.n_rows_eq.symm)
  rw [hA.n_rows_eq, hcA, hcB] at h
  refine ⟨_, h, hasShape_tabulate _ _ _, ?_⟩
  intro i j hi hj
  rw [entry?_tabulate, if_pos ⟨hi, hj⟩, foldl_range_eq_sum]

variable {α : Type} [LinearOrderedField α]

theorem entryD_ones (n k : Nat) (hk : k < n) :
    entryD ([List.replicate n (1 : Dbl α)]) 0 k = 1 := by
  simp [entryD, entry?, List.getElem?_replicate, hk]

/-- What `grad` computes on a batch of `batch ≥ 1` rows for a network with `data_dim ≥ 1`
inputs and `n_classes ≥ 1` classes. -/
theorem grad_spec (e l : α → α) (nn : NeuralNetwork α) (X Y : Matrix (Dbl α))
    (batch data_dim n_classes : Nat) (hb : 1 ≤ batch) (hd : 1 ≤ data_dim) (hc : 1 ≤ n_classes)
    (hX : HasShape X batch data_dim) (hY : HasShape Y batch n_classes)
    (hW : HasShape nn.W data_dim n_classes) (hbias : HasShape nn.b 1 n_classes) :
    ∃ XW Z Y_prob delta Xt grad_W grad_b cost,
      operator_mul X nn.W = Except.ok XW ∧ add_to_each XW nn.b = Except.ok Z ∧
      softmax_rows e Z = Except.ok Y_prob ∧ HasShape Y_prob batch n_classes ∧
      operator_sub Y_prob Y = Except.ok delta ∧ HasShape delta batch n_classes ∧
      transpose X = Except.ok Xt ∧ operator_mul Xt delta = Except.ok grad_W ∧
      HasShape grad_W data_dim n_classes ∧ HasShape grad_b 1 n_classes ∧
      (∀ j, j < n_classes →
        entry? grad_b 0 j = some (∑ i ∈ Finset.range batch, entryD delta i j)) ∧
      cross_entropy l Y Y_prob = Except.ok cost ∧
      nn.grad e l X Y = Except.ok { cost := cost, grad_W := grad_W, grad_b := grad_b } := by
  obtain ⟨XW, hXW, hXWs, -⟩ := operator_mul_hasShape hX hW hb hd
  obtain ⟨v, hbv, hvlen⟩ := hasShape_one hbias
  have hZ : add_to_each XW nn.b =
      Except.ok (XW.map fun row => List.zipWith (fun x e => x + e) row v) := by
    rw [hbv]
    exact add_to_each_eq hXWs.rect ((hXWs.n_cols_eq hb).trans hvlen.symm)
  have hZs : HasShape (XW.map fun row => List.zipWith (fun x e => x + e) row v)
      batch n_classes := by
    refine ⟨by simpa using hXWs.1, ?_⟩
    intro row hrow
    obtain ⟨row', hrow', rfl⟩ := List.mem_map.mp hrow
    simp [hXWs.2 row' hrow', hvlen]
  obtain ⟨Y_prob, hP, hPlen⟩ := softmax_rows_ok e _ (fun row hrow => by
    intro h0
    have := hZs.2 row hrow
    rw [h0] at this
    simp at this
    omega)
  have hPs : HasShape Y_prob batch n_classes := hasShape_of_map_length hZs hPlen
  have hsame := hasShape_same hPs hY
  have hdelta := operator_sub_eq hPs.rect hY.rect hsame.1 hsame.2
  have hds : HasShape (List.zipWith (List.zipWith (fun x e => x - e)) Y_prob Y)
      batch n_classes := hasShape_zipWith _ hPs hY
  have hXt := transpose_eq hX.rect
  rw [hX.n_rows_eq, hX.n_cols_eq hb] at hXt
  obtain ⟨grad_W, hgW, hgWs, -⟩ :=
    operator_mul_hasShape (hasShape_tabulate data_dim batch fun j i => entryD X i j) hds hd hb
  have hones : blank_matrix 1 ((List.zipWith (List.zipWith (fun x e => x - e)) Y_prob Y).length
      : Int) (1 : Dbl α) = Except.ok [List.replicate batch 1] := by
    rw [blank_matrix_one, hds.1]
  have honess : HasShape [List.replicate batch (1 : Dbl α)] 1 batch :=
    ⟨rfl, by intro row hrow; rw [List.mem_singleton.mp hrow]; simp⟩
  obtain ⟨grad_b, hgb, hgbs, hgbent⟩ := operator_mul_hasShape honess hds (le_refl 1) hb
  have hce := cross_entropy_eq l hY hPs
  refine ⟨XW, _, Y_prob, _, _, grad_W, grad_b, _, hXW, hZ, hP, hPs, hdelta, hds, hXt, hgW,
    hgWs, hgbs, ?_, hce, ?_⟩
  · intro j hj
    rw [hgbent 0 j (by omega) hj]
    congr 1
    apply Finset.sum_congr rfl
    intro k hk
    rw [entryD_ones batch k (Finset.mem_range.mp hk)]
    exact Dbl.one_mul_eq _
  · unfold NeuralNetwork.grad
    rw [hXW, ok_bind, hZ, ok_bind, hP, ok_bind, hdelta, ok_bind, hXt, ok_bind, hgW, ok_bind,
      hones, ok_bind, hgb, ok_bind, hce, ok_bind]
    rfl

/-- C7 as stated fails on degenerate dimensions.  With `data_dim = 0` and two classes the
product `X * W` has no columns and `add_to_each` throws the shape error; with no class the
rows handed to `softmax` are empty and `max_element` returns `end()`. -/
theorem grad_degenerate_counterexample :
    (HasShape ([[]] : Matrix (Dbl ℝ)) 1 0 ∧ HasShape ([[1, 0]] : Matrix (Dbl ℝ)) 1 2 ∧
      HasShape ([] : Matrix (Dbl ℝ)) 0 2 ∧ HasShape ([[0, 0]] : Matrix (Dbl ℝ)) 1 2 ∧
      NeuralNetwork.grad Real.exp Real.log { W := [], b := [[0, 0]], n_classes := 2, data_dim := 0 }
        [[]] [[1, 0]] = Except.error Err.ShapeMismatch) ∧
    (HasShape ([[1]] : Matrix (Dbl ℝ)) 1 1 ∧ HasShape ([[]] : Matrix (Dbl ℝ)) 1 0 ∧
      NeuralNetwork.grad Real.exp Real.log { W := [[]], b := [[]], n_classes := 0, data_dim := 1 }
        [[1]] [[]] = Except.error Err.Undefined) := by
  refine ⟨⟨by decide, by decide, by decide, by decide, ?_⟩, by decide, by decide, ?_⟩
  · rfl
  · have h1 : operator_mul ([[1]] : Matrix (Dbl ℝ)) [[]] = Except.ok [[]] := by
      rw [operator_mul_eq (by decide) (by decide) (by decide)]
      rfl
    have h2 : add_to_each ([[]] : Matrix (Dbl ℝ)) [[]] = Except.ok [[]] := by
      rw [add_to_each_eq (by decide) (by decide)]
      rfl
    unfold NeuralNetwork.grad
    simp only [h1, ok_bind, h2]
    rfl

/-- C7, amended with `data_dim ≥ 1` and `n_classes ≥ 1`: `grad` returns, with
`Y_prob = softmax(add_to_each(X * W, b))` and `delta = Y_prob - Y` it stores
`grad_W = transpose(X) * delta`, of the shape of `W`, and the row `grad_b` of the column sums
of `delta`, of the shape of `b`, and its value is `cross_entropy(Y, Y_prob)`. -/
theorem grad_contract (e l : α → α) (nn : NeuralNetwork α) (X Y : Matrix (Dbl α))
    (batch data_dim n_classes : Nat) (hb : 1 ≤ batch) (hd : 1 ≤ data_dim) (hc : 1 ≤ n_classes)
    (hX : HasShape X batch data_dim) (hY : HasShape Y batch n_classes)
    (hW : HasShape nn.W data_dim n_classes) (hbias : HasShape nn.b 1 n_classes) :
    ∃ XW Z Y_prob delta Xt grad_W grad_b cost,
      operator_mul X nn.W = Except.ok XW ∧ add_to_each XW nn.b = Except.ok Z ∧
      softmax_rows e Z = Except.ok Y_prob ∧ operator_sub Y_prob Y = Except.ok delta ∧
      transpose X = Except.ok Xt ∧ operator_mul Xt delta = Except.ok grad_W ∧
      HasShape grad_W data_dim n_classes ∧ HasShape grad_b 1 n_classes ∧
      (∀ j, j < n_classes →
        entry? grad_b 0 j = some (∑ i ∈ Finset.range batch, entryD delta i j)) ∧
      cross_entropy l Y Y_prob = Except.ok cost ∧
      nn.grad e l X Y = Except.ok { cost := cost, grad_W := grad_W, grad_b := grad_b } := by
  obtain ⟨XW, Z, Y_prob, delta, Xt, grad_W, grad_b, cost, h1, h2, h3, -, h4, -, h5, h6, h7, h8,
    h9, h10, h11⟩ := grad_spec e l nn X Y batch data_dim n_classes hb hd hc hX hY hW hbias
  exact ⟨XW, Z, Y_prob, delta, Xt, grad_W, grad_b, cost, h1, h2, h3, h4, h5, h6, h7, h8, h9,
    h10, h11⟩

/-- Witness of the amended C7 on a batch of two rows, two inputs and two classes. -/
theorem grad_contract_witness :
    ∃ g, NeuralNetwork.grad Real.exp Real.log
        ({ W := [[Dbl.fin 1, Dbl.fin 0], [Dbl.fin 0, Dbl.fin 1]], b := [[Dbl.fin 0, Dbl.fin 0]],
           n_classes := 2, data_dim := 2 } : NeuralNetwork ℝ)
        [[Dbl.fin 1, Dbl.fin 0], [Dbl.fin 0, Dbl.fin 1]]
        [[Dbl.fin 1, Dbl.fin 0], [Dbl.fin 0, Dbl.fin 1]] = Except.ok g ∧
      HasShape g.grad_W 2 2 ∧ HasShape g.grad_b 1 2 := by
  obtain ⟨_, _, _, _, _, grad_W, grad_b, cost, -, -, -, -, -, -, h7, h8, -, -, h11⟩ :=
    grad_contract Real.exp Real.log
      ({ W := [[Dbl.fin 1, Dbl.fin 0], [Dbl.fin 0, Dbl.fin 1]], b := [[Dbl.fin 0, Dbl.fin 0]],
         n_classes := 2, data_dim := 2 } : NeuralNetwork ℝ)
      [[Dbl.fin 1, Dbl.fin 0], [Dbl.fin 0, Dbl.fin 1]]
      [[Dbl.fin 1, Dbl.fin 0], [Dbl.fin 0, Dbl.fin 1]] 2 2 2
      (by decide) (by decide) (by decide) (by decide) (by decide) (by decide) (by decide)
  exact ⟨_, h11, h7, h8⟩

end Gradient

/-! ## The operators on matrices of finite doubles -/

section Finite

theorem hasShape_entry_none {T : Type} {A : Matrix T} {r c : Nat} (h : HasShape A r c)
    {i j : Nat} (hij : ¬ (i < r ∧ j < c)) : entry? A i j = none := by
  cases hx : entry? A i j with
  | none => rfl
  | some x =>
    exfalso
    obtain ⟨row, hrow, hxj⟩ := entry?_eq_some_iff.mp hx
    have h1 := (List.getElem?_eq_some_iff.mp hrow).1
    have h2 := (List.getElem?_eq_some_iff.mp hxj).1
    rw [h.2 row (List.getElem?_mem hrow)] at h2
    rw [h.1] at h1
    exact hij ⟨h1, h2⟩

/-- Two matrices of `r` rows of length `c` with the same entries are equal. -/
theorem matrix_ext_hasShape {T : Type} {A B : Matrix T} {r c : Nat} (hA : HasShape A r c)
    (hB : HasShape B r c) (h : ∀ i j, i < r → j < c → entry? A i j = entry? B i j) : A = B := by
  apply matrix_ext (by rw [hasShape_map_length hA, hasShape_map_length hB])
  intro i j
  by_cases hij : i < r ∧ j < c
  · exact h i j hij.1 hij.2
  · rw [hasShape_entry_none hA hij, hasShape_entry_none hB hij]

theorem entry?_ofMatrix {α : Type} (A : Matrix α) (i j : Nat) :
    entry? (Dbl.ofMatrix A) i j = (entry? A i j).map Dbl.fin :=
  entry?_map Dbl.fin A i j

theorem hasShape_ofMatrix {α : Type} {A : Matrix α} {r c : Nat} (h : HasShape A r c) :
    HasShape (Dbl.ofMatrix A) r c :=
  hasShape_map _ h

variable {α : Type} [LinearOrderedField α]

theorem entryD_ofMatrix (A : Matrix α) (i j : Nat) :
    entryD (Dbl.ofMatrix A) i j = Dbl.fin (entryD A i j) := by
  unfold entryD
  rw [entry?_ofMatrix]
  cases entry? A i j <;> rfl

/-- The product of two matrices of finite doubles is the matrix of the real sums of
products. -/
theorem operator_mul_ofMatrix {A B : Matrix α} {n p m : Nat} (hA : HasShape A n p)
    (hB : HasShape B p m) (hn : 1 ≤ n) (hp : 1 ≤ p) :
    operator_mul (Dbl.ofMatrix A) (Dbl.ofMatrix B) = Except.ok (Dbl.ofMatrix
      (tabulate n m fun i j => ∑ k ∈ Finset.range p, entryD A i k * entryD B k j)) := by
  obtain ⟨R, hR, hRs, hRent⟩ :=
    operator_mul_hasShape (hasShape_ofMatrix hA) (hasShape_ofMatrix hB) hn hp
  rw [hR]
  congr 1
  apply matrix_ext_hasShape hRs (hasShape_ofMatrix (hasShape_tabulate _ _ _))
  intro i j hi hj
  rw [hRent i j hi hj, entry?_ofMatrix, entry?_tabulate, if_pos ⟨hi, hj⟩, Option.map_some',
    ← Dbl.sum_range_fin]
  congr 1
  apply Finset.sum_congr rfl
  intro k _
  rw [entryD_ofMatrix, entryD_ofMatrix, Dbl.fin_mul_fin]

/-- Adding a row of finite doubles to every row of a matrix of finite doubles. -/
theorem add_to_each_ofMatrix {A : Matrix α} {v : List α} {r c : Nat} (hA : HasShape A r c)
    (hr : 1 ≤ r) (hv : v.length = c) :
    add_to_each (Dbl.ofMatrix A) (Dbl.ofMatrix [v]) = Except.ok (Dbl.ofMatrix
      (A.map fun row => List.zipWith (fun x e => x + e) row v)) := by
  have hAl := hasShape_ofMatrix hA
  have h := add_to_each_eq (v := v.map Dbl.fin) hAl.rect
    ((hAl.n_cols_eq hr).trans (by simp [hv]))
  have hb : Dbl.ofMatrix [v] = [v.map Dbl.fin] := rfl
  rw [hb, h]
  congr 1
  unfold Dbl.ofMatrix
  rw [List.map_map, List.map_map]
  apply List.map_congr_left
  intro row _
  simp only [Function.comp_apply]
  rw [List.zipWith_map, List.map_zipWith]
  rfl

/-- The row-wise softmax of a matrix of finite doubles without empty rows. -/
theorem softmax_rows_ofMatrix (Z : Matrix ℝ) (hZ : ∀ row ∈ Z, row ≠ []) :
    softmax_rows Real.exp (Dbl.ofMatrix Z) = Except.ok (Dbl.ofMatrix
      (Z.map fun row => row.map fun x => Real.exp x / (row.map Real.exp).sum)) := by
  induction Z with
  | nil => rfl
  | cons row rest ih =>
    have h1 := softmax_real row (hZ row (List.mem_cons_self row rest))
    have h2 := ih (fun x hx => hZ x (List.mem_cons_of_mem row hx))
    show (softmax Real.exp (row.map Dbl.fin) >>= fun r =>
      softmax_rows Real.exp (Dbl.ofMatrix rest) >>= fun rs => pure (r :: rs)) = _
    rw [h1, ok_bind, h2, ok_bind]
    rfl

/-- The difference of two matrices of finite doubles of one shape. -/
theorem operator_sub_ofMatrix {A B : Matrix α} {r c : Nat} (hA : HasShape A r c)
    (hB : HasShape B r c) :
    operator_sub (Dbl.ofMatrix A) (Dbl.ofMatrix B) = Except.ok (Dbl.ofMatrix
      (List.zipWith (List.zipWith (fun x e => x - e)) A B)) := by
  have hs := hasShape_same (hasShape_ofMatrix hA) (hasShape_ofMatrix hB)
  rw [operator_sub_eq (hasShape_ofMatrix hA).rect (hasShape_ofMatrix hB).rect hs.1 hs.2]
  congr 1
  apply matrix_ext_hasShape (hasShape_zipWith _ (hasShape_ofMatrix hA) (hasShape_ofMatrix hB))
    (hasShape_ofMatrix (hasShape_zipWith _ hA hB))
  intro i j hi hj
  obtain ⟨a, ha⟩ := hasShape_entry_some hA hi hj
  obtain ⟨b, hb⟩ := hasShape_entry_some hB hi hj
  rw [entry?_zipWith, entry?_ofMatrix, entry?_ofMatrix, entry?_ofMatrix, entry?_zipWith, ha, hb]
  show some (Dbl.fin a - Dbl.fin b) = some (Dbl.fin (a - b))
  rw [Dbl.fin_sub_fin]

/-- The transpose of a matrix of finite doubles. -/
theorem transpose_ofMatrix {X : Matrix α} {r c : Nat} (hX : HasShape X r c) (hr : 1 ≤ r) :
    transpose (Dbl.ofMatrix X) = Except.ok (Dbl.ofMatrix
      (tabulate c r fun j i => entryD X i j)) := by
  have hXl := hasShape_ofMatrix hX
  have h := transpose_eq hXl.rect
  rw [hXl.n_rows_eq, hXl.n_cols_eq hr] at h
  rw [h]
  congr 1
  apply matrix_ext_hasShape (hasShape_tabulate _ _ _)
    (hasShape_ofMatrix (hasShape_tabulate _ _ _))
  intro j i hj hi
  rw [entry?_tabulate, if_pos ⟨hj, hi⟩, entry?_ofMatrix, entry?_tabulate, if_pos ⟨hj, hi⟩,
    entryD_ofMatrix]
  rfl

/-- A finite scalar times a matrix of finite doubles. -/
theorem operator_smul_ofMatrix (s : α) (A : Matrix α) :
    operator_smul (Dbl.fin s) (Dbl.ofMatrix A) =
      Dbl.ofMatrix (A.map fun row => row.map fun x => x * s) := by
  unfold operator_smul Dbl.ofMatrix
  rw [List.map_map, List.map_map]
  apply List.map_congr_left
  intro row _
  simp only [Function.comp_apply, List.map_map]
  apply List.map_congr_left
  intro x _
  rfl

/-- The cross entropy of finite labels and positive finite probabilities. -/
theorem cross_entropy_ofMatrix {Y P : Matrix ℝ} {r c : Nat} (hr : 1 ≤ r) (hY : HasShape Y r c)
    (hP : HasShape P r c) (hpos : ∀ row ∈ P, ∀ x ∈ row, 0 < x) :
    cross_entropy Real.log (Dbl.ofMatrix Y) (Dbl.ofMatrix P) = Except.ok (Dbl.fin
      (1 / (r : ℝ) * ∑ i ∈ Finset.range r, ∑ j ∈ Finset.range c,
        entryD Y i j * Real.log (entryD P i j))) := by
  have hYl := hasShape_ofMatrix hY
  have hPl := hasShape_ofMatrix hP
  have hLl : HasShape (log (Dbl.log Real.log) (Dbl.ofMatrix P)) r c := hasShape_map _ hPl
  have hsum := sum_eq_sum_range (hasShape_zipWith (fun x e => x * e) hYl hLl)
  rw [cross_entropy_eq Real.log hYl hPl, hsum]
  have hterm : ∀ i ∈ Finset.range r, ∀ j ∈ Finset.range c,
      entryD (List.zipWith (List.zipWith (fun x e => x * e))
        (Dbl.ofMatrix Y) (log (Dbl.log Real.log) (Dbl.ofMatrix P))) i j =
      Dbl.fin (entryD Y i j * Real.log (entryD P i j)) := by
    intro i hi j hj
    have hi' := Finset.mem_range.mp hi
    have hj' := Finset.mem_range.mp hj
    obtain ⟨y, hy⟩ := hasShape_entry_some hY hi' hj'
    obtain ⟨p, hp⟩ := hasShape_entry_some hP hi' hj'
    obtain ⟨row, hrow, hmem⟩ := entry?_mem hp
    rw [entryD_hadamard_log Real.log (y := Dbl.fin y) (p := Dbl.fin p)
      (by rw [entry?_ofMatrix, hy]; rfl) (by rw [entry?_ofMatrix, hp]; rfl),
      Dbl.log_fin_pos _ (hpos row hrow p hmem), Dbl.fin_mul_fin, entryD_of_some hp,
      entryD_of_some hy]
  have hr0 : (r : ℝ) ≠ 0 := by
    have : (0 : ℝ) < r := by exact_mod_cast hr
    exact this.ne'
  rw [Finset.sum_congr rfl (fun i hi => (Finset.sum_congr rfl (hterm i hi)).trans
      (Dbl.sum_range_fin _ _)), Dbl.sum_range_fin, Dbl.one_def, Dbl.fin_div_fin _ hr0,
    Dbl.fin_mul_fin]

end Finite

/-! ## The gradient and the training step on finite values -/

section GradientReal

theorem hasShape_logits_real (X W : Matrix ℝ) (bv : List ℝ) {B D C : Nat} (hbv : bv.length = C) :
    HasShape (logits_real X W bv B D C) B C := by
  unfold logits_real
  refine ⟨by simp [tabulate], ?_⟩
  intro row hrow
  obtain ⟨row', hrow', rfl⟩ := List.mem_map.mp hrow
  simp [(hasShape_tabulate _ _ _).2 row' hrow', hbv]

theorem hasShape_probs_real {Z : Matrix ℝ} {B C : Nat} (hZ : HasShape Z B C) :
    HasShape (probs_real Real.exp Z) B C := by
  unfold probs_real
  refine ⟨by simpa using hZ.1, ?_⟩
  intro row hrow
  obtain ⟨row', hrow', rfl⟩ := List.mem_map.mp hrow
  simpa using hZ.2 row' hrow'

theorem tabulate_congr {T : Type} {r c : Nat} {f g : Nat → Nat → T}
    (h : ∀ i j, i < r → j < c → f i j = g i j) : tabulate r c f = tabulate r c g := by
  unfold tabulate
  apply List.map_congr_left
  intro i hi
  apply List.map_congr_left
  intro j hj
  exact h i j (by simpa using hi) (by simpa using hj)

theorem entryD_tabulate {T : Type} [Zero T] (r c : Nat) (f : Nat → Nat → T) {i j : Nat}
    (hi : i < r) (hj : j < c) : entryD (tabulate r c f) i j = f i j := by
  rw [entryD, entry?_tabulate, if_pos ⟨hi, hj⟩]
  rfl

theorem probs_real_pos {Z : Matrix ℝ} {C : Nat} (hC : 1 ≤ C) (hZ : ∀ row ∈ Z, row.length = C) :
    ∀ row ∈ probs_real Real.exp Z, ∀ x ∈ row, 0 < x := by
  intro row hrow x hx
  obtain ⟨z, hz, rfl⟩ := List.mem_map.mp hrow
  obtain ⟨y, -, rfl⟩ := List.mem_map.mp hx
  have hne : z ≠ [] := by
    intro h0
    have := hZ z hz
    rw [h0] at this
    simp at this
    omega
  exact div_pos (Real.exp_pos y) (sum_exp_pos z hne)

/-- What `grad` returns on finite inputs: the closed forms over the reals. -/
theorem grad_ofMatrix (X Y W : Matrix ℝ) (bv : List ℝ) (B D C : Nat) (n_classes data_dim : Int)
    (hB : 1 ≤ B) (hD : 1 ≤ D) (hC : 1 ≤ C) (hX : HasShape X B D) (hY : HasShape Y B C)
    (hW : HasShape W D C) (hbv : bv.length = C) :
    NeuralNetwork.grad Real.exp Real.log
      { W := Dbl.ofMatrix W, b := Dbl.ofMatrix [bv], n_classes := n_classes,
        data_dim := data_dim } (Dbl.ofMatrix X) (Dbl.ofMatrix Y) =
    Except.ok
      { cost := Dbl.fin (cost_real Real.log Y (probs_real Real.exp (logits_real X W bv B D C)) B C)
        grad_W := Dbl.ofMatrix (grad_W_real X
          (delta_real (probs_real Real.exp (logits_real X W bv B D C)) Y) B D C)
        grad_b := Dbl.ofMatrix (grad_b_real
          (delta_real (probs_real Real.exp (logits_real X W bv B D C)) Y) B C) } := by
  have hZs := hasShape_logits_real X W bv (B := B) (D := D) hbv
  have hPs := hasShape_probs_real hZs
  have hds : HasShape (delta_real (probs_real Real.exp (logits_real X W bv B D C)) Y) B C :=
    hasShape_zipWith _ hPs hY
  have h1 := operator_mul_ofMatrix hX hW hB hD
  have h2 : add_to_each (Dbl.ofMatrix (tabulate B C fun i j =>
      ∑ k ∈ Finset.range D, entryD X i k * entryD W k j)) (Dbl.ofMatrix [bv]) =
      Except.ok (Dbl.ofMatrix (logits_real X W bv B D C)) :=
    add_to_each_ofMatrix (hasShape_tabulate _ _ _) hB hbv
  have h3 := softmax_rows_ofMatrix (logits_real X W bv B D C) (by
    intro row hrow h0
    have := hZs.2 row hrow
    rw [h0] at this
    simp at this
    omega)
  have h4 : operator_sub (Dbl.ofMatrix (probs_real Real.exp (logits_real X W bv B D C)))
      (Dbl.ofMatrix Y) = Except.ok (Dbl.ofMatrix
        (delta_real (probs_real Real.exp (logits_real X W bv B D C)) Y)) :=
    operator_sub_ofMatrix hPs hY
  have h5 := transpose_ofMatrix hX hB
  have h6 : operator_mul (Dbl.ofMatrix (tabulate D B fun j i => entryD X i j))
      (Dbl.ofMatrix (delta_real (probs_real Real.exp (logits_real X W bv B D C)) Y)) =
      Except.ok (Dbl.ofMatrix (grad_W_real X
        (delta_real (probs_real Real.exp (logits_real X W bv B D C)) Y) B D C)) := by
    rw [operator_mul_ofMatrix (hasShape_tabulate _ _ _) hds hD hB]
    congr 2
    unfold grad_W_real
    apply tabulate_congr
    intro k j hk _
    apply Finset.sum_congr rfl
    intro i hi
    rw [entryD_tabulate _ _ _ hk (Finset.mem_range.mp hi)]
  have h7 : blank_matrix 1 ((Dbl.ofMatrix
      (delta_real (probs_real Real.exp (logits_real X W bv B D C)) Y)).length : Int)
      (1 : Dbl ℝ) = Except.ok (Dbl.ofMatrix [List.replicate B (1 : ℝ)]) := by
    rw [blank_matrix_one, (hasShape_ofMatrix hds).1]
    simp [Dbl.ofMatrix, Dbl.one_def]
  have h8 : operator_mul (Dbl.ofMatrix [List.replicate B (1 : ℝ)])
      (Dbl.ofMatrix (delta_real (probs_real Real.exp (logits_real X W bv B D C)) Y)) =
      Except.ok (Dbl.ofMatrix (grad_b_real
        (delta_real (probs_real Real.exp (logits_real X W bv B D C)) Y) B C)) := by
    have hones : HasShape ([List.replicate B (1 : ℝ)] : Matrix ℝ) 1 B :=
      ⟨rfl, by intro row hrow; rw [List.mem_singleton.mp hrow]; simp⟩
    rw [operator_mul_ofMatrix hones hds (le_refl 1) hB]
    congr 2
    unfold grad_b_real
    apply tabulate_congr
    intro k j hk _
    apply Finset.sum_congr rfl
    intro i hi
    have hk' : k = 0 := by omega
    subst hk'
    simp [entryD, entry?, List.getElem?_replicate, Finset.mem_range.mp hi]
  have h9 : cross_entropy Real.log (Dbl.ofMatrix Y)
      (Dbl.ofMatrix (probs_real Real.exp (logits_real X W bv B D C))) = Except.ok (Dbl.fin
        (cost_real Real.log Y (probs_real Real.exp (logits_real X W bv B D C)) B C)) :=
    cross_entropy_ofMatrix hB hY hPs (probs_real_pos hC hZs.2)
  unfold NeuralNetwork.grad
  simp only [h1, ok_bind, h2, h3]
  rw [show Dbl.ofMatrix (List.map (fun row => List.map
      (fun x => Real.exp x / (List.map Real.exp row).sum) row) (logits_real X W bv B D C)) =
      Dbl.ofMatrix (probs_real Real.exp (logits_real X W bv B D C)) from rfl]
  simp only [h4, ok_bind, h5, h6, h7, h8, h9]
  rfl

/-- The parameter update on finite values with a non-zero `batch_size`. -/
theorem update_ofMatrix (W G : Matrix ℝ) (bv gb : List ℝ) (D C : Nat) (n_classes data_dim : Int)
    (cost : Dbl ℝ) (lr : ℝ) (batch_size : Int) (hbs : batch_size ≠ 0)
    (hW : HasShape W D C) (hG : HasShape G D C) (hbv : bv.length = C) (hgb : gb.length = C) :
    NeuralNetwork.update
      { W := Dbl.ofMatrix W, b := Dbl.ofMatrix [bv], n_classes := n_classes,
        data_dim := data_dim }
      { cost := cost, grad_W := Dbl.ofMatrix G, grad_b := Dbl.ofMatrix [gb] }
      batch_size (Dbl.fin lr) =
    Except.ok
      { W := Dbl.ofMatrix (updated_real W G lr batch_size)
        b := Dbl.ofMatrix (updated_real [bv] [gb] lr batch_size)
        n_classes := n_classes, data_dim := data_dim } := by
  have hbs' : (batch_size : ℝ) ≠ 0 := by exact_mod_cast hbs
  have hs : (Dbl.fin lr * 1 / Dbl.ofInt batch_size : Dbl ℝ) =
      Dbl.fin (lr * 1 / (batch_size : ℝ)) := by
    rw [Dbl.one_def, Dbl.fin_mul_fin]
    exact Dbl.fin_div_fin _ hbs'
  have hb1 : HasShape ([bv] : Matrix ℝ) 1 C :=
    ⟨rfl, by intro row hrow; rw [List.mem_singleton.mp hrow]; exact hbv⟩
  have hb2 : HasShape ([gb] : Matrix ℝ) 1 C :=
    ⟨rfl, by intro row hrow; rw [List.mem_singleton.mp hrow]; exact hgb⟩
  unfold NeuralNetwork.update
  simp only [hs, operator_smul_ofMatrix]
  rw [operator_sub_ofMatrix hW (hasShape_map _ hG), ok_bind,
    operator_sub_ofMatrix hb1 (hasShape_map _ hb2), ok_bind]
  rfl

end GradientReal

/-! ## The update on a clamped batch -/

section PartialBatch

theorem partial_logits :
    logits_real ([[1]] : Matrix ℝ) [[0, 0]] [0, 0] 1 1 2 = [[0, 0]] := by
  simp [logits_real, tabulate, List.range_succ, Finset.sum_range_succ, entryD, entry?]

theorem partial_probs : probs_real Real.exp ([[0, 0]] : Matrix ℝ) = [[1 / 2, 1 / 2]] := by
  simp [probs_real]
  norm_num

theorem partial_delta :
    delta_real ([[1 / 2, 1 / 2]] : Matrix ℝ) [[1, 0]] = [[-1 / 2, 1 / 2]] := by
  simp [delta_real]
  norm_num

theorem partial_grad_W :
    grad_W_real ([[1]] : Matrix ℝ) [[-1 / 2, 1 / 2]] 1 1 2 = [[-1 / 2, 1 / 2]] := by
  simp [grad_W_real, tabulate, List.range_succ, Finset.sum_range_succ, entryD, entry?]

theorem partial_grad_b :
    grad_b_real ([[-1 / 2, 1 / 2]] : Matrix ℝ) 1 2 = [[-1 / 2, 1 / 2]] := by
  simp [grad_b_real, tabulate, List.range_succ, Finset.sum_range_succ, entryD, entry?]

theorem partial_cost :
    cost_real Real.log ([[1, 0]] : Matrix ℝ) [[1 / 2, 1 / 2]] 1 2 = Real.log (1 / 2) := by
  simp [cost_real, List.range_succ, Finset.sum_range_succ, entryD, entry?]

theorem partial_updated_two :
    updated_real ([[0, 0]] : Matrix ℝ) [[-1 / 2, 1 / 2]] 1 2 = [[1 / 4, -1 / 4]] := by
  simp [updated_real]
  norm_num

theorem partial_updated_one :
    updated_real ([[0, 0]] : Matrix ℝ) [[-1 / 2, 1 / 2]] 1 1 = [[1 / 2, -1 / 2]] := by
  simp [updated_real]
  norm_num

theorem partial_grad :
    NeuralNetwork.grad Real.exp Real.log
      { W := [[Dbl.fin 0, Dbl.fin 0]], b := [[Dbl.fin 0, Dbl.fin 0]], n_classes := 2,
        data_dim := 1 } [[Dbl.fin 1]] [[Dbl.fin 1, Dbl.fin 0]] =
    Except.ok { cost := Dbl.fin (Real.log (1 / 2))
                grad_W := [[Dbl.fin (-1 / 2), Dbl.fin (1 / 2)]]
                grad_b := [[Dbl.fin (-1 / 2), Dbl.fin (1 / 2)]] } := by
  have h := grad_ofMatrix [[1]] [[1, 0]] [[0, 0]] [0, 0] 1 1 2 2 1 (by decide) (by decide)
    (by decide) (by decide) (by decide) (by decide) rfl
  rw [partial_logits, partial_probs, partial_delta, partial_grad_W, partial_grad_b,
    partial_cost] at h
  exact h

/-- C8 fails on the code: `train` on one row of data with `batch_size = 2` and `lr = 1`.  The
only batch is clamped to one row, the gradient of `W = [[0, 0]]` is `[[-1/2, 1/2]]`, and the
code updates with `lr / 2` (the argument), reaching `[[1/4, -1/4]]`, where `lr / rows(X_batch)`
gives `[[1/2, -1/2]]`. -/
theorem train_partial_batch_update :
    chunk ([[Dbl.fin 1]] : Matrix (Dbl ℝ)) 0 (0 + 2) = Except.ok [[Dbl.fin 1]] ∧
    NeuralNetwork.train Real.exp Real.log
      { W := [[Dbl.fin 0, Dbl.fin 0]], b := [[Dbl.fin 0, Dbl.fin 0]], n_classes := 2,
        data_dim := 1 } [[Dbl.fin 1]] [[Dbl.fin 1, Dbl.fin 0]] 1 2 (Dbl.fin 1) 1 =
      some (Except.ok
        ({ W := [[Dbl.fin (1 / 4), Dbl.fin (-1 / 4)]], b := [[Dbl.fin (1 / 4), Dbl.fin (-1 / 4)]],
           n_classes := 2, data_dim := 1 }, [Dbl.fin (Real.log (1 / 2))])) ∧
    NeuralNetwork.update
      ({ W := [[Dbl.fin 0, Dbl.fin 0]], b := [[Dbl.fin 0, Dbl.fin 0]], n_classes := 2,
         data_dim := 1 } : NeuralNetwork ℝ)
      { cost := Dbl.fin (Real.log (1 / 2)), grad_W := [[Dbl.fin (-1 / 2), Dbl.fin (1 / 2)]],
        grad_b := [[Dbl.fin (-1 / 2), Dbl.fin (1 / 2)]] }
      (n_rows ([[Dbl.fin 1]] : Matrix (Dbl ℝ)) : Int) (Dbl.fin 1) =
      Except.ok
        { W := [[Dbl.fin (1 / 2), Dbl.fin (-1 / 2)]], b := [[Dbl.fin (1 / 2), Dbl.fin (-1 / 2)]],
          n_classes := 2, data_dim := 1 } := by
  have hcX : chunk ([[Dbl.fin 1]] : Matrix (Dbl ℝ)) 0 (0 + 2) = Except.ok [[Dbl.fin 1]] := by
    simp [chunk, toSizeT, pure_eq_ok]
  have hcY : chunk ([[Dbl.fin 1, Dbl.fin 0]] : Matrix (Dbl ℝ)) 0 (0 + 2) =
      Except.ok [[Dbl.fin 1, Dbl.fin 0]] := by
    simp [chunk, toSizeT, pure_eq_ok]
  have hu2 := update_ofMatrix [[0, 0]] [[-1 / 2, 1 / 2]] [0, 0] [-1 / 2, 1 / 2] 1 2 2 1
    (Dbl.fin (Real.log (1 / 2))) 1 2 (by decide) (by decide) (by decide) rfl rfl
  rw [partial_updated_two] at hu2
  have hu1 := update_ofMatrix [[0, 0]] [[-1 / 2, 1 / 2]] [0, 0] [-1 / 2, 1 / 2] 1 2 2 1
    (Dbl.fin (Real.log (1 / 2))) 1 1 (by decide) (by decide) (by decide) rfl rfl
  rw [partial_updated_one] at hu1
  refine ⟨hcX, ?_, hu1⟩
  have hbody : NeuralNetwork.train_body Real.exp Real.log ([[Dbl.fin 1]] : Matrix (Dbl ℝ))
      [[Dbl.fin 1, Dbl.fin 0]] 2 (Dbl.fin 1) 0
      ({ W := [[Dbl.fin 0, Dbl.fin 0]], b := [[Dbl.fin 0, Dbl.fin 0]], n_classes := 2,
         data_dim := 1 }, []) =
      Except.ok
        ({ W := [[Dbl.fin (1 / 4), Dbl.fin (-1 / 4)]], b := [[Dbl.fin (1 / 4), Dbl.fin (-1 / 4)]],
           n_classes := 2, data_dim := 1 }, [Dbl.fin (Real.log (1 / 2))]) := by
    unfold NeuralNetwork.train_body NeuralNetwork.step
    rw [hcX, ok_bind, hcY, ok_bind]
    simp only [partial_grad, ok_bind]
    have hu2' : NeuralNetwork.update
        ({ W := [[Dbl.fin 0, Dbl.fin 0]], b := [[Dbl.fin 0, Dbl.fin 0]], n_classes := 2,
           data_dim := 1 } : NeuralNetwork ℝ)
        { cost := Dbl.fin (Real.log (1 / 2)), grad_W := [[Dbl.fin (-1 / 2), Dbl.fin (1 / 2)]],
          grad_b := [[Dbl.fin (-1 / 2), Dbl.fin (1 / 2)]] } 2 (Dbl.fin 1) =
        Except.ok
          { W := [[Dbl.fin (1 / 4), Dbl.fin (-1 / 4)]],
            b := [[Dbl.fin (1 / 4), Dbl.fin (-1 / 4)]], n_classes := 2, data_dim := 1 } := hu2
    rw [hu2', ok_bind]
    rfl
  norm_num [NeuralNetwork.train, blank_matrix, pure_eq_ok, ok_bind,
    NeuralNetwork.train_epochs, NeuralNetwork.train_epoch, n_rows, hbody]

end PartialBatch


/-! ## The training step on an empty batch -/

section EmptyBatch

variable {α : Type} [LinearOrderedField α]

/-- On an empty batch and a weight matrix with at least one row the product `X * W` of `grad`
throws the shape error. -/
theorem grad_empty_batch (e l : α → α) (nn : NeuralNetwork α) (Y : Matrix (Dbl α))
    (hW : n_rows nn.W ≠ 0) :
    nn.grad e l [] Y = Except.error Err.ShapeMismatch := by
  unfold NeuralNetwork.grad operator_mul
  rw [if_pos (by intro h; exact hW h.symm)]
  rfl

/-- C9 as stated fails.  On an empty batch a network with a 2 by 2 weight matrix fails with
the shape error of `X * W`, not with `InvalidBatch`; and a network with no input and no class
returns the loss NaN and an updated network. -/
theorem step_empty_batch_counterexample :
    (NeuralNetwork.step Real.exp Real.log
      ({ W := [[Dbl.fin 1, Dbl.fin 0], [Dbl.fin 0, Dbl.fin 1]], b := [[Dbl.fin 0, Dbl.fin 0]],
         n_classes := 2, data_dim := 2 } : NeuralNetwork ℝ) [] [] 0 (Dbl.fin (1 / 10)) =
        Except.error Err.ShapeMismatch ∧
      Err.ShapeMismatch ≠ Err.InvalidBatch) ∧
    NeuralNetwork.step Real.exp Real.log
      ({ W := [], b := [[]], n_classes := 0, data_dim := 0 } : NeuralNetwork ℝ) [] [] 0
        (Dbl.fin (1 / 10)) =
      Except.ok ({ W := [], b := [[]], n_classes := 0, data_dim := 0 }, Dbl.nan) := by
  refine ⟨⟨?_, by decide⟩, ?_⟩
  · unfold NeuralNetwork.step
    rw [grad_empty_batch _ _ _ _ (by decide)]
    rfl
  · have hcost : (1 / Dbl.ofInt ((n_rows ([] : Matrix (Dbl ℝ)) : Nat) : Int) *
        sum ([] : Matrix (Dbl ℝ)) : Dbl ℝ) = Dbl.nan := by
      show Dbl.mul (Dbl.div (Dbl.fin 1) (Dbl.fin (((0 : Nat) : Int) : ℝ))) (Dbl.fin 0) = Dbl.nan
      simp [Dbl.div, Dbl.mul, Dbl.signed]
    have hg : NeuralNetwork.grad Real.exp Real.log
        ({ W := [], b := [[]], n_classes := 0, data_dim := 0 } : NeuralNetwork ℝ) [] [] =
        Except.ok { cost := Dbl.nan, grad_W := [], grad_b := [[]] } := by
      have h : NeuralNetwork.grad Real.exp Real.log
          ({ W := [], b := [[]], n_classes := 0, data_dim := 0 } : NeuralNetwork ℝ) [] [] =
          Except.ok { cost := (1 / Dbl.ofInt ((n_rows ([] : Matrix (Dbl ℝ)) : Nat) : Int) *
            sum ([] : Matrix (Dbl ℝ))), grad_W := [], grad_b := [[]] } := rfl
      rw [h, hcost]
    unfold NeuralNetwork.step
    rw [hg]
    rfl

/-- C9, amended: a training step on an empty batch, for a network whose weight matrix has at
least one row, fails with the shape error raised by the product `X_batch * W`; it returns no
loss and no updated parameters.  The same holds for the loop body of `train` when
`batch_size` is `0`. -/
theorem step_empty_batch (e l : α → α) (nn : NeuralNetwork α) (X Y Y_batch : Matrix (Dbl α))
    (batch_size : Int) (lr : Dbl α) (hist : List (Dbl α)) (hW : n_rows nn.W ≠ 0) :
    nn.step e l [] Y_batch batch_size lr = Except.error Err.ShapeMismatch ∧
    NeuralNetwork.train_body e l X Y 0 lr 0 (nn, hist) = Except.error Err.ShapeMismatch := by
  have hstep : ∀ Yb bs, nn.step e l [] Yb bs lr = Except.error Err.ShapeMismatch := by
    intro Yb bs
    unfold NeuralNetwork.step
    rw [grad_empty_batch e l nn Yb hW]
    rfl
  refine ⟨hstep _ _, ?_⟩
  have hchunk : ∀ M : Matrix (Dbl α), chunk M 0 (0 + 0) = Except.ok [] := by
    intro M
    simp [chunk, toSizeT, pure_eq_ok]
  unfold NeuralNetwork.train_body
  rw [hchunk X, ok_bind, hchunk Y, ok_bind, hstep]
  rfl

/-- Witness of the amended C9 on a network with a 2 by 2 weight matrix. -/
theorem step_empty_batch_witness :
    NeuralNetwork.step Real.exp Real.log
      ({ W := [[Dbl.fin 1, Dbl.fin 0], [Dbl.fin 0, Dbl.fin 1]], b := [[Dbl.fin 0, Dbl.fin 0]],
         n_classes := 2, data_dim := 2 } : NeuralNetwork ℝ) [] [] 0 (Dbl.fin (1 / 10)) =
      Except.error Err.ShapeMismatch :=
  (step_empty_batch Real.exp Real.log
    ({ W := [[Dbl.fin 1, Dbl.fin 0], [Dbl.fin 0, Dbl.fin 1]], b := [[Dbl.fin 0, Dbl.fin 0]],
       n_classes := 2, data_dim := 2 } : NeuralNetwork ℝ)
    [[Dbl.fin 1, Dbl.fin 0]] [[Dbl.fin 1, Dbl.fin 0]] [] 0 (Dbl.fin (1 / 10)) []
    (by decide)).1

end EmptyBatch

/-! ## One training step on the two by two example -/

section TwoByTwo

/-- The training step on finite values: the cost of `grad` and the updated parameters. -/
theorem step_ofMatrix (X Y W : Matrix ℝ) (bv : List ℝ) (B D C : Nat) (n_classes data_dim : Int)
    (lr : ℝ) (batch_size : Int) (hbs : batch_size ≠ 0)
    (hB : 1 ≤ B) (hD : 1 ≤ D) (hC : 1 ≤ C) (hX : HasShape X B D) (hY : HasShape Y B C)
    (hW : HasShape W D C) (hbv : bv.length = C) :
    NeuralNetwork.step Real.exp Real.log
      { W := Dbl.ofMatrix W, b := Dbl.ofMatrix [bv], n_classes := n_classes,
        data_dim := data_dim } (Dbl.ofMatrix X) (Dbl.ofMatrix Y) batch_size (Dbl.fin lr) =
    Except.ok
      ({ W := Dbl.ofMatrix (updated_real W (grad_W_real X
            (delta_real (probs_real Real.exp (logits_real X W bv B D C)) Y) B D C) lr batch_size)
         b := Dbl.ofMatrix (updated_real [bv] (grad_b_real
            (delta_real (probs_real Real.exp (logits_real X W bv B D C)) Y) B C) lr batch_size)
         n_classes := n_classes, data_dim := data_dim },
        Dbl.fin (cost_real Real.log Y (probs_real Real.exp (logits_real X W bv B D C)) B C)) := by
  unfold NeuralNetwork.step
  rw [grad_ofMatrix X Y W bv B D C n_classes data_dim hB hD hC hX hY hW hbv, ok_bind]
  have hgb : grad_b_real (delta_real (probs_real Real.exp (logits_real X W bv B D C)) Y) B C =
      [(List.range C).map fun j => ∑ i ∈ Finset.range B,
        entryD (delta_real (probs_real Real.exp (logits_real X W bv B D C)) Y) i j] := by
    simp [grad_b_real, tabulate]
  have hgW : HasShape (grad_W_real X
      (delta_real (probs_real Real.exp (logits_real X W bv B D C)) Y) B D C) D C := by
    unfold grad_W_real
    exact hasShape_tabulate _ _ _
  rw [hgb, update_ofMatrix W (grad_W_real X
      (delta_real (probs_real Real.exp (logits_real X W bv B D C)) Y) B D C) bv _ D C
      n_classes data_dim _ lr batch_size hbs hW hgW hbv (by simp), ok_bind]
  rfl

theorem two_logits (w00 w01 w10 w11 b0 b1 : ℝ) :
    logits_real ([[1, 0], [0, 1]] : Matrix ℝ) [[w00, w01], [w10, w11]] [b0, b1] 2 2 2 =
      [[w00 + b0, w01 + b1], [w10 + b0, w11 + b1]] := by
  simp [logits_real, tabulate, List.range_succ, Finset.sum_range_succ, entryD, entry?]

theorem two_probs (a b c d : ℝ) :
    probs_real Real.exp ([[a, b], [c, d]] : Matrix ℝ) =
      [[Real.exp a / (Real.exp a + Real.exp b), Real.exp b / (Real.exp a + Real.exp b)],
       [Real.exp c / (Real.exp c + Real.exp d), Real.exp d / (Real.exp c + Real.exp d)]] := by
  simp [probs_real]

theorem two_delta (p00 p01 p10 p11 : ℝ) :
    delta_real ([[p00, p01], [p10, p11]] : Matrix ℝ) [[1, 0], [0, 1]] =
      [[p00 - 1, p01], [p10, p11 - 1]] := by
  simp [delta_real]

theorem two_grad_W (d00 d01 d10 d11 : ℝ) :
    grad_W_real ([[1, 0], [0, 1]] : Matrix ℝ) [[d00, d01], [d10, d11]] 2 2 2 =
      [[d00, d01], [d10, d11]] := by
  simp [grad_W_real, tabulate, List.range_succ, Finset.sum_range_succ, entryD, entry?]

theorem two_grad_b (d00 d01 d10 d11 : ℝ) :
    grad_b_real ([[d00, d01], [d10, d11]] : Matrix ℝ) 2 2 = [[d00 + d10, d01 + d11]] := by
  simp [grad_b_real, tabulate, List.range_succ, Finset.sum_range_succ, entryD, entry?]

theorem two_cost (p00 p01 p10 p11 : ℝ) :
    cost_real Real.log ([[1, 0], [0, 1]] : Matrix ℝ) [[p00, p01], [p10, p11]] 2 2 =
      1 / 2 * (Real.log p00 + Real.log p11) := by
  simp [cost_real, List.range_succ, Finset.sum_range_succ, entryD, entry?]

theorem two_updated (w00 w01 w10 w11 g00 g01 g10 g11 lr : ℝ) (bs : Int) :
    updated_real ([[w00, w01], [w10, w11]] : Matrix ℝ) [[g00, g01], [g10, g11]] lr bs =
      [[w00 - g00 * (lr * 1 / (bs : ℝ)), w01 - g01 * (lr * 1 / (bs : ℝ))],
       [w10 - g10 * (lr * 1 / (bs : ℝ)), w11 - g11 * (lr * 1 / (bs : ℝ))]] := rfl

theorem two_updated_row (w0 w1 g0 g1 lr : ℝ) (bs : Int) :
    updated_real ([[w0, w1]] : Matrix ℝ) [[g0, g1]] lr bs =
      [[w0 - g0 * (lr * 1 / (bs : ℝ)), w1 - g1 * (lr * 1 / (bs : ℝ))]] := rfl

/-- The log-probability of the first of two classes grows with the margin of its logit. -/
theorem log_softmax_first_mono (u v u' v' : ℝ) (h : u - v < u' - v') :
    Real.log (Real.exp u / (Real.exp u + Real.exp v)) <
      Real.log (Real.exp u' / (Real.exp u' + Real.exp v')) := by
  have hu := Real.exp_pos u
  have hv := Real.exp_pos v
  have hu' := Real.exp_pos u'
  have hv' := Real.exp_pos v'
  apply Real.log_lt_log (by positivity)
  rw [div_lt_div_iff₀ (by positivity) (by positivity)]
  have key : Real.exp u * Real.exp v' < Real.exp u' * Real.exp v := by
    rw [← Real.exp_add, ← Real.exp_add]
    exact Real.exp_lt_exp.mpr (by linarith)
  nlinarith

/-- The log-probability of the second of two classes grows with the margin of its logit. -/
theorem log_softmax_second_mono (u v u' v' : ℝ) (h : u - v < u' - v') :
    Real.log (Real.exp u / (Real.exp v + Real.exp u)) <
      Real.log (Real.exp u' / (Real.exp v' + Real.exp u')) := by
  rw [add_comm (Real.exp v), add_comm (Real.exp v')]
  exact log_softmax_first_mono u v u' v' h

theorem hasShape_two {T : Type} (a b c d : T) : HasShape ([[a, b], [c, d]] : Matrix T) 2 2 := by
  refine ⟨rfl, ?_⟩
  intro row hrow
  simp only [List.mem_cons, List.mem_singleton, List.mem_nil_iff, or_false] at hrow
  rcases hrow with rfl | rfl <;> rfl

/-- The cost `grad` returns on the identity batch for arbitrary two by two parameters. -/
theorem two_grad_cost (w00 w01 w10 w11 b0 b1 : ℝ) :
    ∃ g, NeuralNetwork.grad Real.exp Real.log
        { W := Dbl.ofMatrix [[w00, w01], [w10, w11]], b := Dbl.ofMatrix [[b0, b1]],
          n_classes := 2, data_dim := 2 }
        (Dbl.ofMatrix [[1, 0], [0, 1]]) (Dbl.ofMatrix [[1, 0], [0, 1]]) = Except.ok g ∧
      g.cost = Dbl.fin (1 / 2 *
        (Real.log (Real.exp (w00 + b0) / (Real.exp (w00 + b0) + Real.exp (w01 + b1))) +
         Real.log (Real.exp (w11 + b1) / (Real.exp (w10 + b0) + Real.exp (w11 + b1))))) := by
  have h := grad_ofMatrix [[1, 0], [0, 1]] [[1, 0], [0, 1]] [[w00, w01], [w10, w11]] [b0, b1]
    2 2 2 2 2 (by decide) (by decide) (by decide) (hasShape_two _ _ _ _) (hasShape_two _ _ _ _)
    (hasShape_two _ _ _ _) rfl
  rw [two_logits, two_probs, two_cost] at h
  exact ⟨_, h, rfl⟩

/-- The training step with `lr = 0.1` and `batch_size = 2` on the identity batch at
`W = I`, `b = 0`, in terms of the four predicted probabilities. -/
theorem two_first_step :
    ∃ p00 p01 p10 p11 : ℝ,
      p00 = Real.exp (1 + 0) / (Real.exp (1 + 0) + Real.exp (0 + 0)) ∧
      p01 = Real.exp (0 + 0) / (Real.exp (1 + 0) + Real.exp (0 + 0)) ∧
      p10 = Real.exp (0 + 0) / (Real.exp (0 + 0) + Real.exp (1 + 0)) ∧
      p11 = Real.exp (1 + 0) / (Real.exp (0 + 0) + Real.exp (1 + 0)) ∧
      NeuralNetwork.step Real.exp Real.log
        { W := Dbl.ofMatrix [[1, 0], [0, 1]], b := Dbl.ofMatrix [[0, 0]], n_classes := 2,
          data_dim := 2 }
        (Dbl.ofMatrix [[1, 0], [0, 1]]) (Dbl.ofMatrix [[1, 0], [0, 1]]) 2 (Dbl.fin (1 / 10)) =
      Except.ok
        ({ W := Dbl.ofMatrix
              [[1 - (p00 - 1) * (1 / 10 * 1 / ((2 : Int) : ℝ)), 0 - p01 * (1 / 10 * 1 / ((2 : Int) : ℝ))],
               [0 - p10 * (1 / 10 * 1 / ((2 : Int) : ℝ)), 1 - (p11 - 1) * (1 / 10 * 1 / ((2 : Int) : ℝ))]]
           b := Dbl.ofMatrix
              [[0 - (p00 - 1 + p10) * (1 / 10 * 1 / ((2 : Int) : ℝ)),
                0 - (p01 + (p11 - 1)) * (1 / 10 * 1 / ((2 : Int) : ℝ))]]
           n_classes := 2, data_dim := 2 },
          Dbl.fin (1 / 2 * (Real.log p00 + Real.log p11))) := by
  refine ⟨_, _, _, _, rfl, rfl, rfl, rfl, ?_⟩
  have h := step_ofMatrix [[1, 0], [0, 1]] [[1, 0], [0, 1]] [[1, 0], [0, 1]] [0, 0]
    2 2 2 2 2 (1 / 10) 2 (by decide) (by decide) (by decide) (by decide)
    (hasShape_two _ _ _ _) (hasShape_two _ _ _ _) (hasShape_two _ _ _ _) rfl
  rw [two_logits, two_probs, two_delta, two_grad_W, two_grad_b, two_cost, two_updated,
    two_updated_row] at h
  exact h

/-- On the two by two example the value returned by `grad` after one step with `lr = 0.1` is
greater than the value at the initial parameters. -/
theorem two_step_values :
    ∃ (nn1 : NeuralNetwork ℝ) (g0 g1 : GradResult ℝ) (L0 L1 : ℝ),
      NeuralNetwork.grad Real.exp Real.log
        { W := Dbl.ofMatrix [[1, 0], [0, 1]], b := Dbl.ofMatrix [[0, 0]], n_classes := 2,
          data_dim := 2 }
        (Dbl.ofMatrix [[1, 0], [0, 1]]) (Dbl.ofMatrix [[1, 0], [0, 1]]) = Except.ok g0 ∧
      g0.cost = Dbl.fin L0 ∧
      NeuralNetwork.step Real.exp Real.log
        { W := Dbl.ofMatrix [[1, 0], [0, 1]], b := Dbl.ofMatrix [[0, 0]], n_classes := 2,
          data_dim := 2 }
        (Dbl.ofMatrix [[1, 0], [0, 1]]) (Dbl.ofMatrix [[1, 0], [0, 1]]) 2 (Dbl.fin (1 / 10)) =
        Except.ok (nn1, Dbl.fin L0) ∧
      nn1.grad Real.exp Real.log (Dbl.ofMatrix [[1, 0], [0, 1]])
        (Dbl.ofMatrix [[1, 0], [0, 1]]) = Except.ok g1 ∧
      g1.cost = Dbl.fin L1 ∧ L0 < L1 := by
  obtain ⟨p00, p01, p10, p11, h00, h01, h10, h11, hstep⟩ := two_first_step
  obtain ⟨g0, hg0, hc0⟩ := two_grad_cost 1 0 0 1 0 0
  obtain ⟨g1, hg1, hc1⟩ := two_grad_cost
    (1 - (p00 - 1) * (1 / 10 * 1 / ((2 : Int) : ℝ))) (0 - p01 * (1 / 10 * 1 / ((2 : Int) : ℝ)))
    (0 - p10 * (1 / 10 * 1 / ((2 : Int) : ℝ))) (1 - (p11 - 1) * (1 / 10 * 1 / ((2 : Int) : ℝ)))
    (0 - (p00 - 1 + p10) * (1 / 10 * 1 / ((2 : Int) : ℝ)))
    (0 - (p01 + (p11 - 1)) * (1 / 10 * 1 / ((2 : Int) : ℝ)))
  rw [← h00, ← h11] at hc0
  refine ⟨_, g0, g1, _, _, hg0, hc0, hstep, hg1, hc1, ?_⟩
  have e1 := Real.exp_pos (1 + 0)
  have e0 := Real.exp_pos (0 + 0)
  have s1 : p00 + p01 = 1 := by rw [h00, h01]; field_simp
  have s2 : p10 + p11 = 1 := by rw [h10, h11]; field_simp
  have s3 : p00 + p10 = 1 := by rw [h00, h10]; field_simp; ring
  have s4 : p00 < 1 := by
    rw [h00, div_lt_one (by positivity)]
    linarith
  have hcast : ((2 : Int) : ℝ) = 2 := by norm_num
  have m1 := log_softmax_first_mono (1 + 0) (0 + 0)
    (1 - (p00 - 1) * (1 / 10 * 1 / ((2 : Int) : ℝ)) +
      (0 - (p00 - 1 + p10) * (1 / 10 * 1 / ((2 : Int) : ℝ))))
    (0 - p01 * (1 / 10 * 1 / ((2 : Int) : ℝ)) +
      (0 - (p01 + (p11 - 1)) * (1 / 10 * 1 / ((2 : Int) : ℝ))))
    (by rw [hcast]; linarith)
  have m2 := log_softmax_second_mono (1 + 0) (0 + 0)
    (1 - (p11 - 1) * (1 / 10 * 1 / ((2 : Int) : ℝ)) +
      (0 - (p01 + (p11 - 1)) * (1 / 10 * 1 / ((2 : Int) : ℝ))))
    (0 - p10 * (1 / 10 * 1 / ((2 : Int) : ℝ)) +
      (0 - (p00 - 1 + p10) * (1 / 10 * 1 / ((2 : Int) : ℝ))))
    (by rw [hcast]; linarith)
  rw [← h00] at m1
  rw [← h11] at m2
  linarith

/-- C10 as stated fails: on the example the value after the step is not below the value at
the initial parameters. -/
theorem step_decreases_loss_counterexample :
    ∃ (nn1 : NeuralNetwork ℝ) (g0 g1 : GradResult ℝ) (L0 L1 : ℝ),
      NeuralNetwork.grad Real.exp Real.log
        { W := Dbl.ofMatrix [[1, 0], [0, 1]], b := Dbl.ofMatrix [[0, 0]], n_classes := 2,
          data_dim := 2 }
        (Dbl.ofMatrix [[1, 0], [0, 1]]) (Dbl.ofMatrix [[1, 0], [0, 1]]) = Except.ok g0 ∧
      g0.cost = Dbl.fin L0 ∧
      NeuralNetwork.step Real.exp Real.log
        { W := Dbl.ofMatrix [[1, 0], [0, 1]], b := Dbl.ofMatrix [[0, 0]], n_classes := 2,
          data_dim := 2 }
        (Dbl.ofMatrix [[1, 0], [0, 1]]) (Dbl.ofMatrix [[1, 0], [0, 1]]) 2 (Dbl.fin (1 / 10)) =
        Except.ok (nn1, Dbl.fin L0) ∧
      nn1.grad Real.exp Real.log (Dbl.ofMatrix [[1, 0], [0, 1]])
        (Dbl.ofMatrix [[1, 0], [0, 1]]) = Except.ok g1 ∧
      g1.cost = Dbl.fin L1 ∧ ¬ (L1 < L0) := by
  obtain ⟨nn1, g0, g1, L0, L1, h1, h2, h3, h4, h5, h6⟩ := two_step_values
  exact ⟨nn1, g0, g1, L0, L1, h1, h2, h3, h4, h5, not_lt.mpr h6.le⟩

/-- C10, amended: on the example, with `L0` the value `cross_entropy(Y, Y_prob)` returned by
`grad` at the initial parameters and `L1` the value returned at the parameters after one step
with `lr = 0.1` and batch size 2, `L0 < L1`: the step strictly increases the unnegated mean
log-likelihood that the code returns as the loss. -/
theorem step_increases_returned_value :
    ∃ (nn1 : NeuralNetwork ℝ) (g0 g1 : GradResult ℝ) (L0 L1 : ℝ),
      NeuralNetwork.grad Real.exp Real.log
        { W := Dbl.ofMatrix [[1, 0], [0, 1]], b := Dbl.ofMatrix [[0, 0]], n_classes := 2,
          data_dim := 2 }
        (Dbl.ofMatrix [[1, 0], [0, 1]]) (Dbl.ofMatrix [[1, 0], [0, 1]]) = Except.ok g0 ∧
      g0.cost = Dbl.fin L0 ∧
      NeuralNetwork.step Real.exp Real.log
        { W := Dbl.ofMatrix [[1, 0], [0, 1]], b := Dbl.ofMatrix [[0, 0]], n_classes := 2,
          data_dim := 2 }
        (Dbl.ofMatrix [[1, 0], [0, 1]]) (Dbl.ofMatrix [[1, 0], [0, 1]]) 2 (Dbl.fin (1 / 10)) =
        Except.ok (nn1, Dbl.fin L0) ∧
      nn1.grad Real.exp Real.log (Dbl.ofMatrix [[1, 0], [0, 1]])
        (Dbl.ofMatrix [[1, 0], [0, 1]]) = Except.ok g1 ∧
      g1.cost = Dbl.fin L1 ∧ L0 < L1 ∧ L0 < 0 :=  by
  obtain ⟨nn1, g0, g1, L0, L1, h1, h2, h3, h4, h5, h6⟩ := two_step_values
  refine ⟨nn1, g0, g1, L0, L1, h1, h2, h3, h4, h5, h6, ?_⟩
  obtain ⟨g, hg, hc⟩ := two_grad_cost 1 0 0 1 0 0
  rw [h1] at hg
  cases hg
  rw [h2] at hc
  have hL0 := Dbl.fin.inj hc
  rw [hL0]
  have e1 := Real.exp_pos (1 + 0)
  have e0 := Real.exp_pos (0 + 0)
  have n1 : Real.log (Real.exp (1 + 0) / (Real.exp (1 + 0) + Real.exp (0 + 0))) < 0 :=
    Real.log_neg (by positivity) (by rw [div_lt_one (by positivity)]; linarith)
  have n2 : Real.log (Real.exp (1 + 0) / (Real.exp (0 + 0) + Real.exp (1 + 0))) < 0 :=
    Real.log_neg (by positivity) (by rw [div_lt_one (by positivity)]; linarith)
  linarith

end TwoByTwo

/-! ## The prediction on the two by two example -/

section Prediction

/-- C11: for `X = W = [[1,0],[0,1]]` and `b = [[0,0]]` the prediction
`softmax(add_to_each(X * W, b))` is the matrix with rows `[e/(e+1), 1/(e+1)]` and
`[1/(e+1), e/(e+1)]`, `e = exp(1)`, exactly over the reals. -/
theorem predict_two_by_two :
    (operator_mul (Dbl.ofMatrix ([[1, 0], [0, 1]] : Matrix ℝ)) (Dbl.ofMatrix [[1, 0], [0, 1]]) >>=
      fun XW => add_to_each XW (Dbl.ofMatrix [[0, 0]]) >>= fun Z => softmax_rows Real.exp Z) =
    Except.ok (Dbl.ofMatrix
      [[Real.exp 1 / (Real.exp 1 + 1), 1 / (Real.exp 1 + 1)],
       [1 / (Real.exp 1 + 1), Real.exp 1 / (Real.exp 1 + 1)]]) := by
  have h1 := operator_mul_ofMatrix (hasShape_two (1 : ℝ) 0 0 1) (hasShape_two (1 : ℝ) 0 0 1)
    (by decide) (by decide)
  have h2 : add_to_each (Dbl.ofMatrix (tabulate 2 2 fun i j =>
      ∑ k ∈ Finset.range 2, entryD ([[1, 0], [0, 1]] : Matrix ℝ) i k *
        entryD ([[1, 0], [0, 1]] : Matrix ℝ) k j)) (Dbl.ofMatrix [[0, 0]]) =
      Except.ok (Dbl.ofMatrix (logits_real [[1, 0], [0, 1]] [[1, 0], [0, 1]] [0, 0] 2 2 2)) :=
    add_to_each_ofMatrix (hasShape_tabulate _ _ _) (by decide) rfl
  rw [h1, ok_bind, h2, ok_bind, two_logits,
    softmax_rows_ofMatrix _ (by
      intro row hrow
      simp only [List.mem_cons, List.mem_singleton, List.mem_nil_iff, or_false] at hrow
      rcases hrow with rfl | rfl <;> simp)]
  have hp := two_probs (1 + 0) (0 + 0) (0 + 0) (1 + 0)
  unfold probs_real at hp
  rw [hp]
  congr 2
  simp only [add_zero, Real.exp_zero]
  rw [add_comm (1 : ℝ) (Real.exp 1)]

end Prediction

/-! ## Transposition -/

section Transpose

variable {T : Type}

/-- A matrix of `r` rows of length `c` is the table of its entries. -/
theorem tabulate_entryD [Zero T] {A : Matrix T} {r c : Nat} (hA : HasShape A r c) :
    tabulate r c (fun i j => entryD A i j) = A := by
  apply matrix_ext_hasShape (hasShape_tabulate _ _ _) hA
  intro i j hi hj
  obtain ⟨x, hx⟩ := hasShape_entry_some hA hi hj
  rw [entry?_tabulate, if_pos ⟨hi, hj⟩, hx, entryD_of_some hx]

/-- Transposing twice gives the matrix back when it is empty or has at least one column. -/
theorem transpose_transpose [Zero T] {A : Matrix T} (hA : Rect A) (h : A = [] ∨ 0 < n_cols A) :
    (transpose A >>= fun B => transpose B) = Except.ok A := by
  rcases h with h | h
  · subst h
    rfl
  · have hr : 0 < n_rows A := by
      cases A with
      | nil => simp [n_cols] at h
      | cons a A => simp [n_rows]
    have hT := hasShape_tabulate (n_cols A) (n_rows A) fun j i => entryD A i j
    have h2 := transpose_eq hT.rect
    rw [hT.n_rows_eq, hT.n_cols_eq h] at h2
    rw [transpose_eq hA, ok_bind, h2]
    congr 1
    have hcongr : (tabulate (n_rows A) (n_cols A) fun j i =>
        entryD (tabulate (n_cols A) (n_rows A) fun j i => entryD A i j) i j) =
        tabulate (n_rows A) (n_cols A) fun i j => entryD A i j := by
      apply tabulate_congr
      intro i j hi hj
      rw [entryD_tabulate _ _ _ hj hi]
    rw [hcongr, tabulate_entryD hA.hasShape]

/-- C12 as stated fails: the matrix `[[]]` of one row of length zero has no column, its
transpose is the empty matrix, and the transpose of that is the empty matrix again. -/
theorem transpose_involution_counterexample :
    (transpose ([[]] : Matrix Int) >>= fun B => transpose B) = Except.ok [] ∧
    Rect ([[]] : Matrix Int) ∧ ([] : Matrix Int) ≠ [[]] := by
  decide

/-- C12, amended: for every rectangular matrix `A` that has no row or has at least one
column, `transpose(transpose(A)) == A`. -/
theorem transpose_involution [Zero T] (A : Matrix T) (hA : Rect A)
    (h : A = [] ∨ 0 < n_cols A) :
    (transpose A >>= fun B => transpose B) = Except.ok A :=
  transpose_transpose hA h

/-- Witness of the amended C12 on a 2 by 3 integer matrix. -/
theorem transpose_involution_witness :
    (transpose ([[1, 2, 3], [4, 5, 6]] : Matrix Int) >>= fun B => transpose B) =
      Except.ok [[1, 2, 3], [4, 5, 6]] :=
  transpose_involution [[1, 2, 3], [4, 5, 6]] (by decide) (Or.inr (by decide))

/-- C13: for a rectangular `m`, `transpose(m)` has `cols(m)` rows, each of length `rows(m)`,
and `transpose(m)[j][i] == m[i][j]` for all `i < rows(m)` and `j < cols(m)`. -/
theorem transpose_contract [Zero T] (m : Matrix T) (hm : Rect m) :
    ∃ R, transpose m = Except.ok R ∧ n_rows R = n_cols m ∧
      (∀ row ∈ R, row.length = n_rows m) ∧
      ∀ i j, i < n_rows m → j < n_cols m →
        ∃ x, entry? m i j = some x ∧ entry? R j i = some x := by
  refine ⟨_, transpose_eq hm, n_rows_tabulate _ _ _, (hasShape_tabulate _ _ _).2, ?_⟩
  intro i j hi hj
  refine ⟨entryD m i j, rect_entry_eq_entryD hm hi hj, ?_⟩
  rw [entry?_tabulate, if_pos ⟨hj, hi⟩]

/-- Witness of C13 on a 2 by 3 integer matrix. -/
theorem transpose_contract_witness :
    ∃ R, transpose ([[1, 2, 3], [4, 5, 6]] : Matrix Int) = Except.ok R ∧ n_rows R = 3 ∧
      (∀ row ∈ R, row.length = 2) ∧ entry? R 2 1 = some 6 := by
  obtain ⟨R, hR, hr, hlen, hent⟩ :=
    transpose_contract ([[1, 2, 3], [4, 5, 6]] : Matrix Int) (by decide)
  refine ⟨R, hR, hr, hlen, ?_⟩
  obtain ⟨x, hx, hx'⟩ := hent 1 2 (by decide) (by decide)
  rw [hx', ← hx]
  decide

end Transpose

/-! ## Algebraic laws of the operators -/

section Algebra

variable {T : Type}

theorem hasShape_identity [Zero T] [One T] (n : Nat) : HasShape (identity n : Matrix T) n n :=
  hasShape_tabulate _ _ _

theorem n_cols_identity [Zero T] [One T] (n : Nat) : n_cols (identity n : Matrix T) = n := by
  cases n with
  | zero => rfl
  | succ k => exact (hasShape_identity (k + 1)).n_cols_eq (Nat.succ_pos k)

/-- The product with the identity matrix gives the matrix back as soon as every entry `x`
satisfies `x * 1 = x` and `x * 0 = 0`. -/
theorem operator_mul_identity_of [AddCommMonoid T] [Mul T] [One T] {A : Matrix T} (hA : Rect A)
    (h : ∀ i j x, entry? A i j = some x → x * 1 = x ∧ x * 0 = 0) :
    operator_mul A (identity (n_cols A)) = Except.ok A := by
  have hI := hasShape_identity (T := T) (n_cols A)
  rw [operator_mul_eq hA hI.rect hI.n_rows_eq.symm, n_cols_identity]
  congr 1
  have hcongr : (tabulate (n_rows A) (n_cols A) fun i j =>
      (List.range (n_cols A)).foldl
        (fun acc k => acc + entryD A i k * entryD (identity (n_cols A) : Matrix T) k j) 0) =
      tabulate (n_rows A) (n_cols A) fun i j => entryD A i j := by
    apply tabulate_congr
    intro i j hi hj
    rw [foldl_range_eq_sum, Finset.sum_eq_single j]
    · obtain ⟨x, hx⟩ := rect_entry_some hA hi hj
      have hId : entryD (identity (n_cols A) : Matrix T) j j = 1 := by
        unfold identity
        rw [entryD_tabulate _ _ _ hj hj, if_pos rfl]
      rw [hId, entryD_of_some hx]
      exact (h i j x hx).1
    · intro k hk hkj
      have hk' := Finset.mem_range.mp hk
      obtain ⟨x, hx⟩ := rect_entry_some hA hi hk'
      have hId : entryD (identity (n_cols A) : Matrix T) k j = 0 := by
        unfold identity
        rw [entryD_tabulate _ _ _ hk' hj, if_neg hkj]
      rw [hId, entryD_of_some hx]
      exact (h i k x hx).2
    · intro hj'
      exact absurd (Finset.mem_range.mpr hj) hj'
  rw [hcongr, tabulate_entryD hA.hasShape]

/-- C14: for a rectangular `A`, `matmul(A, I)` with `I` the `cols(A)` by `cols(A)` identity
returns `A`; in particular it does not fail.  This holds for entries in any semiring, and for
matrices of finite doubles. -/
theorem operator_mul_identity [Semiring T] (A : Matrix T) (hA : Rect A) :
    operator_mul A (identity (n_cols A)) = Except.ok A ∧
    ∀ B : Matrix ℝ, Rect B →
      operator_mul (Dbl.ofMatrix B) (identity (n_cols B)) = Except.ok (Dbl.ofMatrix B) := by
  refine ⟨operator_mul_identity_of hA (fun _ _ x _ => ⟨mul_one x, mul_zero x⟩), ?_⟩
  intro B hB
  have hBl : Rect (Dbl.ofMatrix B) := rect_map _ hB
  have h := operator_mul_identity_of hBl (by
    intro i j x hx
    rw [entry?_ofMatrix] at hx
    cases hb : entry? B i j with
    | none => rw [hb] at hx; cases hx
    | some b =>
      rw [hb] at hx
      cases hx
      exact ⟨by rw [Dbl.one_def, Dbl.fin_mul_fin, mul_one],
        by rw [Dbl.zero_def, Dbl.fin_mul_fin, mul_zero]⟩)
  have hc : n_cols (Dbl.ofMatrix B) = n_cols B := n_cols_map _ B
  rw [hc] at h
  exact h

/-- Witness of C14 on a 2 by 3 integer matrix. -/
theorem operator_mul_identity_witness :
    operator_mul ([[1, 2, 3], [4, 5, 6]] : Matrix Int) (identity 3) =
      Except.ok [[1, 2, 3], [4, 5, 6]] :=
  (operator_mul_identity ([[1, 2, 3], [4, 5, 6]] : Matrix Int) (by decide)).1

theorem same_map_length {A B : Matrix T} (hA : Rect A) (hB : Rect B)
    (hr : n_rows A = n_rows B) (hc : n_cols A = n_cols B) :
    A.map List.length = B.map List.length := by
  rw [rect_map_length hA, rect_map_length hB, hr, hc]

theorem zipWith_zipWith_comm (op : T → T → T) (hop : ∀ a b, op a b = op b a) {A B : Matrix T}
    (h : A.map List.length = B.map List.length) :
    List.zipWith (List.zipWith op) A B = List.zipWith (List.zipWith op) B A := by
  apply matrix_ext
  · rw [map_length_zipWith op h, map_length_zipWith op h.symm, h]
  · intro i j
    rw [entry?_zipWith, entry?_zipWith]
    cases entry? A i j <;> cases entry? B i j <;> simp [hop]

/-- C15: for rectangular `A` and `B`, `add(A, B)` and `add(B, A)` are the same: the same
matrix when the shapes match, and the shape error in both orders when they do not. -/
theorem operator_add_comm [AddCommMagma T] (A B : Matrix T) (hA : Rect A) (hB : Rect B) :
    operator_add A B = operator_add B A ∧
    ((n_rows A, n_cols A) = (n_rows B, n_cols B) → ∃ R, operator_add A B = Except.ok R) ∧
    ((n_rows A, n_cols A) ≠ (n_rows B, n_cols B) →
      operator_add A B = Except.error Err.ShapeMismatch ∧
      operator_add B A = Except.error Err.ShapeMismatch) := by
  have hne : (n_rows A, n_cols A) ≠ (n_rows B, n_cols B) →
      operator_add A B = Except.error Err.ShapeMismatch ∧
      operator_add B A = Except.error Err.ShapeMismatch := by
    intro h
    have h' := (shape_ne_iff A B).mp h
    have h'' : n_rows B ≠ n_rows A ∨ n_cols B ≠ n_cols A := by
      rcases h' with h1 | h1
      · exact Or.inl (Ne.symm h1)
      · exact Or.inr (Ne.symm h1)
    unfold operator_add
    rw [if_pos h', if_pos h'']
    exact ⟨rfl, rfl⟩
  have heq : (n_rows A, n_cols A) = (n_rows B, n_cols B) →
      operator_add A B = operator_add B A ∧ ∃ R, operator_add A B = Except.ok R := by
    intro h
    rw [Prod.mk.injEq] at h
    rw [operator_add_eq hA hB h.1 h.2, operator_add_eq hB hA h.1.symm h.2.symm,
      zipWith_zipWith_comm _ (fun a b => add_comm a b) (same_map_length hA hB h.1 h.2)]
    exact ⟨rfl, _, rfl⟩
  refine ⟨?_, fun h => (heq h).2, hne⟩
  by_cases h : (n_rows A, n_cols A) = (n_rows B, n_cols B)
  · exact (heq h).1
  · rw [(hne h).1, (hne h).2]

/-- Witness of C15 on two 2 by 2 integer matrices. -/
theorem operator_add_comm_witness :
    operator_add ([[1, 2], [3, 4]] : Matrix Int) [[5, 6], [7, 8]] =
      operator_add ([[5, 6], [7, 8]] : Matrix Int) [[1, 2], [3, 4]] :=
  (operator_add_comm ([[1, 2], [3, 4]] : Matrix Int) [[5, 6], [7, 8]] (by decide)
    (by decide)).1

/-- Subtracting `B` from `A + B` gives `A` back as soon as `a + b - b = a` for the entries. -/
theorem sub_add_cancel_of [Add T] [Sub T] {A B : Matrix T} (hA : Rect A) (hB : Rect B)
    (hr : n_rows A = n_rows B) (hc : n_cols A = n_cols B)
    (h : ∀ i j a b, entry? A i j = some a → entry? B i j = some b → a + b - b = a) :
    (operator_add A B >>= fun S => operator_sub S B) = Except.ok A := by
  have hlen := same_map_length hA hB hr hc
  have hSlen := map_length_zipWith (fun x e : T => x + e) hlen
  obtain ⟨hSr, hSc, hS⟩ := rect_of_map_length hA hSlen
  rw [operator_add_eq hA hB hr hc, ok_bind,
    operator_sub_eq hS hB (hSr.trans hr) (hSc.trans hc)]
  congr 1
  apply matrix_ext
  · rw [map_length_zipWith _ (hSlen.trans hlen), hSlen]
  · intro i j
    rw [entry?_zipWith, entry?_zipWith]
    cases ha : entry? A i j with
    | none => rfl
    | some a =>
      obtain ⟨hi, hj⟩ := rect_entry_bounds hA ha
      obtain ⟨b, hb⟩ := rect_entry_some hB (hr ▸ hi) (hc ▸ hj)
      simp only [hb, Option.some_bind, Option.map_some', Option.bind_eq_bind]
      rw [h i j a b ha hb]

/-- C16: over exact arithmetic (entries in an additive group), for rectangular `A` and `B`
of one shape `subtract(add(A, B), B)` succeeds and equals `A`; so it does on matrices of
finite doubles. -/
theorem operator_sub_add_cancel [AddGroup T] (A B : Matrix T) (hA : Rect A) (hB : Rect B)
    (hshape : (n_rows A, n_cols A) = (n_rows B, n_cols B)) :
    (operator_add A B >>= fun S => operator_sub S B) = Except.ok A ∧
    ∀ C D : Matrix ℝ, Rect C → Rect D → (n_rows C, n_cols C) = (n_rows D, n_cols D) →
      (operator_add (Dbl.ofMatrix C) (Dbl.ofMatrix D) >>= fun S =>
        operator_sub S (Dbl.ofMatrix D)) = Except.ok (Dbl.ofMatrix C) := by
  rw [Prod.mk.injEq] at hshape
  refine ⟨sub_add_cancel_of hA hB hshape.1 hshape.2
    (fun _ _ a b _ _ => add_sub_cancel_right a b), ?_⟩
  intro C D hC hD hCD
  rw [Prod.mk.injEq] at hCD
  apply sub_add_cancel_of (rect_map _ hC) (rect_map _ hD)
    ((n_rows_map _ C).trans (hCD.1.trans (n_rows_map _ D).symm))
    ((n_cols_map _ C).trans (hCD.2.trans (n_cols_map _ D).symm))
  intro i j a b ha hb
  rw [entry?_map] at ha hb
  cases hc : entry? C i j with
  | none => rw [hc] at ha; cases ha
  | some c =>
    cases hd : entry? D i j with
    | none => rw [hd] at hb; cases hb
    | some d =>
      rw [hc] at ha
      rw [hd] at hb
      cases ha
      cases hb
      rw [Dbl.fin_add_fin, Dbl.fin_sub_fin, add_sub_cancel_right]

/-- Witness of C16 on two 2 by 2 integer matrices. -/
theorem operator_sub_add_cancel_witness :
    (operator_add ([[1, 2], [3, 4]] : Matrix Int) [[5, 6], [7, 8]] >>= fun S =>
      operator_sub S [[5, 6], [7, 8]]) = Except.ok [[1, 2], [3, 4]] :=
  (operator_sub_add_cancel ([[1, 2], [3, 4]] : Matrix Int) [[5, 6], [7, 8]] (by decide)
    (by decide) (by decide)).1

/-- C17: for a rectangular `A` and a matrix `v`, `add_to_each` fails with the shape error
exactly when `cols(A) != cols(v)` or `rows(v) != 1`; otherwise it returns a matrix of the shape
of `A` with `result[r][c] == A[r][c] + v[0][c]`. -/
theorem add_to_each_contract [Add T] (A v : Matrix T) (hA : Rect A) :
    (add_to_each A v = Except.error Err.ShapeMismatch ↔
      (n_cols A ≠ n_cols v ∨ n_rows v ≠ 1)) ∧
    (n_cols A = n_cols v → n_rows v = 1 →
      ∃ R, add_to_each A v = Except.ok R ∧ n_rows R = n_rows A ∧ n_cols R = n_cols A ∧
        Rect R ∧
        (∀ r c, r < n_rows A → c < n_cols A →
          ∃ a e, entry? A r c = some a ∧ entry? v 0 c = some e ∧
            entry? R r c = some (a + e))) := by
  have hok : n_cols A = n_cols v → n_rows v = 1 →
      ∃ R, add_to_each A v = Except.ok R ∧ n_rows R = n_rows A ∧ n_cols R = n_cols A ∧
        Rect R ∧
        (∀ r c, r < n_rows A → c < n_cols A →
          ∃ a e, entry? A r c = some a ∧ entry? v 0 c = some e ∧
            entry? R r c = some (a + e)) := by
    intro hc hr
    obtain ⟨w, rfl⟩ := List.length_eq_one.mp hr
    have hcw : n_cols A = w.length := hc
    have hlen : (A.map fun row => List.zipWith (fun x e => x + e) row w).map List.length =
        A.map List.length := by
      rw [List.map_map]
      apply List.map_congr_left
      intro row hrow
      simp [hA row hrow, hcw]
    obtain ⟨h1, h2, h3⟩ := rect_of_map_length hA hlen
    refine ⟨_, add_to_each_eq hA hcw, h1, h2, h3, ?_⟩
    intro r c hr' hc'
    obtain ⟨a, ha⟩ := rect_entry_some hA hr' hc'
    have hcw' : c < w.length := hcw ▸ hc'
    have he : w[c]? = some w[c] := List.getElem?_eq_getElem hcw'
    refine ⟨a, w[c], ha, ?_, ?_⟩
    · simp [entry?, he]
    · rw [entry?_map_zipWith, ha, he]
      rfl
  refine ⟨?_, hok⟩
  constructor
  · intro hfail
    by_contra hne
    rw [not_or, not_not, not_not] at hne
    obtain ⟨R, hR, -⟩ := hok hne.1 hne.2
    rw [hR] at hfail
    cases hfail
  · intro hne
    unfold add_to_each
    by_cases h1 : n_cols A ≠ n_cols v
    · rw [if_pos h1]
      rfl
    · rw [if_neg h1]
      have h2 : n_rows v ≠ 1 := by
        rcases hne with h | h
        · exact absurd h h1
        · exact h
      rw [if_pos h2]
      rfl

/-- Witness of C17: adding the row `[10, 20]` to a 2 by 2 integer matrix. -/
theorem add_to_each_contract_witness :
    ∃ R, add_to_each ([[1, 2], [3, 4]] : Matrix Int) [[10, 20]] = Except.ok R ∧
      n_rows R = 2 ∧ n_cols R = 2 ∧ entry? R 1 0 = some 13 := by
  obtain ⟨R, hR, hr, hc, -, hent⟩ :=
    (add_to_each_contract ([[1, 2], [3, 4]] : Matrix Int) [[10, 20]] (by decide)).2
      (by decide) (by decide)
  refine ⟨R, hR, hr, hc, ?_⟩
  obtain ⟨a, e, ha, he, hRe⟩ := hent 1 0 (by decide) (by decide)
  have ha' : a = 3 := by
    have : entry? ([[1, 2], [3, 4]] : Matrix Int) 1 0 = some 3 := by decide
    rw [this] at ha
    exact (Option.some.inj ha).symm
  have he' : e = 10 := by
    have : entry? ([[10, 20]] : Matrix Int) 0 0 = some 10 := by decide
    rw [this] at he
    exact (Option.some.inj he).symm
  rw [hRe, ha', he']
  rfl

end Algebra

/-! ## Slicing -/

section Chunk

/-- C18 fails on the code.  With `from = 0` and `to = -1` the comparison `to > m.size()` is
made on `size_t`, `to` is replaced by the size and all three rows are returned where the
claim has none; with `from = 2`, `to = 1` and with `from = 5`, `to = 7` the iterator range is
reversed, which is undefined behaviour, where the claim has the empty matrix.  The negative
start and the clamped end behave as claimed. -/
theorem chunk_negative_to_returns_all :
    chunk ([[1], [2], [3]] : Matrix Int) 0 (-1) = Except.ok [[1], [2], [3]] ∧
    chunk ([[1], [2], [3]] : Matrix Int) 2 1 = Except.error Err.Undefined ∧
    chunk ([[1], [2], [3]] : Matrix Int) 5 7 = Except.error Err.Undefined ∧
    chunk ([[1], [2], [3]] : Matrix Int) (-1) 2 = Except.error Err.InvalidRange ∧
    chunk ([[1], [2], [3]] : Matrix Int) 1 5 = Except.ok [[2], [3]] := by
  refine ⟨?_, ?_, ?_, ?_, ?_⟩ <;> simp [chunk, toSizeT, pure_eq_ok, throw_eq_error]

end Chunk

/-! ## Rectangularity -/

section Rectangular

variable {T : Type}

theorem rect_of_forall_length {R : Matrix T} {c : Nat} (h : ∀ row ∈ R, row.length = c) :
    Rect R :=
  HasShape.rect (r := R.length) (c := c) ⟨rfl, h⟩

theorem chunk_subset {m R : List T} {f t : Int} (h : chunk m f t = Except.ok R) :
    ∀ x ∈ R, x ∈ m := by
  unfold chunk at h
  by_cases h1 : f < 0
  · rw [if_pos h1] at h
    cases h
  · rw [if_neg h1] at h
    dsimp only at h
    split_ifs at h with h2 h3 h4
    all_goals
      rw [pure_eq_ok] at h
      cases h
      intro x hx
      exact List.mem_of_mem_drop (List.mem_of_mem_take hx)

theorem rect_chunk {m R : Matrix T} {f t : Int} (hm : Rect m)
    (h : chunk m f t = Except.ok R) : Rect R :=
  rect_of_forall_length (fun row hrow => hm row (chunk_subset h row hrow))

theorem rect_zip_result {op : T → T → T} {A B : Matrix T} (hA : Rect A) (hB : Rect B)
    (hr : n_rows A = n_rows B) (hc : n_cols A = n_cols B) :
    Rect (List.zipWith (List.zipWith op) A B) :=
  (rect_of_map_length hA (map_length_zipWith op (same_map_length hA hB hr hc))).2.2

theorem rect_operator_add [Add T] {A B R : Matrix T} (hA : Rect A) (hB : Rect B)
    (h : operator_add A B = Except.ok R) : Rect R := by
  by_cases hs : n_rows A ≠ n_rows B ∨ n_cols A ≠ n_cols B
  · unfold operator_add at h
    rw [if_pos hs] at h
    cases h
  · rw [not_or, not_not, not_not] at hs
    rw [operator_add_eq hA hB hs.1 hs.2] at h
    cases h
    exact rect_zip_result hA hB hs.1 hs.2

theorem rect_operator_sub [Sub T] {A B R : Matrix T} (hA : Rect A) (hB : Rect B)
    (h : operator_sub A B = Except.ok R) : Rect R := by
  by_cases hs : n_rows A ≠ n_rows B ∨ n_cols A ≠ n_cols B
  · unfold operator_sub at h
    rw [if_pos hs] at h
    cases h
  · rw [not_or, not_not, not_not] at hs
    rw [operator_sub_eq hA hB hs.1 hs.2] at h
    cases h
    exact rect_zip_result hA hB hs.1 hs.2

theorem rect_hadamard [Mul T] {A B R : Matrix T} (hA : Rect A) (hB : Rect B)
    (h : hadamard A B = Except.ok R) : Rect R := by
  by_cases hs : n_rows A ≠ n_rows B ∨ n_cols A ≠ n_cols B
  · unfold hadamard at h
    rw [if_pos hs] at h
    cases h
  · rw [not_or, not_not, not_not] at hs
    rw [hadamard_eq hA hB hs.1 hs.2] at h
    cases h
    exact rect_zip_result hA hB hs.1 hs.2

theorem rect_operator_mul [Add T] [Mul T] [Zero T] {A B R : Matrix T} (hA : Rect A)
    (hB : Rect B) (h : operator_mul A B = Except.ok R) : Rect R := by
  by_cases hs : n_cols A ≠ n_rows B
  · unfold operator_mul at h
    rw [if_pos hs] at h
    cases h
  · rw [not_not] at hs
    rw [operator_mul_eq hA hB hs] at h
    cases h
    exact (hasShape_tabulate _ _ _).rect

theorem rect_transpose [Zero T] {m R : Matrix T} (hm : Rect m)
    (h : transpose m = Except.ok R) : Rect R := by
  rw [transpose_eq hm] at h
  cases h
  exact (hasShape_tabulate _ _ _).rect

theorem rect_add_to_each [Add T] {A v R : Matrix T} (hA : Rect A)
    (h : add_to_each A v = Except.ok R) : Rect R := by
  by_cases h1 : n_cols A ≠ n_cols v
  · unfold add_to_each at h
    rw [if_pos h1] at h
    cases h
  · by_cases h2 : n_rows v ≠ 1
    · unfold add_to_each at h
      rw [if_neg h1, if_pos h2] at h
      cases h
    · rw [not_not] at h1 h2
      obtain ⟨w, rfl⟩ := List.length_eq_one.mp h2
      have hcw : n_cols A = w.length := h1
      rw [add_to_each_eq hA hcw] at h
      cases h
      have hlen : (A.map fun row => List.zipWith (fun x e => x + e) row w).map List.length =
          A.map List.length := by
        rw [List.map_map]
        apply List.map_congr_left
        intro row hrow
        simp [hA row hrow, hcw]
      exact (rect_of_map_length hA hlen).2.2

theorem softmax_rows_length {α : Type} [LinearOrderedField α] (e : α → α) :
    ∀ (Z R : Matrix (Dbl α)), softmax_rows e Z = Except.ok R →
      R.map List.length = Z.map List.length := by
  intro Z
  induction Z with
  | nil =>
    intro R h
    cases h
    rfl
  | cons row rest ih =>
    intro R h
    have hdef : softmax_rows e (row :: rest) =
        (softmax e row >>= fun r => softmax_rows e rest >>= fun rs => pure (r :: rs)) := rfl
    rw [hdef] at h
    by_cases hrow : row = []
    · subst hrow
      rw [softmax_nil, error_bind] at h
      cases h
    · obtain ⟨r, hr, hrlen⟩ := softmax_ok e row hrow
      rw [hr, ok_bind] at h
      cases hrest : softmax_rows e rest with
      | error err =>
        rw [hrest, error_bind] at h
        cases h
      | ok rs =>
        rw [hrest, ok_bind] at h
        cases h
        simp [hrlen, ih rs hrest]

/-- C19: `blank_matrix(rows, cols, fill)` returns `rows` rows of length `cols` filled with
`fill`, and whenever `chunk`, `transpose`, the element-wise `log`, the scalar product, `add`,
`subtract`, `hadamard`, `add_to_each`, `matmul` or the row-wise `softmax` is applied to
rectangular operands and returns, the rows of the result have one length. -/
theorem rectangularity_invariant [Add T] [Sub T] [Mul T] [Zero T] {α : Type}
    [LinearOrderedField α] :
    (∀ (rows cols : Nat) (fill : T), ∃ M, blank_matrix (rows : Int) (cols : Int) fill =
        Except.ok M ∧ n_rows M = rows ∧ ∀ row ∈ M, row.length = cols ∧ ∀ x ∈ row, x = fill) ∧
    (∀ (m R : Matrix T) (from_ to_ : Int), Rect m → chunk m from_ to_ = Except.ok R → Rect R) ∧
    (∀ m R : Matrix T, Rect m → transpose m = Except.ok R → Rect R) ∧
    (∀ (ln : T → T) (m : Matrix T), Rect m → Rect (log ln m)) ∧
    (∀ (scalar : T) (m : Matrix T), Rect m → Rect (operator_smul scalar m)) ∧
    (∀ A B R : Matrix T, Rect A → Rect B → operator_add A B = Except.ok R → Rect R) ∧
    (∀ A B R : Matrix T, Rect A → Rect B → operator_sub A B = Except.ok R → Rect R) ∧
    (∀ A B R : Matrix T, Rect A → Rect B → hadamard A B = Except.ok R → Rect R) ∧
    (∀ A v R : Matrix T, Rect A → Rect v → add_to_each A v = Except.ok R → Rect R) ∧
    (∀ A B R : Matrix T, Rect A → Rect B → operator_mul A B = Except.ok R → Rect R) ∧
    (∀ (e : α → α) (Z R : Matrix (Dbl α)), Rect Z → softmax_rows e Z = Except.ok R →
      Rect R) := by
  refine ⟨?_, ?_, ?_, ?_, ?_, ?_, ?_, ?_, ?_, ?_, ?_⟩
  · intro rows cols fill
    refine ⟨_, blank_matrix_natCast rows cols fill, by simp [n_rows], ?_⟩
    intro row hrow
    rw [(List.mem_replicate.mp hrow).2]
    exact ⟨List.length_replicate _ _, fun x hx => (List.mem_replicate.mp hx).2⟩
  · intro m R f t hm h
    exact rect_chunk hm h
  · intro m R hm h
    exact rect_transpose hm h
  · intro ln m hm
    exact rect_map ln hm
  · intro scalar m hm
    exact rect_map (fun elem => elem * scalar) hm
  · intro A B R hA hB h
    exact rect_operator_add hA hB h
  · intro A B R hA hB h
    exact rect_operator_sub hA hB h
  · intro A B R hA hB h
    exact rect_hadamard hA hB h
  · intro A v R hA _ h
    exact rect_add_to_each hA h
  · intro A B R hA hB h
    exact rect_operator_mul hA hB h
  · intro e Z R hZ h
    exact (rect_of_map_length hZ (softmax_rows_length e Z R h)).2.2

/-- Witness of C19: the sum of two 2 by 2 integer matrices is rectangular. -/
theorem rectangularity_invariant_witness :
    Rect ([[6, 8], [10, 12]] : Matrix Int) :=
  (rectangularity_invariant (T := Int) (α := ℚ)).2.2.2.2.2.1 ([[1, 2], [3, 4]] : Matrix Int)
    [[5, 6], [7, 8]] [[6, 8], [10, 12]] (by decide) (by decide) (by decide)

end Rectangular

/-! ## The bias gradient sums to zero -/

section BiasGradient

theorem softmax_row_sum (v : List ℝ) (hv : v ≠ []) :
    (v.map fun x => Real.exp x / (v.map Real.exp).sum).sum = 1 := by
  have hS := sum_exp_pos v hv
  have : (v.map fun x => Real.exp x / (v.map Real.exp).sum) =
      (v.map Real.exp).map (fun y => y * ((v.map Real.exp).sum)⁻¹) := by
    rw [List.map_map]
    apply List.map_congr_left
    intro x _
    simp [div_eq_mul_inv]
  rw [this, List.sum_map_mul_right]
  simp only [List.map_id']
  exact mul_inv_cancel₀ hS.ne'

theorem sum_zipWith_sub (l1 l2 : List ℝ) (h : l1.length = l2.length) :
    (List.zipWith (fun x e => x - e) l1 l2).sum = l1.sum - l2.sum := by
  induction l1 generalizing l2 with
  | nil =>
    cases l2 with
    | nil => simp
    | cons b bs => simp at h
  | cons a as ih =>
    cases l2 with
    | nil => simp at h
    | cons b bs =>
      simp only [List.length_cons, Nat.add_right_cancel_iff] at h
      rw [List.zipWith_cons_cons, List.sum_cons, List.sum_cons, List.sum_cons, ih bs h]
      ring

/-- The sum of a row of a matrix of `r` rows of length `c` is the sum of its entries. -/
theorem row_sum_eq_sum_range {M : Matrix ℝ} {r c : Nat} (hM : HasShape M r c) {i : Nat}
    {row : List ℝ} (hrow : M[i]? = some row) :
    row.sum = ∑ j ∈ Finset.range c, entryD M i j := by
  rw [list_sum_eq_sum_range, hM.2 row (List.getElem?_mem hrow)]
  apply Finset.sum_congr rfl
  intro j _
  simp [entryD, entry?, hrow]

/-- The rows of `delta = Y_prob - Y` sum to zero when the rows of `Y` sum to one. -/
theorem delta_rows_sum_zero {Z Y : Matrix ℝ} {B C : Nat} (hC : 1 ≤ C) (hZ : HasShape Z B C)
    (hY : HasShape Y B C) (hYsum : ∀ row ∈ Y, row.sum = 1) :
    ∀ row ∈ delta_real (probs_real Real.exp Z) Y, row.sum = 0 := by
  intro row hrow
  unfold delta_real at hrow
  obtain ⟨i, hi⟩ := List.getElem?_of_mem hrow
  rw [List.getElem?_zipWith] at hi
  cases hp : (probs_real Real.exp Z)[i]? with
  | none => rw [hp] at hi; simp at hi
  | some prow =>
    cases hy : Y[i]? with
    | none => rw [hp, hy] at hi; simp at hi
    | some yrow =>
      rw [hp, hy] at hi
      simp only [Option.some.injEq] at hi
      subst hi
      have hPs := hasShape_probs_real hZ
      have hplen := hPs.2 prow (List.getElem?_mem hp)
      have hylen := hY.2 yrow (List.getElem?_mem hy)
      rw [sum_zipWith_sub prow yrow (hplen.trans hylen.symm),
        hYsum yrow (List.getElem?_mem hy)]
      have hpsum : prow.sum = 1 := by
        unfold probs_real at hp
        rw [List.getElem?_map] at hp
        cases hz : Z[i]? with
        | none => rw [hz] at hp; simp at hp
        | some zrow =>
          rw [hz] at hp
          simp only [Option.map_some', Option.some.injEq] at hp
          subst hp
          apply softmax_row_sum
          intro h0
          have := hZ.2 zrow (List.getElem?_mem hz)
          rw [h0] at this
          simp at this
          omega
      rw [hpsum, sub_self]

/-- The entries of the row of column sums of a matrix with zero row sums sum to zero. -/
theorem column_sums_sum_zero {delta : Matrix ℝ} {B C : Nat} (hd : HasShape delta B C)
    (hrows : ∀ row ∈ delta, row.sum = 0) :
    ((List.range C).map fun j => ∑ i ∈ Finset.range B, entryD delta i j).sum = 0 := by
  rw [list_sum_eq_sum_range, List.length_map, List.length_range]
  have hterm : ∀ j ∈ Finset.range C,
      (((List.range C).map fun j => ∑ i ∈ Finset.range B, entryD delta i j)[j]?).getD 0 =
        ∑ i ∈ Finset.range B, entryD delta i j := by
    intro j hj
    rw [List.getElem?_map, List.getElem?_range (Finset.mem_range.mp hj)]
    rfl
  rw [Finset.sum_congr rfl hterm, Finset.sum_comm]
  apply Finset.sum_eq_zero
  intro i hi
  have hi' : i < delta.length := by rw [hd.1]; exact Finset.mem_range.mp hi
  have hrow : delta[i]? = some delta[i] := List.getElem?_eq_getElem hi'
  rw [← row_sum_eq_sum_range hd hrow]
  exact hrows _ (List.getElem?_mem hrow)

/-- With at least one input, one class and one row, all of finite values, and label rows
that each sum to `1`: every row of `delta = Y_prob - Y` sums to `0`, and so do the entries of
the `grad_b` that `grad` stores. -/
theorem grad_b_sums_of_pos (X Y W : Matrix ℝ) (bv : List ℝ) (B D C : Nat)
    (n_classes data_dim : Int) (hB : 1 ≤ B) (hD : 1 ≤ D) (hC : 1 ≤ C)
    (hX : HasShape X B D) (hY : HasShape Y B C) (hW : HasShape W D C) (hbv : bv.length = C)
    (hYsum : ∀ row ∈ Y, row.sum = 1) :
    ∃ (P delta : Matrix ℝ) (gb : List ℝ) (g : GradResult ℝ),
      (operator_mul (Dbl.ofMatrix X) (Dbl.ofMatrix W) >>= fun XW =>
        add_to_each XW (Dbl.ofMatrix [bv]) >>= fun Z => softmax_rows Real.exp Z) =
          Except.ok (Dbl.ofMatrix P) ∧
      operator_sub (Dbl.ofMatrix P) (Dbl.ofMatrix Y) = Except.ok (Dbl.ofMatrix delta) ∧
      (∀ row ∈ delta, row.sum = 0) ∧
      NeuralNetwork.grad Real.exp Real.log
        { W := Dbl.ofMatrix W, b := Dbl.ofMatrix [bv], n_classes := n_classes,
          data_dim := data_dim } (Dbl.ofMatrix X) (Dbl.ofMatrix Y) = Except.ok g ∧
      g.grad_b = Dbl.ofMatrix [gb] ∧ gb.length = C ∧
      (∀ j, j < C → gb[j]? = some (∑ i ∈ Finset.range B, entryD delta i j)) ∧
      gb.sum = 0 := by
  have hZs := hasShape_logits_real X W bv (B := B) (D := D) hbv
  have hPs := hasShape_probs_real hZs
  have hds : HasShape (delta_real (probs_real Real.exp (logits_real X W bv B D C)) Y) B C :=
    hasShape_zipWith _ hPs hY
  have h1 := operator_mul_ofMatrix hX hW hB hD
  have h2 : add_to_each (Dbl.ofMatrix (tabulate B C fun i j =>
      ∑ k ∈ Finset.range D, entryD X i k * entryD W k j)) (Dbl.ofMatrix [bv]) =
      Except.ok (Dbl.ofMatrix (logits_real X W bv B D C)) :=
    add_to_each_ofMatrix (hasShape_tabulate _ _ _) hB hbv
  have h3 : softmax_rows Real.exp (Dbl.ofMatrix (logits_real X W bv B D C)) =
      Except.ok (Dbl.ofMatrix (probs_real Real.exp (logits_real X W bv B D C))) :=
    softmax_rows_ofMatrix (logits_real X W bv B D C) (by
      intro row hrow h0
      have := hZs.2 row hrow
      rw [h0] at this
      simp at this
      omega)
  have h4 : operator_sub (Dbl.ofMatrix (probs_real Real.exp (logits_real X W bv B D C)))
      (Dbl.ofMatrix Y) = Except.ok (Dbl.ofMatrix
        (delta_real (probs_real Real.exp (logits_real X W bv B D C)) Y)) :=
    operator_sub_ofMatrix hPs hY
  have hrows := delta_rows_sum_zero hC hZs hY hYsum
  refine ⟨_, _, (List.range C).map fun j => ∑ i ∈ Finset.range B,
      entryD (delta_real (probs_real Real.exp (logits_real X W bv B D C)) Y) i j, _,
    by rw [h1, ok_bind, h2, ok_bind, h3], h4, hrows,
    grad_ofMatrix X Y W bv B D C n_classes data_dim hB hD hC hX hY hW hbv, ?_, by simp, ?_,
    column_sums_sum_zero hds hrows⟩
  · show Dbl.ofMatrix (grad_b_real _ B C) = _
    simp [grad_b_real, tabulate]
  · intro j hj
    rw [List.getElem?_map, List.getElem?_range hj]
    rfl

/-- Without input (`data_dim = 0`) and with at least one class the product `X * W` has no
column and `add_to_each` throws: `grad` computes no gradient. -/
theorem grad_no_input (X Y : Matrix ℝ) (bv : List ℝ) (B C : Nat) (n_classes data_dim : Int)
    (hB : 1 ≤ B) (hC : 1 ≤ C) (hX : HasShape X B 0) (hbv : bv.length = C) :
    NeuralNetwork.grad Real.exp Real.log
      { W := Dbl.ofMatrix [], b := Dbl.ofMatrix [bv], n_classes := n_classes,
        data_dim := data_dim } (Dbl.ofMatrix X) (Dbl.ofMatrix Y) =
      Except.error Err.ShapeMismatch := by
  have hXl := hasShape_ofMatrix hX
  have hE : Rect ([] : Matrix (Dbl ℝ)) := by decide
  have hmul := operator_mul_eq hXl.rect hE (hXl.n_cols_eq hB)
  rw [hXl.n_rows_eq] at hmul
  have hnc : n_cols (tabulate B (n_cols ([] : Matrix (Dbl ℝ))) fun i j =>
      (List.range (n_cols (Dbl.ofMatrix X))).foldl
        (fun acc k => acc + entryD (Dbl.ofMatrix X) i k * entryD ([] : Matrix (Dbl ℝ)) k j) 0)
      ≠ n_cols (Dbl.ofMatrix [bv]) := by
    rw [n_cols_tabulate _ _ _ hB]
    show (0 : Nat) ≠ (bv.map Dbl.fin).length
    rw [List.length_map, hbv]
    omega
  unfold NeuralNetwork.grad
  have hW : Dbl.ofMatrix ([] : Matrix ℝ) = [] := rfl
  simp only [hW, hmul, ok_bind]
  unfold add_to_each
  rw [if_pos hnc]
  rfl

/-- C20: for a batch of finite values with `batch_size ≥ 1` rows and `n_classes ≥ 1` classes
whose label rows each sum to `1`: `grad` returns when there is at least one input, and
whenever it returns every row of `delta = Y_prob - Y` sums to `0` and so do the entries of the
`grad_b` it stores. -/
theorem grad_b_sums_to_zero (X Y W : Matrix ℝ) (bv : List ℝ) (B D C : Nat)
    (n_classes data_dim : Int) (hB : 1 ≤ B) (hC : 1 ≤ C)
    (hX : HasShape X B D) (hY : HasShape Y B C) (hW : HasShape W D C) (hbv : bv.length = C)
    (hYsum : ∀ row ∈ Y, row.sum = 1) :
    (1 ≤ D → ∃ g, NeuralNetwork.grad Real.exp Real.log
        { W := Dbl.ofMatrix W, b := Dbl.ofMatrix [bv], n_classes := n_classes,
          data_dim := data_dim } (Dbl.ofMatrix X) (Dbl.ofMatrix Y) = Except.ok g) ∧
    ∀ g, NeuralNetwork.grad Real.exp Real.log
        { W := Dbl.ofMatrix W, b := Dbl.ofMatrix [bv], n_classes := n_classes,
          data_dim := data_dim } (Dbl.ofMatrix X) (Dbl.ofMatrix Y) = Except.ok g →
      ∃ (P delta : Matrix ℝ) (gb : List ℝ),
        (operator_mul (Dbl.ofMatrix X) (Dbl.ofMatrix W) >>= fun XW =>
          add_to_each XW (Dbl.ofMatrix [bv]) >>= fun Z => softmax_rows Real.exp Z) =
            Except.ok (Dbl.ofMatrix P) ∧
        operator_sub (Dbl.ofMatrix P) (Dbl.ofMatrix Y) = Except.ok (Dbl.ofMatrix delta) ∧
        (∀ row ∈ delta, row.sum = 0) ∧
        g.grad_b = Dbl.ofMatrix [gb] ∧ gb.length = C ∧
        (∀ j, j < C → gb[j]? = some (∑ i ∈ Finset.range B, entryD delta i j)) ∧
        gb.sum = 0 := by
  by_cases hD : 1 ≤ D
  · obtain ⟨P, delta, gb, g', h1, h2, h3, hg, h4, h5, h6, h7⟩ :=
      grad_b_sums_of_pos X Y W bv B D C n_classes data_dim hB hD hC hX hY hW hbv hYsum
    refine ⟨fun _ => ⟨g', hg⟩, ?_⟩
    intro g hg'
    rw [hg] at hg'
    cases hg'
    exact ⟨P, delta, gb, h1, h2, h3, h4, h5, h6, h7⟩
  · have hD0 : D = 0 := by omega
    subst hD0
    have hW0 : W = [] := List.length_eq_zero.mp hW.1
    subst hW0
    refine ⟨fun h => absurd h hD, ?_⟩
    intro g hg
    rw [grad_no_input X Y bv B C n_classes data_dim hB hC hX hbv] at hg
    cases hg

/-- Witness of C20 on the identity batch with `W = I` and `b = 0`. -/
theorem grad_b_sums_to_zero_witness :
    ∃ (gb : List ℝ) (g : GradResult ℝ),
      NeuralNetwork.grad Real.exp Real.log
        { W := Dbl.ofMatrix [[1, 0], [0, 1]], b := Dbl.ofMatrix [[0, 0]], n_classes := 2,
          data_dim := 2 } (Dbl.ofMatrix [[1, 0], [0, 1]]) (Dbl.ofMatrix [[1, 0], [0, 1]]) =
        Except.ok g ∧
      g.grad_b = Dbl.ofMatrix [gb] ∧ gb.sum = 0 := by
  have h := grad_b_sums_to_zero [[1, 0], [0, 1]] [[1, 0], [0, 1]] [[1, 0], [0, 1]] [0, 0]
    2 2 2 2 2 (by decide) (by decide) (hasShape_two _ _ _ _) (hasShape_two _ _ _ _)
    (hasShape_two _ _ _ _) rfl (by
      intro row hrow
      simp only [List.mem_cons, List.mem_singleton, List.mem_nil_iff, or_false] at hrow
      rcases hrow with rfl | rfl <;> simp)
  obtain ⟨g, hg⟩ := h.1 (by decide)
  obtain ⟨_, _, gb, -, -, -, hgb, -, -, hsum⟩ := h.2 g hg
  exact ⟨gb, g, hg, hgb, hsum⟩

end BiasGradient

end MnistMpi
